import Mathlib

/-!
# A verification of the `fsm` automaton pipeline

This file gives a shallow embedding, in Lean 4, of the core of the `fsm`
repository (a finite-state-machine compiler and runner written in Rust):

* the table-encoded DFA executor (`src/dfa.rs`),
* the regular-expression parser and Thompson NFA builder (`src/regex_parser.rs`),
* the subset-construction determinizer and the structured-spec loader
  (`src/parser.rs`),

and proves the functional-correctness, invariant, refinement and
error-handling properties stated in the specification.

Conventions of the embedding:

* Rust `BTreeSet` values are modelled as strictly sorted `List`s maintained by
  ordered insertion (`insOrd`); `BTreeMap`s are modelled as association lists.
* Machine integers (`usize`, `u32`) are modelled as `Nat`; indexing into a
  `Vec` is modelled with `List.getD` (the code only indexes in bounds).
* Loops whose termination is not structural (the ε-closure worklist, the
  subset-construction worklist, the recursive-descent parser) take an explicit
  fuel argument and return `none` when the fuel runs out; the fuel is an
  embedding artifact, and theorems are stated conditionally on success.
* Fallible Rust functions returning `anyhow::Result` are modelled with
  `Except Failure`, where `Failure` distinguishes an ordinary error value
  from a process abort (the `unwrap_or_else` abort in character-range
  expansion).
* Display-only data (automaton name, description, per-state display labels)
  is omitted; the state-key strings produced by the determinizer are kept
  because the synthetic dead state is identified by its `FAILURE` key.
-/

/-- Ordered insertion into a strictly ascending list; models insertion into a
Rust `BTreeSet`. -/
def insOrd {α : Type} [LinearOrder α] (x : α) : List α → List α
  | [] => [x]
  | y :: ys => if x < y then x :: y :: ys else if x = y then y :: ys else y :: insOrd x ys

/-- Union of a list of elements into a sorted set; models `BTreeSet::extend`. -/
def extendOrd {α : Type} [LinearOrder α] (s : List α) (xs : List α) : List α :=
  xs.foldl (fun acc x => insOrd x acc) s

/-- The transition map of an NFA: `(state, Option char) ↦ set of states`, as in
`Nfa::transitions` (`BTreeMap<(usize, Option<char>), BTreeSet<usize>>`). -/
abbrev TransMap : Type := List ((Nat × Option Char) × List Nat)

/-- Association-list lookup (models `BTreeMap::get`). -/
def lookupKV {kk vv : Type} [DecidableEq kk] : List (kk × vv) → kk → Option vv
  | [], _ => none
  | (k, v) :: rest, key => if key = k then some v else lookupKV rest key

/-- Lookup of the destination set for a `(state, trigger)` key; absent keys act
as the empty set (`transitions.get` returning `None` means "no move"). -/
def transLookup (m : TransMap) (i : Nat) (oc : Option Char) : List Nat :=
  (lookupKV m (i, oc)).getD []

/-- Models `transitions.entry((from, on)).or_insert_with(BTreeSet::new).insert(to)`. -/
def transInsert (i : Nat) (oc : Option Char) (j : Nat) : TransMap → TransMap
  | [] => [((i, oc), [j])]
  | (k, vs) :: rest =>
      if (i, oc) = k then (k, insOrd j vs) :: rest else (k, vs) :: transInsert i oc j rest

/-- The set of non-ε labels of a transition map, as a sorted set; models
`transitions.keys().filter_map(|(_, c)| *c).collect::<BTreeSet<char>>()`. -/
def transLabels (m : TransMap) : List Char :=
  m.foldl
    (fun acc kv =>
      match kv.1.2 with
      | some c => insOrd c acc
      | none => acc)
    []

/-- The dense table-encoded DFA of `src/dfa.rs` (display-only fields `name`,
`description` and `state_properties` omitted; the two `BiMap`s are modelled by
lists indexed by position). -/
structure Dfa where
  /-- `alphabet : BiMap<char, usize>`: the character at position `i` has
  alphabet index `i`. -/
  alphabet : List Char
  /-- `state_keys : BiMap<String, usize>`: the key at position `i` belongs to
  state index `i`. -/
  state_keys : List String
  start_state_idx : Nat
  accept_states : List Bool
  /-- `(state_idx * alphabet_len) + alphabet_idx -> next_state_idx` -/
  transition_table : List Nat
  deriving DecidableEq

/-- `alphabet.get_by_left(&c)`: the alphabet index of a character. -/
def alphabetIdx (d : Dfa) (c : Char) : Option Nat :=
  d.alphabet.findIdx? (fun a => a = c)

/-- The character-consuming loop of `Dfa::run`, carrying the cached previous
character and its alphabet index. -/
def runFrom (d : Dfa) (q : Nat) (prevc : Char) (previ : Nat) : List Char → Bool
  | [] => d.accept_states.getD q false
  | c :: rest =>
      if c = prevc then
        runFrom d (d.transition_table.getD (q * d.alphabet.length + previ) 0) prevc previ rest
      else
        match alphabetIdx d c with
        | some idx =>
            runFrom d (d.transition_table.getD (q * d.alphabet.length + idx) 0) c idx rest
        | none => false

/-- `Dfa::run`: the first character is handled separately (establishing the
cache), then the loop runs; empty input returns the start state's accept flag. -/
def dfaRun (d : Dfa) (input : List Char) : Bool :=
  match input with
  | [] => d.accept_states.getD d.start_state_idx false
  | c :: rest =>
      match alphabetIdx d c with
      | some idx =>
          runFrom d (d.transition_table.getD (d.start_state_idx * d.alphabet.length + idx) 0)
            c idx rest
      | none => false

/-- Modelled from the spec (§4.6): the state reached by the reference
algorithm, `none` when a character outside the alphabet was met. -/
def specStates (d : Dfa) (w : List Char) : Option Nat :=
  w.foldlM
    (fun q c =>
      (alphabetIdx d c).map fun a => d.transition_table.getD (q * d.alphabet.length + a) 0)
    d.start_state_idx

/-- Modelled from the spec (§4.6): the reference acceptance algorithm that
`Dfa::run` (claim C2) is compared against. -/
def specRun (d : Dfa) (w : List Char) : Bool :=
  match specStates d w with
  | none => false
  | some q => d.accept_states.getD q false

/-- The regular-expression tree of `src/regex_parser.rs` (`enum Expression`). -/
inductive Expression
  | Epsilon
  | Literal (c : Char)
  | Concat (e1 e2 : Expression)
  | Alternate (e1 e2 : Expression)
  | Star (e : Expression)
  deriving DecidableEq

/-- The language denoted by a regular expression, `w ∈ L(E)`, with the standard
semantics (the spec's `L(E)`). -/
inductive Matches : Expression → List Char → Prop
  | epsilon : Matches .Epsilon []
  | literal (c : Char) : Matches (.Literal c) [c]
  | concat {e1 e2 : Expression} {w1 w2 : List Char} :
      Matches e1 w1 → Matches e2 w2 → Matches (.Concat e1 e2) (w1 ++ w2)
  | altLeft {e1 e2 : Expression} {w : List Char} :
      Matches e1 w → Matches (.Alternate e1 e2) w
  | altRight {e1 e2 : Expression} {w : List Char} :
      Matches e2 w → Matches (.Alternate e1 e2) w
  | starEmpty {e : Expression} : Matches (.Star e) []
  | starStep {e : Expression} {w1 w2 : List Char} :
      Matches e w1 → Matches (.Star e) w2 → Matches (.Star e) (w1 ++ w2)

/-- The literal characters occurring in an expression. -/
def exprLiterals : Expression → List Char
  | .Epsilon => []
  | .Literal c => [c]
  | .Concat e1 e2 => exprLiterals e1 ++ exprLiterals e2
  | .Alternate e1 e2 => exprLiterals e1 ++ exprLiterals e2
  | .Star e => exprLiterals e

/-! ### The regex parser (`src/regex_parser.rs`, `parse` and friends)

The Rust parser is a recursive-descent parser over a `Peekable<Chars>`; it is
embedded as functions on `List Char` returning the parsed expression together
with the unconsumed input.  `PRes` wraps the result: `none` is fuel exhaustion
(embedding artifact), `some (.error msg)` a parse error. -/

deriving instance DecidableEq for Except

/-- Result of a fueled, fallible computation. -/
abbrev PRes (α : Type) : Type := Option (Except String α)

/-- A parse error (`anyhow!` in the source). -/
def pErr {α : Type} (msg : String) : PRes α := some (.error msg)

/-- A successful parse. -/
def pOk {α : Type} (a : α) : PRes α := some (.ok a)

/-- Sequencing of fueled fallible computations (`?` in the source). -/
def pBind {α β : Type} : PRes α → (α → PRes β) → PRes β
  | none, _ => none
  | some (.error e), _ => some (.error e)
  | some (.ok a), f => f a

/-- Decimal value of a digit string (models `str::parse::<u32>` on a string of
digits, before the range check). -/
def digitsVal (digits : List Char) : Nat :=
  digits.foldl (fun n c => n * 10 + (c.toNat - 48)) 0

/-- `e^n` desugaring: `expr = Concat(expr, base)` repeated for `2..=n`. -/
def expPow (base : Expression) (n : Nat) : Expression :=
  (List.range (n - 1)).foldl (fun acc _ => .Concat acc base) base

mutual

/-- `parse_alternate`. -/
def parseAlternate : Nat → List Char → PRes (Expression × List Char)
  | 0, _ => none
  | fuel + 1, inp =>
      pBind (parseConcat fuel inp) fun er => parseAltLoop fuel er.1 er.2

/-- The `while let Some('|')` loop of `parse_alternate`. -/
def parseAltLoop : Nat → Expression → List Char → PRes (Expression × List Char)
  | 0, _, _ => none
  | fuel + 1, left, inp =>
      match inp with
      | '|' :: rest =>
          pBind (parseConcat fuel rest) fun er =>
            parseAltLoop fuel (.Alternate left er.1) er.2
      | _ => pOk (left, inp)

/-- `parse_concat`. -/
def parseConcat : Nat → List Char → PRes (Expression × List Char)
  | 0, _ => none
  | fuel + 1, inp =>
      pBind (parsePost fuel inp) fun er => parseConcatLoop fuel er.1 er.2

/-- The juxtaposition loop of `parse_concat`. -/
def parseConcatLoop : Nat → Expression → List Char → PRes (Expression × List Char)
  | 0, _, _ => none
  | fuel + 1, left, inp =>
      match inp with
      | c :: _ =>
          if c ≠ ')' ∧ c ≠ '|' then
            pBind (parsePost fuel inp) fun er =>
              parseConcatLoop fuel (.Concat left er.1) er.2
          else pOk (left, inp)
      | [] => pOk (left, inp)

/-- `parse_postfix` (renamed: a term followed by postfix operators). -/
def parsePost : Nat → List Char → PRes (Expression × List Char)
  | 0, _ => none
  | fuel + 1, inp =>
      pBind (parseTerm fuel inp) fun er => parsePostLoop fuel er.1 er.2

/-- The postfix-operator loop of `parse_postfix`: `*`, `+`, `?`, `^n`. -/
def parsePostLoop : Nat → Expression → List Char → PRes (Expression × List Char)
  | 0, _, _ => none
  | fuel + 1, expr, inp =>
      match inp with
      | '*' :: rest => parsePostLoop fuel (.Star expr) rest
      | '+' :: rest => parsePostLoop fuel (.Concat expr (.Star expr)) rest
      | '?' :: rest => parsePostLoop fuel (.Alternate expr .Epsilon) rest
      | '^' :: rest =>
          let digits := rest.takeWhile Char.isDigit
          let rest2 := rest.dropWhile Char.isDigit
          if digits.isEmpty then
            pErr "Expected a number after the caret for exponentiation."
          else
            let n := digitsVal digits
            if n ≥ 4294967296 then pErr "Invalid number for exponent"
            else if n = 0 then pErr "Exponent must be a positive integer."
            else parsePostLoop fuel (expPow expr n) rest2
      | _ => pOk (expr, inp)

/-- `parse_term`. -/
def parseTerm : Nat → List Char → PRes (Expression × List Char)
  | 0, _ => none
  | fuel + 1, inp =>
      match inp with
      | [] => pErr "Unexpected end of expression"
      | '(' :: rest =>
          pBind (parseAlternate fuel rest) fun er =>
            match er.2 with
            | ')' :: rest2 => pOk (er.1, rest2)
            | _ => pErr "Mismatched parentheses: expected closing"
      | ')' :: _ => pErr "Mismatched parentheses: unexpected closing"
      | c :: rest =>
          if c = '|' ∨ c = '*' ∨ c = '+' ∨ c = '?' ∨ c = '^' then
            pErr "Unexpected operator"
          else pOk (.Literal c, rest)

end

/-- `parse`: strip whitespace, parse an alternate, demand the input is
exhausted. -/
def parseRegex (fuel : Nat) (raw : String) : PRes Expression :=
  if raw.isEmpty then pErr "Empty regex string"
  else
    let cleaned := raw.toList.filter fun c => ¬c.isWhitespace
    pBind (parseAlternate fuel cleaned) fun er =>
      match er.2 with
      | [] => pOk er.1
      | _ => pErr "Unexpected token after parsed expression"

/-! ### The Thompson NFA builder (`src/regex_parser.rs`, `expr_to_nfa`) -/

/-- `struct NfaBuilder`. -/
structure NfaBuilder where
  transitions : TransMap
  state_counter : Nat
  deriving DecidableEq

/-- `NfaBuilder::new_state`. -/
def NfaBuilder.newState (b : NfaBuilder) : Nat × NfaBuilder :=
  (b.state_counter, { b with state_counter := b.state_counter + 1 })

/-- `NfaBuilder::add_transition`. -/
def NfaBuilder.addTransition (b : NfaBuilder) (fr tg : Nat) (onC : Option Char) : NfaBuilder :=
  { b with transitions := transInsert fr onC tg b.transitions }

/-- `expr_to_nfa`: Thompson's construction, returning the `(start, accept)`
pair of the compiled fragment and the extended builder. -/
def exprToNfa : Expression → NfaBuilder → (Nat × Nat) × NfaBuilder
  | .Epsilon, b =>
      let (s, b1) := b.newState
      let (e, b2) := b1.newState
      ((s, e), b2.addTransition s e none)
  | .Literal c, b =>
      let (s, b1) := b.newState
      let (e, b2) := b1.newState
      ((s, e), b2.addTransition s e (some c))
  | .Concat l r, b =>
      let ((ls, le), b1) := exprToNfa l b
      let ((rs, re), b2) := exprToNfa r b1
      ((ls, re), b2.addTransition le rs none)
  | .Alternate l r, b =>
      let (s, b1) := b.newState
      let (e, b2) := b1.newState
      let ((ls, le), b3) := exprToNfa l b2
      let ((rs, re), b4) := exprToNfa r b3
      ((s, e),
        (((b4.addTransition s ls none).addTransition s rs none).addTransition le e
              none).addTransition re e none)
  | .Star x, b =>
      let (s, b1) := b.newState
      let (e, b2) := b1.newState
      let ((xs, xe), b3) := exprToNfa x b2
      ((s, e),
        (((b3.addTransition s e none).addTransition s xs none).addTransition xe e
              none).addTransition xe xs none)

/-- The intermediate NFA (`struct Nfa` in `src/parser.rs`). -/
structure Nfa where
  transitions : TransMap
  start_state : Nat
  nfa_accept_states : List Nat
  /-- `nfa_state_keys : BiMap<String, usize>`: key at position `i` ↔ state `i`. -/
  nfa_state_keys : List String
  deriving DecidableEq

/-- Path semantics for the NFA transition map: `NfaPath t i w j` holds when
state `j` is reachable from state `i` consuming exactly the word `w`, using
character edges and ε-edges. -/
inductive NfaPath (t : TransMap) : Nat → List Char → Nat → Prop
  | refl (i : Nat) : NfaPath t i [] i
  | eps {i j k : Nat} {w : List Char} :
      j ∈ transLookup t i none → NfaPath t j w k → NfaPath t i w k
  | char {i j k : Nat} {w : List Char} (c : Char) :
      j ∈ transLookup t i (some c) → NfaPath t j w k → NfaPath t i (c :: w) k

/-! ### The determinizer (`src/parser.rs`, `Nfa::to_dfa`) -/

/-- Insertion of a batch of states into the closure, collecting the newly
inserted ones in order. -/
def eclFold (cl nl : List Nat) (ds : List Nat) : List Nat × List Nat :=
  ds.foldl (fun acc d => if d ∈ acc.1 then acc else (insOrd d acc.1, acc.2 ++ [d])) (cl, nl)

/-- One pop of the ε-closure worklist: insert each ε-destination of `state`
into the closure, collecting the newly inserted states (`closure.insert(dest)`
returning `true` pushes `dest`). -/
def eclStep (t : TransMap) (closure : List Nat) (state : Nat) : List Nat × List Nat :=
  eclFold closure [] (transLookup t state none)

/-- The ε-closure worklist loop (`Nfa::epsilon_closure`), fueled. -/
def epsilonClosureAux (t : TransMap) : Nat → List Nat → List Nat → Option (List Nat)
  | 0, _, _ => none
  | fuel + 1, closure, worklist =>
      match worklist with
      | [] => some closure
      | state :: rest =>
          let p := eclStep t closure state
          epsilonClosureAux t fuel p.1 (p.2 ++ rest)

/-- `Nfa::epsilon_closure`: closure and worklist both start as the given set. -/
def epsilonClosure (t : TransMap) (fuel : Nat) (states : List Nat) : Option (List Nat) :=
  epsilonClosureAux t fuel states states

/-- `Nfa::move_on_char`: all states reachable from the set on one character. -/
def moveOnChar (t : TransMap) (states : List Nat) (symbol : Char) : List Nat :=
  states.foldl (fun acc q => extendOrd acc (transLookup t q (some symbol))) []

/-- Insert-or-overwrite into the `(dfa_state, alpha_idx) ↦ dfa_state` map
(`BTreeMap::insert`). -/
def pairInsert (k : Nat × Nat) (v : Nat) : List ((Nat × Nat) × Nat) → List ((Nat × Nat) × Nat)
  | [] => [(k, v)]
  | (k', v') :: rest => if k = k' then (k, v) :: rest else (k', v') :: pairInsert k v rest

/-- The local state of the subset-construction worklist loop in `Nfa::to_dfa`:
the subset↦index map (entries are appended in index order), the FIFO worklist,
and the discovered transitions. -/
structure SubsetState where
  dfa_states : List (List Nat × Nat)
  worklist : List (List Nat)
  dfa_transitions : List ((Nat × Nat) × Nat)
  deriving DecidableEq

/-- The body of the per-symbol loop of `Nfa::to_dfa`: compute
`ε-closure(move(S, symbol))`; skip it when empty, otherwise look it up or
allocate the next DFA index, and record the transition. -/
def processSym (t : TransMap) (fuel : Nat) (S : List Nat) (currentIdx : Nat)
    (st' : SubsetState) (ai : Nat × Char) : Option SubsetState := do
  let moved := moveOnChar t S ai.2
  let T ← epsilonClosure t fuel moved
  if T = [] then pure st'
  else
    match lookupKV st'.dfa_states T with
    | some idx =>
        pure { st' with
          dfa_transitions := pairInsert (currentIdx, ai.1) idx st'.dfa_transitions }
    | none =>
        let newIdx := st'.dfa_states.length
        pure { st' with
          dfa_states := st'.dfa_states ++ [(T, newIdx)],
          worklist := st'.worklist ++ [T],
          dfa_transitions := pairInsert (currentIdx, ai.1) newIdx st'.dfa_transitions }

/-- Processing of one popped subset: fold the per-symbol body over the
alphabet, enumerated with its indices. -/
def processSubset (t : TransMap) (alphabet : List Char) (fuel : Nat) (S : List Nat)
    (st : SubsetState) : Option SubsetState :=
  alphabet.enum.foldlM (processSym t fuel S ((lookupKV st.dfa_states S).getD 0)) st

/-- The `while let Some(current_nfa_set) = worklist.pop_front()` loop. -/
def subsetLoop (t : TransMap) (alphabet : List Char) : Nat → SubsetState → Option SubsetState
  | 0, _ => none
  | fuel + 1, st =>
      match st.worklist with
      | [] => some st
      | S :: rest => do
          let st' ← processSubset t alphabet fuel S { st with worklist := rest }
          subsetLoop t alphabet fuel st'

/-- The scan for missing `(state, symbol)` pairs after the worklist drains. -/
def needsDeadState (numStates alphaLen : Nat)
    (transitions : List ((Nat × Nat) × Nat)) : Bool :=
  (List.range numStates).any fun i =>
    (List.range alphaLen).any fun j => (lookupKV transitions (i, j)).isNone

/-- The worklist phase of `Nfa::to_dfa`: seed with `ε-closure({start})` at
index 0 and run the loop to completion. -/
def subsetConstruct (nfa : Nfa) (alphabet : List Char) (fuel : Nat) : Option SubsetState := do
  let S0 ← epsilonClosure nfa.transitions fuel [nfa.start_state]
  subsetLoop nfa.transitions alphabet fuel ⟨[(S0, 0)], [S0], []⟩

/-- The display key of a determinized DFA state: the sorted underlying NFA
keys, wrapped in braces. -/
def subsetKey (stateKeys : List String) (S : List Nat) : String :=
  let keys := S.map fun i => (stateKeys.getD i "ERR")
  let sortedKeys := keys.mergeSort fun a b => a ≤ b
  "\x7b" ++ String.intercalate "," sortedKeys ++ "\x7d"

/-- The assembly phase of `Nfa::to_dfa` after the worklist drains: on-demand
dead-state allocation and construction of the dense table, accept flags and
keys.  (The `sorted_dfa_states` sort of the source is the identity here:
`dfa_states` entries are appended in index order.) -/
def assembleDfa (nfa : Nfa) (alphabet : List Char) (stF : SubsetState) : Dfa :=
  let numDfaStates := stF.dfa_states.length
  let needsDead := needsDeadState numDfaStates alphabet.length stF.dfa_transitions
  let deadStateIdx : Option Nat := if needsDead then some numDfaStates else none
  let transFinal :=
    if needsDead then
      (List.range alphabet.length).foldl
        (fun m j => pairInsert (numDfaStates, j) numDfaStates m) stF.dfa_transitions
    else stF.dfa_transitions
  let totalDfaStates := numDfaStates + (if needsDead then 1 else 0)
  let acceptBase := stF.dfa_states.map fun p => p.1.any fun q => nfa.nfa_accept_states.contains q
  let keysBase := stF.dfa_states.map fun p => subsetKey nfa.nfa_state_keys p.1
  let accept_states := acceptBase ++ (if needsDead then [false] else [])
  let state_keys := keysBase ++ (if needsDead then ["FAILURE"] else [])
  let table0 := List.replicate (totalDfaStates * alphabet.length) (deadStateIdx.getD 0)
  let transition_table :=
    transFinal.foldl (fun tbl kv => tbl.set (kv.1.1 * alphabet.length + kv.1.2) kv.2) table0
  { alphabet := alphabet, state_keys := state_keys, start_state_idx := 0,
    accept_states := accept_states, transition_table := transition_table }

/-- `Nfa::to_dfa`: run the worklist to completion, then assemble the DFA. -/
def Nfa.toDfa (nfa : Nfa) (alphabetSet : List Char) (fuel : Nat) : Option Dfa :=
  (subsetConstruct nfa alphabetSet fuel).map (assembleDfa nfa alphabetSet)

/-- `enum Fsm`. -/
inductive Fsm
  | dfa (d : Dfa)
  | nfaFsm (n : Nfa) (d : Dfa)
  deriving DecidableEq

/-- The runnable DFA of an `Fsm` (both variants carry one). -/
def Fsm.dfaOf : Fsm → Dfa
  | .dfa d => d
  | .nfaFsm _ d => d

/-- The synthesized state keys `q0, q1, …` of `from_regex`. -/
def regexStateKeys (n : Nat) : List String :=
  (List.range n).map fun i => "q" ++ toString i

/-- The compilation phase of `from_regex` after parsing: Thompson construction
from a fresh builder, alphabet collection from the transition labels, and
determinization. -/
def compileExpr (fuel : Nat) (expr : Expression) : Option Fsm :=
  let r := exprToNfa expr ⟨[], 0⟩
  let nfa : Nfa :=
    { transitions := r.2.transitions, start_state := r.1.1,
      nfa_accept_states := [r.1.2], nfa_state_keys := regexStateKeys r.2.state_counter }
  let alphabetSet := transLabels nfa.transitions
  (nfa.toDfa alphabetSet fuel).map fun d => Fsm.nfaFsm nfa d

/-- `from_regex`: parse, then compile. -/
def fromRegex (fuel : Nat) (regex : String) : Option (Except String Fsm) :=
  match parseRegex fuel regex with
  | none => none
  | some (.error e) => some (.error e)
  | some (.ok expr) => (compileExpr fuel expr).map .ok

/-- Builder well-formedness: every state mentioned in the transition map has
already been allocated by the counter. -/
def NfaBuilder.Wf (b : NfaBuilder) : Prop :=
  ∀ i oc j, j ∈ transLookup b.transitions i oc → i < b.state_counter ∧ j < b.state_counter

/-- The facts established about one `expr_to_nfa` call (from builder `b` to
builder `b'`, producing the fragment `(s, e)` for expression `E`): counter
monotonicity, bounds on the fragment's states, well-formedness, preservation
and classification of edges, absence of edges out of the fragment's accept
state, and the language of the paths from `s` to `e`. -/
structure BuildSpec (b : NfaBuilder) (s e : Nat) (b' : NfaBuilder) (E : Expression) : Prop where
  counter_le : b.state_counter ≤ b'.state_counter
  s_lb : b.state_counter ≤ s
  s_ub : s < b'.state_counter
  e_lb : b.state_counter ≤ e
  e_ub : e < b'.state_counter
  s_ne_e : s ≠ e
  wf : b'.Wf
  preserve : ∀ i oc j, j ∈ transLookup b.transitions i oc → j ∈ transLookup b'.transitions i oc
  classify : ∀ i oc j, j ∈ transLookup b'.transitions i oc →
      j ∈ transLookup b.transitions i oc ∨
        (b.state_counter ≤ i ∧ i < b'.state_counter ∧ b.state_counter ≤ j ∧ j < b'.state_counter)
  no_out_accept : ∀ oc j, j ∈ transLookup b'.transitions e oc → False
  sem : ∀ w, NfaPath b'.transitions s w e ↔ Matches E w

/-- The `k`-th discovered subset/index pair of the loop state. -/
def stateAt (st : SubsetState) (k : Nat) : List Nat × Nat :=
  st.dfa_states.getD k ([], 0)

/-- One `(subset, symbol)` pair fully handled: the ε-closure of the move set is
characterized by ε-paths, and the transition map records it (or omits it when
empty). -/
def charDone (t : TransMap) (st : SubsetState) (S : List Nat) (iS a : Nat) (c : Char) :
    Prop :=
  ∃ T, (∀ x, x ∈ T ↔ ∃ s ∈ moveOnChar t S c, NfaPath t s [] x) ∧
    ((T = [] ∧ lookupKV st.dfa_transitions (iS, a) = none) ∨
      (T ≠ [] ∧ ∃ k, lookupKV st.dfa_transitions (iS, a) = some k ∧ (T, k) ∈ st.dfa_states))

/-- The bookkeeping invariant of the subset-construction loop state. -/
structure SubInv (alphabet : List Char) (st : SubsetState) : Prop where
  idx_at : ∀ k, k < st.dfa_states.length → (stateAt st k).2 = k
  keys_nodup : (st.dfa_states.map Prod.fst).Nodup
  wl_mem : ∀ S ∈ st.worklist, ∃ i, (S, i) ∈ st.dfa_states
  wl_nodup : st.worklist.Nodup
  trans_dom : ∀ i a k, lookupKV st.dfa_transitions (i, a) = some k →
      i < st.dfa_states.length ∧ a < alphabet.length ∧ k < st.dfa_states.length ∧
        (stateAt st i).1 ∉ st.worklist
  trans_keys_nodup : (st.dfa_transitions.map Prod.fst).Nodup

/-- All discovered states except possibly `S` that are off the worklist are
fully processed. -/
def procOthers (t : TransMap) (alphabet : List Char) (st : SubsetState) (S : List Nat) :
    Prop :=
  ∀ p ∈ st.dfa_states, p.1 ∉ st.worklist → p.1 ≠ S → ∀ a, ∀ ha : a < alphabet.length,
    charDone t st p.1 p.2 a (alphabet.get ⟨a, ha⟩)

/-- All discovered states off the worklist are fully processed. -/
def procAll (t : TransMap) (alphabet : List Char) (st : SubsetState) : Prop :=
  ∀ p ∈ st.dfa_states, p.1 ∉ st.worklist → ∀ a, ∀ ha : a < alphabet.length,
    charDone t st p.1 p.2 a (alphabet.get ⟨a, ha⟩)

/-- `run` on a regex pipeline end to end (`from_regex` then `Dfa::run`, as
`main.rs` does for a regex argument); `none` when the fuel runs out or the
regex is rejected. -/
def runRegex (fuel : Nat) (regex : String) (input : String) : Option Bool :=
  match fromRegex fuel regex with
  | some (.ok fsm) => some (dfaRun fsm.dfaOf input.data)
  | _ => none

/-! ### The YAML spec loader (`src/parser.rs`) -/

/-- Outcome marker for fallible loader code: `panicked` models a process abort
(`panic!` via `unwrap_or_else`), `failure` an `anyhow!` error value returned to
the caller. -/
inductive Failure where
  | panicked
  | failure (msg : String)
  deriving DecidableEq

/-- `struct YamlRangeMap` (both fields `#[serde(default)]`). -/
structure YamlRangeMap where
  crange : Option String
  nrange : Option String
  deriving DecidableEq

/-- `enum YamlSymbolSpecifier`. -/
inductive YamlSymbolSpecifier where
  | Literal (s : String)
  | Map (m : YamlRangeMap)
  deriving DecidableEq

/-- The `for c in (start as u32)..=(end as u32)` loop of `to_char_set`,
counting down the remaining iterations: each code point is checked by
`char::from_u32`, whose `None` case is turned into a process abort
(`unwrap_or_else(|| panic!(..))`). -/
def crangeFold : Nat → Nat → List Char → Except Failure (List Char)
  | 0, _, acc => .ok acc
  | k + 1, cur, acc =>
      if Nat.isValidChar cur then crangeFold k (cur + 1) (insOrd (Char.ofNat cur) acc)
      else .error .panicked

/-- `str::split("..")`: split a character list at each non-overlapping
occurrence of two consecutive dots, scanning from the left. -/
def splitDots : List Char → List (List Char)
  | [] => [[]]
  | '.' :: '.' :: rest => [] :: splitDots rest
  | c :: rest =>
      match splitDots rest with
      | [] => [[c]]
      | p :: ps => (c :: p) :: ps

/-- The `crange` arm of `to_char_set`: split on `".."`, take the first char of
each side, check the order, then expand. -/
def crangeSet (cr : String) : Except Failure (List Char) :=
  let parts := splitDots cr.data
  if parts.length ≠ 2 then .error (.failure ("Invalid character range: " ++ cr))
  else
    match (parts.getD 0 []).head? with
    | none => .error (.failure ("Empty start in range: " ++ cr))
    | some start =>
        match (parts.getD 1 []).head? with
        | none => .error (.failure ("Empty end in range: " ++ cr))
        | some stop =>
            if stop < start then
              .error (.failure ("Start character greater than end in range: " ++ cr))
            else crangeFold (stop.toNat + 1 - start.toNat) start.toNat []

/-- `str::parse::<u8>`: an optional leading `+`, then at least one decimal
digit, value at most 255. -/
def parseU8 (ds0 : List Char) : Option Nat :=
  let ds := if ds0.head? = some (Char.ofNat 43) then ds0.tail else ds0
  if ds ≠ [] ∧ ds.all (fun c => c.isDigit) then
    if digitsVal ds ≤ 255 then some (digitsVal ds) else none
  else none

/-- The `nrange` arm of `to_char_set`, inserting into the set built so far:
split on `".."`, parse both sides as `u8`, check order and the 0..9 bound,
then insert the digit characters. -/
def nrangeInto (set1 : List Char) (nr : String) : Except Failure (List Char) :=
  let parts := splitDots nr.data
  if parts.length ≠ 2 then .error (.failure ("Invalid numeric range: " ++ nr))
  else
    match parseU8 (parts.getD 0 []) with
    | none => .error (.failure ("Invalid start number in range: " ++ nr))
    | some start =>
        match parseU8 (parts.getD 1 []) with
        | none => .error (.failure ("Invalid end number in range: " ++ nr))
        | some stop =>
            if stop < start then
              .error (.failure ("Start number greater than end in range: " ++ nr))
            else if 9 < start ∨ 9 < stop then
              .error (.failure ("Numeric range must be between 0 and 9: " ++ nr))
            else
              .ok ((List.range (stop + 1 - start)).foldl
                (fun acc n => insOrd (Char.ofNat (48 + start + n)) acc) set1)

/-- `YamlSymbolSpecifier::to_char_set`. -/
def toCharSet : YamlSymbolSpecifier → Except Failure (List Char)
  | .Literal s => .ok (s.data.foldl (fun acc c => insOrd c acc) [])
  | .Map rm => do
      let set1 ← match rm.crange with
        | none => Except.ok ([] : List Char)
        | some cr => crangeSet cr
      match rm.nrange with
      | none => Except.ok set1
      | some nr => nrangeInto set1 nr

/-- `enum YamlKeyword`. -/
inductive YamlKeyword where
  | alphabet
  | epsilon
  deriving DecidableEq

/-- `enum YamlExceptValue` (untagged: a single specifier or a list). -/
inductive YamlExceptValue where
  | Single (spec : YamlSymbolSpecifier)
  | Multiple (specs : List YamlSymbolSpecifier)
  deriving DecidableEq

/-- `enum YamlTransitionOn` (untagged). -/
inductive YamlTransitionOn where
  | Except (except : YamlExceptValue)
  | Keyword (kw : YamlKeyword)
  | Single (spec : YamlSymbolSpecifier)
  | Multiple (specs : List YamlSymbolSpecifier)
  deriving DecidableEq

/-- `enum TransitionTrigger`. -/
inductive TransitionTrigger where
  | Chars (cs : List Char)
  | Epsilon
  deriving DecidableEq

/-- `struct YamlTransitionMapping` (the Rust fields `to` and `on` are called
`toKey` and `onv` here: both are reserved words in Lean). -/
structure YamlTransitionMapping where
  toKey : String
  onv : YamlTransitionOn
  deriving DecidableEq

/-- `struct YamlStateProps` (display-only `label` omitted). -/
structure YamlStateProps where
  accept : Bool
  deriving DecidableEq

/-- `struct YamlDFA` after deserialization (display-only `name` and
`description` omitted); `states` and `transitions` are `BTreeMap`s, kept as
association lists in iteration order. -/
structure YamlDFA where
  dfa : Bool
  states : List (String × YamlStateProps)
  alphabet : List YamlSymbolSpecifier
  start_state : String
  transitions : List (String × List YamlTransitionMapping)
  deriving DecidableEq

/-- `YamlTransitionOn::to_transition_trigger`. -/
def toTransitionTrigger (onv : YamlTransitionOn) (fullAlphabet : List Char) :
    Except Failure TransitionTrigger :=
  match onv with
  | .Single spec => (toCharSet spec).map .Chars
  | .Multiple specs =>
      (specs.foldlM (fun acc spec => (toCharSet spec).map (extendOrd acc)) []).map .Chars
  | .Keyword .alphabet => .ok (.Chars fullAlphabet)
  | .Keyword .epsilon => .ok .Epsilon
  | .Except ev => do
      let exceptChars ← match ev with
        | .Single spec => toCharSet spec
        | .Multiple specs =>
            specs.foldlM (fun acc spec => (toCharSet spec).map (extendOrd acc)) []
      Except.ok (.Chars (fullAlphabet.filter fun c => !(exceptChars.contains c)))

/-- `get_state_idx`: index of a state key in the key list (`BiMap::get_by_left`). -/
def getStateIdx (stateKeys : List String) (key : String) : Except Failure Nat :=
  match stateKeys.findIdx? (fun k => k = key) with
  | some i => .ok i
  | none => .error (.failure ("State '" ++ key ++ "' not found"))

/-- `get_alphabet_idx`. -/
def getAlphabetIdx (alphabet : List Char) (c : Char) : Except Failure Nat :=
  match alphabet.findIdx? (fun a => a = c) with
  | some i => .ok i
  | none => .error (.failure "Character not in alphabet (transition error)")

/-- `read_alphabet`: union of the character sets of all alphabet specifiers. -/
def readAlphabet (specs : List YamlSymbolSpecifier) : Except Failure (List Char) :=
  specs.foldlM (fun acc spec => (toCharSet spec).map (extendOrd acc)) []

/-- The body of the `for mapping in mappings` loop of `Nfa::from_yaml`
(source state index `i`): resolve the target and the trigger, then insert an
ε-edge or one edge per triggering character. -/
def nfyMapStep (stateKeys : List String) (alpha : List Char) (i : Nat)
    (t : TransMap) (mp : YamlTransitionMapping) : Except Failure TransMap := do
  let destIdx ← getStateIdx stateKeys mp.toKey
  match ← toTransitionTrigger mp.onv alpha with
  | .Epsilon => pure (transInsert i none destIdx t)
  | .Chars cs => pure (cs.foldl (fun t c => transInsert i (some c) destIdx t) t)

/-- The body of the outer `for (src_key, mappings)` loop of `Nfa::from_yaml`. -/
def nfyRowStep (stateKeys : List String) (alpha : List Char)
    (t : TransMap) (p : String × List YamlTransitionMapping) :
    Except Failure TransMap := do
  let srcIdx ← getStateIdx stateKeys p.1
  p.2.foldlM (nfyMapStep stateKeys alpha srcIdx) t

/-- `Nfa::from_yaml`: resolve every mapping and insert its edges; accepting
states are the indices whose props have `accept: true`. -/
def nfaFromYaml (stateKeys : List String) (startIdx : Nat) (accepts : List Bool)
    (yamlTransitions : List (String × List YamlTransitionMapping))
    (fullAlphabet : List Char) : Except Failure Nfa := do
  let t ← yamlTransitions.foldlM (nfyRowStep stateKeys fullAlphabet) ([] : TransMap)
  let nfa : Nfa :=
    { transitions := t, start_state := startIdx,
      nfa_accept_states := (List.range accepts.length).filter fun i => accepts.getD i false,
      nfa_state_keys := stateKeys }
  Except.ok nfa

/-- The body of the `for c in on_chars` loop of `build_dfa_transitions`
(source state index `i`, target index `d`): look up the alphabet index, then
either record the cell, skip an equal duplicate, or reject an ambiguity. -/
def bdtCharStep (alpha : List Char) (i d : Nat) (tbl : List (Option Nat)) (c : Char) :
    Except Failure (List (Option Nat)) := do
  let alphaIdx ← getAlphabetIdx alpha c
  match tbl.getD (i * alpha.length + alphaIdx) none with
  | some existing =>
      if existing ≠ d then Except.error (.failure "Ambiguous transition")
      else pure tbl
  | none => pure (tbl.set (i * alpha.length + alphaIdx) (some d))

/-- The body of the `for mapping in mappings` loop of `build_dfa_transitions`:
resolve the target state and the trigger, reject ε, and record every
triggering character. -/
def bdtMapStep (stateKeys : List String) (alpha : List Char) (srcKey : String) (i : Nat)
    (tbl : List (Option Nat)) (mp : YamlTransitionMapping) :
    Except Failure (List (Option Nat)) := do
  let destIdx ← getStateIdx stateKeys mp.toKey
  match ← toTransitionTrigger mp.onv alpha with
  | .Epsilon =>
      Except.error (.failure
        ("Epsilon transitions are not allowed when the dfa flag is true. (state '"
          ++ srcKey ++ "')"))
  | .Chars cs => cs.foldlM (bdtCharStep alpha i destIdx) tbl

/-- The body of the outer `for (src_state_key, mappings)` loop of
`build_dfa_transitions`. -/
def bdtRowStep (stateKeys : List String) (alpha : List Char)
    (tbl : List (Option Nat)) (p : String × List YamlTransitionMapping) :
    Except Failure (List (Option Nat)) := do
  let srcIdx ← getStateIdx stateKeys p.1
  p.2.foldlM (bdtMapStep stateKeys alpha p.1 srcIdx) tbl

/-- `build_dfa_transitions` (DFA mode): fill a dense `|Q|·|Σ|` table of
`Option` cells, rejecting ε-triggers and ambiguous cells, then require every
cell to be set. -/
def buildDfaTransitions (stateKeys : List String)
    (yamlTransitions : List (String × List YamlTransitionMapping))
    (fullAlphabet : List Char) : Except Failure (List Nat) := do
  let tbl ← yamlTransitions.foldlM (bdtRowStep stateKeys fullAlphabet)
    (List.replicate (stateKeys.length * fullAlphabet.length) (none : Option Nat))
  match tbl.mapM id with
  | some finalTable => .ok finalTable
  | none => .error (.failure "Incomplete transitions")

/-- `from_yaml` after deserialization: read the alphabet, resolve the start
state, then either build a DFA directly (`dfa: true`) or build the NFA and
determinize it; `none` is fuel exhaustion inside the determinizer. -/
def fromYaml (fuel : Nat) (y : YamlDFA) : Option (Except Failure Fsm) :=
  match readAlphabet y.alphabet with
  | .error e => some (.error e)
  | .ok alphabetSet =>
      let stateKeys := y.states.map Prod.fst
      let stateAccepts := y.states.map fun p => p.2.accept
      match getStateIdx stateKeys y.start_state with
      | .error e => some (.error e)
      | .ok startIdx =>
          if y.dfa then
            match buildDfaTransitions stateKeys y.transitions alphabetSet with
            | .error e => some (.error e)
            | .ok table =>
                let d : Dfa :=
                  { alphabet := alphabetSet, state_keys := stateKeys,
                    start_state_idx := startIdx, accept_states := stateAccepts,
                    transition_table := table }
                some (.ok (.dfa d))
          else
            match nfaFromYaml stateKeys startIdx stateAccepts y.transitions alphabetSet with
            | .error e => some (.error e)
            | .ok nfa => (nfa.toDfa alphabetSet fuel).map fun d => .ok (.nfaFsm nfa d)

/-! ### The serde deserialization layer for transition triggers

`YamlTransitionOn` is `#[serde(untagged)]` and `YamlSymbolSpecifier` has a
manual `Deserialize` implementation.  A small model of YAML values and of the
try-each-variant-in-order semantics, to state what shapes parse as what. -/

/-- A deserialized YAML value (scalars beyond strings are not needed here). -/
inductive YamlValue where
  | str (s : String)
  | list (items : List YamlValue)
  | mapv (entries : List (String × YamlValue))

/-- Deserializing an optional `String` field of `YamlRangeMap`
(`#[serde(default)]`: a missing field is `None`). -/
def deserializeRangeField : Option YamlValue → Except Failure (Option String)
  | none => .ok none
  | some (.str s) => .ok (some s)
  | some _ => .error (.failure "invalid type for range field")

/-- The manual `Deserialize for YamlSymbolSpecifier`: a string is a `Literal`,
a map is deserialized as a `YamlRangeMap`; anything else is rejected. -/
def deserializeSymbolSpecifier : YamlValue → Except Failure YamlSymbolSpecifier
  | .str s => .ok (.Literal s)
  | .mapv entries => do
      let cr ← deserializeRangeField (lookupKV entries "crange")
      let nr ← deserializeRangeField (lookupKV entries "nrange")
      Except.ok (.Map ⟨cr, nr⟩)
  | .list _ => .error (.failure "expected a string literal or a range map")

/-- Untagged `YamlExceptValue`: try `Single`, then `Multiple`. -/
def deserializeExceptValue (v : YamlValue) : Except Failure YamlExceptValue :=
  match deserializeSymbolSpecifier v with
  | .ok spec => .ok (.Single spec)
  | .error _ =>
      match v with
      | .list items => (items.mapM deserializeSymbolSpecifier).map .Multiple
      | _ => .error (.failure "data did not match any variant of YamlExceptValue")

/-- Untagged `YamlTransitionOn`: try `Except` (a map with an `except` field),
then `Keyword`, then `Single`, then `Multiple`, in declaration order. -/
def deserializeTransitionOn (v : YamlValue) : Except Failure YamlTransitionOn :=
  let tryExcept : Except Failure YamlTransitionOn :=
    match v with
    | .mapv entries =>
        match lookupKV entries "except" with
        | some ev => (deserializeExceptValue ev).map YamlTransitionOn.Except
        | none => .error (.failure "missing field except")
    | _ => .error (.failure "not a map")
  let tryKeyword : Except Failure YamlTransitionOn :=
    match v with
    | .str "alphabet" => .ok (.Keyword .alphabet)
    | .str "epsilon" => .ok (.Keyword .epsilon)
    | _ => .error (.failure "unknown keyword")
  let trySingle : Except Failure YamlTransitionOn :=
    (deserializeSymbolSpecifier v).map .Single
  let tryMultiple : Except Failure YamlTransitionOn :=
    match v with
    | .list items => (items.mapM deserializeSymbolSpecifier).map .Multiple
    | _ => .error (.failure "not a list")
  match tryExcept with
  | .ok r => .ok r
  | .error _ =>
      match tryKeyword with
      | .ok r => .ok r
      | .error _ =>
          match trySingle with
          | .ok r => .ok r
          | .error _ =>
              match tryMultiple with
              | .ok r => .ok r
              | .error _ =>
                  .error (.failure "data did not match any variant of YamlTransitionOn")

/-- A `(state, symbol)` cell of the DFA-mode table is assigned target `d` by
some transition rule: state `i` has a mapping whose trigger resolves to a
character set containing a character with alphabet index `a`, targeting state
`d`. -/
def coversCell (stateKeys : List String) (alpha : List Char)
    (trans : List (String × List YamlTransitionMapping)) (i a d : Nat) : Prop :=
  ∃ p ∈ trans, ∃ mp ∈ p.2, getStateIdx stateKeys p.1 = .ok i ∧
    getStateIdx stateKeys mp.toKey = .ok d ∧
    ∃ cs, toTransitionTrigger mp.onv alpha = .ok (.Chars cs) ∧
      ∃ c ∈ cs, getAlphabetIdx alpha c = .ok a

/-- Cells of the `Option`-valued DFA-mode table only ever go from unset to
set, and stay at their value once set. -/
def cellMono (tbl tbl2 : List (Option Nat)) : Prop :=
  tbl2.length = tbl.length ∧
    ∀ pos dd, tbl.getD pos none = some dd → tbl2.getD pos none = some dd

/-- Provenance of table cells across a fold step: a set cell of the result was
already set, or its position and value satisfy `Q`. -/
def provP (Q : Nat → Nat → Prop) (tbl tbl2 : List (Option Nat)) : Prop :=
  tbl2.length = tbl.length ∧
    ∀ pos dd, tbl2.getD pos none = some dd →
      (tbl.getD pos none = some dd ∨ Q pos dd)

/-- Provenance of a flat table position: it decomposes as `i·|Σ|+a` for a
covered cell. -/
def coversPos (stateKeys : List String) (alpha : List Char)
    (trans : List (String × List YamlTransitionMapping)) (pos dd : Nat) : Prop :=
  ∃ i a, pos = i * alpha.length + a ∧ coversCell stateKeys alpha trans i a dd

/-- A concrete one-edge example NFA (`q0 --a--> q1`, accepting `q1`), used to
instantiate the determinizer theorems on a closed input. -/
def nfaA : Nfa := ⟨[((0, some 'a'), [1])], 0, [1], ["q0", "q1"]⟩

/-- The successfully-compiled FSM of a `from_regex` result, when there is one. -/
def okFsm : Option (Except String Fsm) → Option Fsm
  | some (.ok fsm) => some fsm
  | _ => none

/-! ## Theorems and supporting lemmas -/

theorem mem_insOrd {α : Type} [LinearOrder α] (x a : α) (l : List α) :
    a ∈ insOrd x l ↔ a = x ∨ a ∈ l := by
  induction l with
  | nil => simp [insOrd]
  | cons y ys ih =>
      by_cases h1 : x < y
      · simp [insOrd, h1]
      · by_cases h2 : x = y
        · subst h2
          simp [insOrd, h1]
        · simp only [insOrd, if_neg h1, if_neg h2, List.mem_cons, ih]
          tauto

theorem mem_extendOrd {α : Type} [LinearOrder α] (a : α) (xs : List α) :
    ∀ s : List α, a ∈ extendOrd s xs ↔ a ∈ s ∨ a ∈ xs := by
  induction xs with
  | nil => simp [extendOrd]
  | cons x xs ih =>
      intro s
      simp only [extendOrd, List.foldl_cons] at *
      rw [ih (insOrd x s), mem_insOrd]
      simp only [List.mem_cons]
      tauto

theorem sorted_insOrd {α : Type} [LinearOrder α] (x : α) (l : List α)
    (h : l.Sorted (· < ·)) : (insOrd x l).Sorted (· < ·) := by
  induction l with
  | nil => simp [insOrd]
  | cons y ys ih =>
      by_cases h1 : x < y
      · simp only [insOrd, if_pos h1]
        refine List.sorted_cons.2 ⟨?_, h⟩
        intro b hb
        rcases List.mem_cons.1 hb with rfl | hb
        · exact h1
        · exact lt_trans h1 ((List.sorted_cons.1 h).1 b hb)
      · by_cases h2 : x = y
        · subst h2
          simp [insOrd, h1, h]
        · simp only [insOrd, if_neg h1, if_neg h2]
          have hy := List.sorted_cons.1 h
          refine List.sorted_cons.2 ⟨?_, ih hy.2⟩
          intro b hb
          rcases (mem_insOrd x b ys).1 hb with rfl | hb
          · exact lt_of_le_of_ne (not_lt.1 h1) (Ne.symm h2)
          · exact hy.1 b hb

theorem nodup_insOrd {α : Type} [LinearOrder α] (x : α) (l : List α)
    (h : l.Sorted (· < ·)) : (insOrd x l).Nodup :=
  (sorted_insOrd x l h).nodup

/-- The cached-character loop agrees with the reference fold, provided the
cache is consistent. -/
theorem runFrom_eq_spec (d : Dfa) (w : List Char) :
    ∀ q prevc previ, alphabetIdx d prevc = some previ →
      runFrom d q prevc previ w =
        (match
            w.foldlM
              (fun q c =>
                (alphabetIdx d c).map fun a =>
                  d.transition_table.getD (q * d.alphabet.length + a) 0)
              q with
          | none => false
          | some q' => d.accept_states.getD q' false) := by
  induction w with
  | nil => intro q prevc previ _; simp [runFrom]
  | cons c rest ih =>
      intro q prevc previ hcache
      by_cases hc : c = prevc
      · subst hc
        simp only [runFrom, if_pos rfl, List.foldlM_cons, hcache, Option.map_some]
        exact ih _ c previ hcache
      · simp only [runFrom, if_neg hc, List.foldlM_cons]
        cases hidx : alphabetIdx d c with
        | none => simp
        | some idx =>
            simp only [Option.map_some]
            exact ih _ c idx hidx

/-- `Dfa::run` computes the same result as the reference algorithm of §4.6. -/
theorem dfaRun_eq_specRun (d : Dfa) (w : List Char) : dfaRun d w = specRun d w := by
  cases w with
  | nil => simp [dfaRun, specRun, specStates]
  | cons c rest =>
      simp only [dfaRun, specRun, specStates, List.foldlM_cons]
      cases hidx : alphabetIdx d c with
      | none => simp
      | some idx =>
          simp only [Option.map_some]
          exact runFrom_eq_spec d rest _ c idx hidx

theorem lookupKV_cons {kk vv : Type} [DecidableEq kk] (k : kk) (v : vv)
    (rest : List (kk × vv)) (key : kk) :
    lookupKV ((k, v) :: rest) key = if key = k then some v else lookupKV rest key := rfl

theorem mem_transLookup_insert (i : Nat) (oc : Option Char) (j : Nat) (m : TransMap)
    (i' : Nat) (oc' : Option Char) (a : Nat) :
    a ∈ transLookup (transInsert i oc j m) i' oc' ↔
      (i' = i ∧ oc' = oc ∧ a = j) ∨ a ∈ transLookup m i' oc' := by
  induction m with
  | nil =>
      simp only [transInsert, transLookup, lookupKV]
      by_cases h : (i', oc') = (i, oc)
      · obtain ⟨h1, h2⟩ := Prod.mk.injEq _ _ _ _ ▸ h
        subst h1; subst h2
        simp
      · rw [if_neg h]
        have hne : ¬(i' = i ∧ oc' = oc) := fun hc => h (Prod.ext_iff.2 ⟨hc.1, hc.2⟩)
        constructor
        · intro hx
          exact absurd hx (List.not_mem_nil a)
        · rintro (⟨rfl, rfl, _⟩ | hx)
          · exact absurd ⟨rfl, rfl⟩ hne
          · exact absurd hx (List.not_mem_nil a)
  | cons kv rest ih =>
      obtain ⟨k, vs⟩ := kv
      by_cases hik : (i, oc) = k
      · subst hik
        rw [show transInsert i oc j (((i, oc), vs) :: rest) = ((i, oc), insOrd j vs) :: rest
              from by simp [transInsert]]
        simp only [transLookup, lookupKV_cons]
        by_cases h : (i', oc') = (i, oc)
        · obtain ⟨h1, h2⟩ := Prod.mk.injEq _ _ _ _ ▸ h
          subst h1; subst h2
          rw [if_pos rfl, if_pos rfl]
          simpa using mem_insOrd j a vs
        · have hne : ¬(i' = i ∧ oc' = oc) := fun hc => h (Prod.ext_iff.2 ⟨hc.1, hc.2⟩)
          rw [if_neg h, if_neg h]
          constructor
          · exact fun hx => Or.inr hx
          · rintro (⟨rfl, rfl, _⟩ | hx)
            · exact absurd ⟨rfl, rfl⟩ hne
            · exact hx
      · simp only [transInsert, if_neg hik, transLookup, lookupKV_cons]
        by_cases h : (i', oc') = k
        · have hne : ¬(i' = i ∧ oc' = oc) := by
            rintro ⟨rfl, rfl⟩
            exact hik h
          rw [if_pos h, if_pos h]
          constructor
          · exact fun hx => Or.inr hx
          · rintro (⟨rfl, rfl, _⟩ | hx)
            · exact absurd ⟨rfl, rfl⟩ hne
            · exact hx
        · rw [if_neg h, if_neg h]
          exact ih

theorem transLookup_addTransition (b : NfaBuilder) (fr tg : Nat) (onC : Option Char)
    (i : Nat) (oc : Option Char) (a : Nat) :
    a ∈ transLookup (b.addTransition fr tg onC).transitions i oc ↔
      (i = fr ∧ oc = onC ∧ a = tg) ∨ a ∈ transLookup b.transitions i oc :=
  mem_transLookup_insert fr onC tg b.transitions i oc a

theorem NfaPath.append {t : TransMap} {i j k : Nat} {w1 w2 : List Char}
    (h1 : NfaPath t i w1 j) (h2 : NfaPath t j w2 k) : NfaPath t i (w1 ++ w2) k := by
  induction h1 with
  | refl _ => exact h2
  | eps hstep _ ih => exact .eps hstep (ih h2)
  | char c hstep _ ih => exact .char c hstep (ih h2)

theorem NfaPath.mono {t t' : TransMap}
    (hsub : ∀ i oc j, j ∈ transLookup t i oc → j ∈ transLookup t' i oc)
    {i w k} (h : NfaPath t i w k) : NfaPath t' i w k := by
  induction h with
  | refl i => exact .refl i
  | eps hstep _ ih => exact .eps (hsub _ _ _ hstep) ih
  | char c hstep _ ih => exact .char c (hsub _ _ _ hstep) ih

theorem NfaPath.confine {t t' : TransMap} {P : Nat → Prop}
    (hclosed : ∀ i oc j, P i → j ∈ transLookup t i oc → P j ∧ j ∈ transLookup t' i oc)
    {i w k} (h : NfaPath t i w k) : P i → NfaPath t' i w k ∧ P k := by
  induction h with
  | refl i => exact fun hi => ⟨.refl i, hi⟩
  | eps hstep _ ih =>
      intro hi
      obtain ⟨pj, hst⟩ := hclosed _ _ _ hi hstep
      obtain ⟨hp, pk⟩ := ih pj
      exact ⟨.eps hst hp, pk⟩
  | char c hstep _ ih =>
      intro hi
      obtain ⟨pj, hst⟩ := hclosed _ _ _ hi hstep
      obtain ⟨hp, pk⟩ := ih pj
      exact ⟨.char c hst hp, pk⟩

theorem NfaPath.no_out {t : TransMap} {i w k}
    (hno : ∀ oc j, j ∈ transLookup t i oc → False)
    (h : NfaPath t i w k) : w = [] ∧ k = i := by
  cases h with
  | refl _ => exact ⟨rfl, rfl⟩
  | eps hstep _ => exact absurd hstep (hno _ _)
  | char c hstep _ => exact absurd hstep (hno _ _)

/-- Inversion on the first step of a path. -/
theorem NfaPath.cases_start {t : TransMap} {s w e'} (h : NfaPath t s w e') :
    (w = [] ∧ s = e') ∨
      (∃ j, j ∈ transLookup t s none ∧ NfaPath t j w e') ∨
      (∃ c w' j, w = c :: w' ∧ j ∈ transLookup t s (some c) ∧ NfaPath t j w' e') := by
  cases h with
  | refl _ => exact .inl ⟨rfl, rfl⟩
  | eps hstep htail => exact .inr (.inl ⟨_, hstep, htail⟩)
  | char c hstep htail => exact .inr (.inr ⟨c, _, _, rfl, hstep, htail⟩)

theorem matches_epsilon_iff {w : List Char} : Matches .Epsilon w ↔ w = [] :=
  ⟨fun h => by cases h; rfl, fun h => h ▸ .epsilon⟩

theorem matches_literal_iff {c : Char} {w : List Char} :
    Matches (.Literal c) w ↔ w = [c] :=
  ⟨fun h => by cases h; rfl, fun h => h ▸ .literal c⟩

theorem matches_concat_iff {e1 e2 : Expression} {w : List Char} :
    Matches (.Concat e1 e2) w ↔ ∃ w1 w2, w = w1 ++ w2 ∧ Matches e1 w1 ∧ Matches e2 w2 := by
  constructor
  · intro h
    cases h with
    | concat h1 h2 => exact ⟨_, _, rfl, h1, h2⟩
  · rintro ⟨w1, w2, rfl, h1, h2⟩
    exact .concat h1 h2

theorem matches_alternate_iff {e1 e2 : Expression} {w : List Char} :
    Matches (.Alternate e1 e2) w ↔ Matches e1 w ∨ Matches e2 w := by
  constructor
  · intro h
    cases h with
    | altLeft h => exact .inl h
    | altRight h => exact .inr h
  · rintro (h | h)
    · exact .altLeft h
    · exact .altRight h

theorem matches_star_iff {e : Expression} {w : List Char} :
    Matches (.Star e) w ↔
      w = [] ∨ ∃ w1 w2, w = w1 ++ w2 ∧ Matches e w1 ∧ Matches (.Star e) w2 := by
  constructor
  · intro h
    cases h with
    | starEmpty => exact .inl rfl
    | starStep h1 h2 => exact .inr ⟨_, _, rfl, h1, h2⟩
  · rintro (rfl | ⟨w1, w2, rfl, h1, h2⟩)
    · exact .starEmpty
    · exact .starStep h1 h2

theorem NfaBuilder.Wf.mono_counter {b : NfaBuilder} (h : b.Wf) {n : Nat}
    (hn : b.state_counter ≤ n) : NfaBuilder.Wf ⟨b.transitions, n⟩ := by
  intro i oc j hj
  obtain ⟨h1, h2⟩ := h i oc j hj
  exact ⟨lt_of_lt_of_le h1 hn, lt_of_lt_of_le h2 hn⟩

theorem NfaBuilder.Wf.add {b : NfaBuilder} (h : b.Wf) {fr tg : Nat}
    (hfr : fr < b.state_counter) (htg : tg < b.state_counter) (onC : Option Char) :
    (b.addTransition fr tg onC).Wf := by
  intro i oc j hj
  rcases (transLookup_addTransition b fr tg onC i oc j).1 hj with ⟨rfl, rfl, rfl⟩ | hold
  · exact ⟨hfr, htg⟩
  · exact h _ _ _ hold

/-- Walking a path towards a target outside a closed region must cross the
single bridge edge out of the region, splitting the path. -/
theorem path_decompose {t tA : TransMap} {P : Nat → Prop} {brSrc brTgt : Nat} :
    ∀ {i w tgt}, NfaPath t i w tgt →
      (∀ i' oc j, P i' → j ∈ transLookup t i' oc →
          (P j ∧ j ∈ transLookup tA i' oc) ∨ (i' = brSrc ∧ oc = none ∧ j = brTgt)) →
      ¬P tgt → P i →
      ∃ w1 w2, w = w1 ++ w2 ∧ NfaPath tA i w1 brSrc ∧ NfaPath t brTgt w2 tgt := by
  intro i w tgt h
  induction h with
  | refl i => exact fun _ htgt hi => absurd hi htgt
  | eps hstep htail ih =>
      intro HA htgt hi
      rcases HA _ _ _ hi hstep with ⟨pj, hAe⟩ | ⟨rfl, -, rfl⟩
      · obtain ⟨w1, w2, rfl, hp1, hp2⟩ := ih HA htgt pj
        exact ⟨w1, w2, rfl, .eps hAe hp1, hp2⟩
      · exact ⟨[], _, rfl, .refl _, htail⟩
  | char c hstep htail ih =>
      intro HA htgt hi
      rcases HA _ _ _ hi hstep with ⟨pj, hAe⟩ | ⟨-, hoc, -⟩
      · obtain ⟨w1, w2, rfl, hp1, hp2⟩ := ih HA htgt pj
        exact ⟨c :: w1, w2, rfl, .char c hAe hp1, hp2⟩
      · exact (Option.some_ne_none c hoc).elim

/-- Soundness decomposition for the `Star` fragment: a path from inside the
inner fragment to the star's accept state splits into one inner pass followed
by a word of the starred language. -/
theorem star_decompose {t tA : TransMap} {P : Nat → Prop} {sa ea : Nat} {A : Expression} :
    ∀ {i w e}, NfaPath t i w e →
      (∀ i' oc j, P i' → j ∈ transLookup t i' oc →
          (P j ∧ j ∈ transLookup tA i' oc) ∨ (i' = ea ∧ oc = none ∧ (j = e ∨ j = sa))) →
      (∀ oc j, j ∈ transLookup t e oc → False) →
      P sa → ¬P e →
      (∀ w', NfaPath tA sa w' ea → Matches A w') → P i →
      ∃ w1 w2, w = w1 ++ w2 ∧ NfaPath tA i w1 ea ∧ Matches (.Star A) w2 := by
  intro i w e h
  induction h with
  | refl i => exact fun _ _ _ hPe _ hi => absurd hi hPe
  | eps hstep htail ih =>
      intro HA hnoout hPsa hPe hA hi
      rcases HA _ _ _ hi hstep with ⟨pj, hAe⟩ | ⟨rfl, -, rfl | rfl⟩
      · obtain ⟨w1, w2, rfl, hp1, hp2⟩ := ih HA hnoout hPsa hPe hA pj
        exact ⟨w1, w2, rfl, .eps hAe hp1, hp2⟩
      · obtain ⟨rfl, -⟩ := htail.no_out hnoout
        exact ⟨[], [], rfl, .refl _, .starEmpty⟩
      · obtain ⟨w1, w2, rfl, hp1, hp2⟩ := ih HA hnoout hPsa hPe hA hPsa
        exact ⟨[], w1 ++ w2, rfl, .refl _, .starStep (hA _ hp1) hp2⟩
  | char c hstep htail ih =>
      intro HA hnoout hPsa hPe hA hi
      rcases HA _ _ _ hi hstep with ⟨pj, hAe⟩ | ⟨-, hoc, -⟩
      · obtain ⟨w1, w2, rfl, hp1, hp2⟩ := ih HA hnoout hPsa hPe hA pj
        exact ⟨c :: w1, w2, rfl, .char c hAe hp1, hp2⟩
      · exact (Option.some_ne_none c hoc).elim

/-- Completeness for the `Star` fragment, from the loop head `ea`. -/
theorem star_complete_aux {t : TransMap} {sa ea e : Nat} {A : Expression}
    (heae : e ∈ transLookup t ea none) (heasa : sa ∈ transLookup t ea none)
    (hA : ∀ w, Matches A w → NfaPath t sa w ea) :
    ∀ {E' : Expression} {w}, Matches E' w → E' = .Star A → NfaPath t ea w e := by
  intro E' w h
  induction h with
  | epsilon => exact fun hEq => Expression.noConfusion hEq
  | literal c => exact fun hEq => Expression.noConfusion hEq
  | concat _ _ _ _ => exact fun hEq => Expression.noConfusion hEq
  | altLeft _ _ => exact fun hEq => Expression.noConfusion hEq
  | altRight _ _ => exact fun hEq => Expression.noConfusion hEq
  | starEmpty => exact fun _ => .eps heae (.refl e)
  | starStep h1 _ _ ih2 =>
      intro hEq
      injection hEq with h'
      subst h'
      exact .eps heasa ((hA _ h1).append (ih2 rfl))

/-- The language of a two-state, single-edge fragment. -/
theorem single_edge_sem {t : TransMap} {s e : Nat} {oc : Option Char}
    (hlook : ∀ oc' j, j ∈ transLookup t s oc' ↔ (oc' = oc ∧ j = e))
    (hnoout : ∀ oc' j, j ∈ transLookup t e oc' → False)
    (hne : s ≠ e) :
    ∀ w, NfaPath t s w e ↔ w = oc.elim [] (fun c => [c]) := by
  intro w
  constructor
  · intro h
    cases h with
    | refl _ => exact absurd rfl hne
    | eps hstep htail =>
        obtain ⟨hoc, rfl⟩ := (hlook _ _).1 hstep
        obtain ⟨rfl, -⟩ := htail.no_out hnoout
        subst hoc
        rfl
    | char c hstep htail =>
        obtain ⟨hoc, rfl⟩ := (hlook _ _).1 hstep
        obtain ⟨rfl, -⟩ := htail.no_out hnoout
        subst hoc
        rfl
  · intro hw
    subst hw
    cases oc with
    | none => exact .eps ((hlook none e).2 ⟨rfl, rfl⟩) (.refl e)
    | some c => exact .char c ((hlook (some c) e).2 ⟨rfl, rfl⟩) (.refl e)

theorem NfaPath.eps_tail {t : TransMap} {i j k : Nat} {w : List Char}
    (h : NfaPath t i w j) (hstep : k ∈ transLookup t j none) : NfaPath t i w k := by
  have h2 := h.append (.eps hstep (.refl k))
  rwa [List.append_nil] at h2

/-- `BuildSpec` for the two base fragments (`Epsilon`, `Literal`). -/
theorem buildSpec_single {b : NfaBuilder} (hwf : b.Wf) (oc : Option Char) (E : Expression)
    (hsem : ∀ w, Matches E w ↔ w = oc.elim [] (fun c => [c])) :
    BuildSpec b b.state_counter (b.state_counter + 1)
      ((⟨b.transitions, b.state_counter + 1 + 1⟩ : NfaBuilder).addTransition b.state_counter
        (b.state_counter + 1) oc) E := by
  have hmem : ∀ i oc' j,
      j ∈ transLookup ((⟨b.transitions, b.state_counter + 1 + 1⟩ :
            NfaBuilder).addTransition b.state_counter (b.state_counter + 1) oc).transitions
          i oc' ↔
        (i = b.state_counter ∧ oc' = oc ∧ j = b.state_counter + 1) ∨
          j ∈ transLookup b.transitions i oc' :=
    fun i oc' j =>
      transLookup_addTransition ⟨b.transitions, b.state_counter + 1 + 1⟩ b.state_counter
        (b.state_counter + 1) oc i oc' j
  have hnoout : ∀ oc' j,
      j ∈ transLookup ((⟨b.transitions, b.state_counter + 1 + 1⟩ :
            NfaBuilder).addTransition b.state_counter (b.state_counter + 1) oc).transitions
          (b.state_counter + 1) oc' → False := by
    intro oc' j hj
    rcases (hmem _ _ _).1 hj with ⟨heq, -, -⟩ | hold
    · omega
    · obtain ⟨h1, -⟩ := hwf _ _ _ hold
      omega
  refine
    { counter_le := show b.state_counter ≤ b.state_counter + 1 + 1 by omega
      s_lb := le_refl _
      s_ub := show b.state_counter < b.state_counter + 1 + 1 by omega
      e_lb := by omega
      e_ub := show b.state_counter + 1 < b.state_counter + 1 + 1 by omega
      s_ne_e := by omega
      wf := ?_, preserve := ?_, classify := ?_, no_out_accept := hnoout, sem := ?_ }
  · intro i oc' j hj
    rcases (hmem _ _ _).1 hj with ⟨rfl, rfl, rfl⟩ | hold
    · exact ⟨show b.state_counter < b.state_counter + 1 + 1 by omega,
        show b.state_counter + 1 < b.state_counter + 1 + 1 by omega⟩
    · obtain ⟨h1, h2⟩ := hwf _ _ _ hold
      exact ⟨show i < b.state_counter + 1 + 1 by omega,
        show j < b.state_counter + 1 + 1 by omega⟩
  · exact fun i oc' j hj => (hmem _ _ _).2 (.inr hj)
  · intro i oc' j hj
    rcases (hmem _ _ _).1 hj with ⟨rfl, rfl, rfl⟩ | hold
    · right
      exact ⟨le_refl _, show b.state_counter < b.state_counter + 1 + 1 by omega, by omega,
        show b.state_counter + 1 < b.state_counter + 1 + 1 by omega⟩
    · left; exact hold
  · intro w
    refine (single_edge_sem ?_ hnoout (by omega) w).trans (hsem w).symm
    intro oc' j
    rw [hmem]
    constructor
    · rintro (⟨-, rfl, rfl⟩ | hold)
      · exact ⟨rfl, rfl⟩
      · obtain ⟨h1, -⟩ := hwf _ _ _ hold
        omega
    · rintro ⟨rfl, rfl⟩
      exact .inl ⟨rfl, rfl, rfl⟩

/-- `BuildSpec` for the `Concat` fragment. -/
theorem buildSpec_concat {b b1 b2 : NfaBuilder} {l r : Expression} {ls le rs re : Nat}
    (hwf : b.Wf) (SL : BuildSpec b ls le b1 l) (SR : BuildSpec b1 rs re b2 r) :
    BuildSpec b ls re (b2.addTransition le rs none) (.Concat l r) := by
  have hmem : ∀ i oc j, j ∈ transLookup (b2.addTransition le rs none).transitions i oc ↔
      (i = le ∧ oc = none ∧ j = rs) ∨ j ∈ transLookup b2.transitions i oc :=
    fun i oc j => transLookup_addTransition b2 le rs none i oc j
  have h1 := SL.counter_le
  have h2 := SR.counter_le
  have hls1 := SL.s_lb
  have hls2 := SL.s_ub
  have hle1 := SL.e_lb
  have hle2 := SL.e_ub
  have hrs1 := SR.s_lb
  have hrs2 := SR.s_ub
  have hre1 := SR.e_lb
  have hre2 := SR.e_ub
  have edge_b2_low : ∀ i oc j, i < b1.state_counter → j ∈ transLookup b2.transitions i oc →
      j ∈ transLookup b1.transitions i oc := by
    intro i oc j hi hj
    rcases SR.classify _ _ _ hj with h | ⟨hge, -, -, -⟩
    · exact h
    · omega
  have edge_b1_mid : ∀ i oc j, b.state_counter ≤ i → j ∈ transLookup b1.transitions i oc →
      b.state_counter ≤ j ∧ j < b1.state_counter := by
    intro i oc j hi hj
    rcases SL.classify _ _ _ hj with h | ⟨-, -, hj1, hj2⟩
    · obtain ⟨hlt, -⟩ := hwf _ _ _ h
      omega
    · exact ⟨hj1, hj2⟩
  refine
    { counter_le := show b.state_counter ≤ b2.state_counter by omega
      s_lb := hls1
      s_ub := show ls < b2.state_counter by omega
      e_lb := show b.state_counter ≤ re by omega
      e_ub := show re < b2.state_counter from hre2
      s_ne_e := by omega
      wf := ?_, preserve := ?_, classify := ?_, no_out_accept := ?_, sem := ?_ }
  · intro i oc j hj
    rcases (hmem _ _ _).1 hj with ⟨rfl, rfl, rfl⟩ | hold
    · exact ⟨show i < b2.state_counter by omega, show j < b2.state_counter by omega⟩
    · exact SR.wf _ _ _ hold
  · exact fun i oc j hj => (hmem _ _ _).2 (.inr (SR.preserve _ _ _ (SL.preserve _ _ _ hj)))
  · intro i oc j hj
    rcases (hmem _ _ _).1 hj with ⟨rfl, rfl, rfl⟩ | hold
    · right
      exact ⟨by omega, show i < b2.state_counter by omega, by omega,
        show j < b2.state_counter by omega⟩
    · rcases SR.classify _ _ _ hold with hb1 | ⟨hge, hlt, hge2, hlt2⟩
      · rcases SL.classify _ _ _ hb1 with hb0 | ⟨hge, hlt, hge2, hlt2⟩
        · left; exact hb0
        · right
          exact ⟨hge, show i < b2.state_counter by omega, hge2,
            show j < b2.state_counter by omega⟩
      · right
        exact ⟨by omega, hlt, by omega, hlt2⟩
  · intro oc j hj
    rcases (hmem _ _ _).1 hj with ⟨heq, -, -⟩ | hold
    · omega
    · exact SR.no_out_accept _ _ hold
  · intro w
    constructor
    · intro hp
      have HA : ∀ i' oc j, (b.state_counter ≤ i' ∧ i' < b1.state_counter) →
          j ∈ transLookup (b2.addTransition le rs none).transitions i' oc →
          ((b.state_counter ≤ j ∧ j < b1.state_counter) ∧
              j ∈ transLookup b1.transitions i' oc) ∨
            (i' = le ∧ oc = none ∧ j = rs) := by
        intro i' oc j hi hj
        rcases (hmem _ _ _).1 hj with h | hold
        · right; exact h
        · have hb1 := edge_b2_low _ _ _ hi.2 hold
          obtain ⟨hj1, hj2⟩ := edge_b1_mid _ _ _ hi.1 hb1
          left; exact ⟨⟨hj1, hj2⟩, hb1⟩
      have htgt : ¬(b.state_counter ≤ re ∧ re < b1.state_counter) := by omega
      obtain ⟨w1, w2, rfl, hp1, hp2⟩ :=
        path_decompose (P := fun x => b.state_counter ≤ x ∧ x < b1.state_counter) hp HA htgt
          ⟨hls1, hls2⟩
      have hconf : ∀ i' oc j, b1.state_counter ≤ i' →
          j ∈ transLookup (b2.addTransition le rs none).transitions i' oc →
          b1.state_counter ≤ j ∧ j ∈ transLookup b2.transitions i' oc := by
        intro i' oc j hi hj
        rcases (hmem _ _ _).1 hj with ⟨rfl, -, -⟩ | hold
        · exact absurd hi (by omega)
        · rcases SR.classify _ _ _ hold with hb1 | ⟨hge, -, hge2, -⟩
          · rcases SL.classify _ _ _ hb1 with hb0 | ⟨-, hlt, -, -⟩
            · obtain ⟨hlt0, -⟩ := hwf _ _ _ hb0
              exact absurd hi (by omega)
            · exact absurd hi (by omega)
          · exact ⟨hge2, hold⟩
      obtain ⟨hp2', -⟩ := hp2.confine hconf hrs1
      exact Matches.concat ((SL.sem w1).1 hp1) ((SR.sem w2).1 hp2')
    · intro hm
      rcases matches_concat_iff.1 hm with ⟨w1, w2, rfl, hm1, hm2⟩
      have hlift : ∀ i oc j, j ∈ transLookup b2.transitions i oc →
          j ∈ transLookup (b2.addTransition le rs none).transitions i oc :=
        fun i oc j hj => (hmem _ _ _).2 (.inr hj)
      have hp1 : NfaPath (b2.addTransition le rs none).transitions ls w1 le :=
        NfaPath.mono hlift (NfaPath.mono SR.preserve ((SL.sem w1).2 hm1))
      have hp2 : NfaPath (b2.addTransition le rs none).transitions rs w2 re :=
        NfaPath.mono hlift ((SR.sem w2).2 hm2)
      exact hp1.append (.eps ((hmem le none rs).2 (.inl ⟨rfl, rfl, rfl⟩)) hp2)

/-- `BuildSpec` for the `Alternate` fragment. -/
theorem buildSpec_alternate {b b3 b4 : NfaBuilder} {l r : Expression} {ls le rs re : Nat}
    (hwf : b.Wf)
    (SL : BuildSpec ⟨b.transitions, b.state_counter + 1 + 1⟩ ls le b3 l)
    (SR : BuildSpec b3 rs re b4 r) :
    BuildSpec b b.state_counter (b.state_counter + 1)
      ((((b4.addTransition b.state_counter ls none).addTransition b.state_counter rs
            none).addTransition le (b.state_counter + 1) none).addTransition re
        (b.state_counter + 1) none) (.Alternate l r) := by
  have hcl : b.state_counter + 1 + 1 ≤ b3.state_counter := SL.counter_le
  have h2 := SR.counter_le
  have hls1 : b.state_counter + 1 + 1 ≤ ls := SL.s_lb
  have hls2 := SL.s_ub
  have hle1 : b.state_counter + 1 + 1 ≤ le := SL.e_lb
  have hle2 := SL.e_ub
  have hrs1 := SR.s_lb
  have hrs2 := SR.s_ub
  have hre1 := SR.e_lb
  have hre2 := SR.e_ub
  set bB := (((b4.addTransition b.state_counter ls none).addTransition b.state_counter rs
      none).addTransition le (b.state_counter + 1) none).addTransition re
      (b.state_counter + 1) none with hbB
  have hmem : ∀ i oc j, j ∈ transLookup bB.transitions i oc ↔
      (i = re ∧ oc = none ∧ j = b.state_counter + 1) ∨
        ((i = le ∧ oc = none ∧ j = b.state_counter + 1) ∨
          ((i = b.state_counter ∧ oc = none ∧ j = rs) ∨
            ((i = b.state_counter ∧ oc = none ∧ j = ls) ∨
              j ∈ transLookup b4.transitions i oc))) := by
    intro i oc j
    rw [hbB]
    simp only [transLookup_addTransition]
  have hclass4 : ∀ i oc j, j ∈ transLookup b4.transitions i oc →
      j ∈ transLookup b.transitions i oc ∨
        (b.state_counter + 1 + 1 ≤ i ∧ i < b3.state_counter ∧
          b.state_counter + 1 + 1 ≤ j ∧ j < b3.state_counter ∧
          j ∈ transLookup b3.transitions i oc) ∨
        (b3.state_counter ≤ i ∧ i < b4.state_counter ∧ b3.state_counter ≤ j ∧
          j < b4.state_counter) := by
    intro i oc j hj
    rcases SR.classify _ _ _ hj with hb3 | ⟨ha, hb, hc, hd⟩
    · rcases SL.classify _ _ _ hb3 with hb0 | ⟨ha, hb, hc, hd⟩
      · left; exact hb0
      · right; left; exact ⟨ha, hb, hc, hd, hb3⟩
    · right; right; exact ⟨ha, hb, hc, hd⟩
  have no_out_s : ∀ oc j, j ∈ transLookup b4.transitions b.state_counter oc → False := by
    intro oc j hold
    rcases hclass4 _ _ _ hold with hb0 | ⟨ha, -⟩ | ⟨ha, -⟩
    · obtain ⟨hlt, -⟩ := hwf _ _ _ hb0
      omega
    · omega
    · omega
  have no_out_e : ∀ oc j, j ∈ transLookup bB.transitions (b.state_counter + 1) oc → False := by
    intro oc j hj
    rcases (hmem _ _ _).1 hj with ⟨h1, -, -⟩ | ⟨h1, -, -⟩ | ⟨h1, -, -⟩ | ⟨h1, -, -⟩ | hold
    · omega
    · omega
    · omega
    · omega
    · rcases hclass4 _ _ _ hold with hb0 | ⟨ha, -⟩ | ⟨ha, -⟩
      · obtain ⟨hlt, -⟩ := hwf _ _ _ hb0
        omega
      · omega
      · omega
  have hlift : ∀ i oc j, j ∈ transLookup b4.transitions i oc →
      j ∈ transLookup bB.transitions i oc :=
    fun i oc j hj => (hmem _ _ _).2 (.inr (.inr (.inr (.inr hj))))
  refine
    { counter_le := show b.state_counter ≤ b4.state_counter by omega
      s_lb := le_refl _
      s_ub := show b.state_counter < b4.state_counter by omega
      e_lb := by omega
      e_ub := show b.state_counter + 1 < b4.state_counter by omega
      s_ne_e := by omega
      wf := ?_, preserve := ?_, classify := ?_, no_out_accept := no_out_e, sem := ?_ }
  · intro i oc j hj
    rcases (hmem _ _ _).1 hj with ⟨h1, -, h3⟩ | ⟨h1, -, h3⟩ | ⟨h1, -, h3⟩ | ⟨h1, -, h3⟩ | hold
    · exact ⟨show i < b4.state_counter by omega, show j < b4.state_counter by omega⟩
    · exact ⟨show i < b4.state_counter by omega, show j < b4.state_counter by omega⟩
    · exact ⟨show i < b4.state_counter by omega, show j < b4.state_counter by omega⟩
    · exact ⟨show i < b4.state_counter by omega, show j < b4.state_counter by omega⟩
    · rcases hclass4 _ _ _ hold with hb0 | ⟨-, hb, -, hd, -⟩ | ⟨-, hb, -, hd⟩
      · obtain ⟨hx, hy⟩ := hwf _ _ _ hb0
        exact ⟨show i < b4.state_counter by omega, show j < b4.state_counter by omega⟩
      · exact ⟨show i < b4.state_counter by omega, show j < b4.state_counter by omega⟩
      · exact ⟨hb, hd⟩
  · intro i oc j hj
    exact (hmem _ _ _).2 (.inr (.inr (.inr (.inr (SR.preserve _ _ _ (SL.preserve _ _ _ hj))))))
  · intro i oc j hj
    rcases (hmem _ _ _).1 hj with ⟨h1, -, h3⟩ | ⟨h1, -, h3⟩ | ⟨h1, -, h3⟩ | ⟨h1, -, h3⟩ | hold
    · right
      exact ⟨by omega, show i < b4.state_counter by omega, by omega,
        show j < b4.state_counter by omega⟩
    · right
      exact ⟨by omega, show i < b4.state_counter by omega, by omega,
        show j < b4.state_counter by omega⟩
    · right
      exact ⟨by omega, show i < b4.state_counter by omega, by omega,
        show j < b4.state_counter by omega⟩
    · right
      exact ⟨by omega, show i < b4.state_counter by omega, by omega,
        show j < b4.state_counter by omega⟩
    · rcases hclass4 _ _ _ hold with hb0 | ⟨ha, hb, hc, hd, -⟩ | ⟨ha, hb, hc, hd⟩
      · left; exact hb0
      · right
        exact ⟨by omega, show i < b4.state_counter by omega, by omega,
          show j < b4.state_counter by omega⟩
      · right
        exact ⟨by omega, show i < b4.state_counter by omega, by omega,
          show j < b4.state_counter by omega⟩
  · intro w
    constructor
    · intro hp
      rcases hp.cases_start with ⟨-, heq⟩ | ⟨j, hstep, htail⟩ | ⟨c, w', j, -, hstep, -⟩
      · exact absurd heq (by omega)
      · rcases (hmem _ _ _).1 hstep with ⟨h1, -, -⟩ | ⟨h1, -, -⟩ | ⟨-, -, h3⟩ | ⟨-, -, h3⟩ |
          hold
        · exact absurd h1 (by omega)
        · exact absurd h1 (by omega)
        · subst h3
          have HA_r : ∀ i' oc' j', (b3.state_counter ≤ i' ∧ i' < b4.state_counter) →
              j' ∈ transLookup bB.transitions i' oc' →
              ((b3.state_counter ≤ j' ∧ j' < b4.state_counter) ∧
                  j' ∈ transLookup b4.transitions i' oc') ∨
                (i' = re ∧ oc' = none ∧ j' = b.state_counter + 1) := by
            intro i' oc' j' hi hj'
            rcases (hmem _ _ _).1 hj' with hbr | ⟨h1, -, -⟩ | ⟨h1, -, -⟩ | ⟨h1, -, -⟩ | hold'
            · right; exact hbr
            · exact absurd h1 (by omega)
            · exact absurd h1 (by omega)
            · exact absurd h1 (by omega)
            · rcases hclass4 _ _ _ hold' with hb0 | ⟨-, hb, -, -, -⟩ | ⟨-, -, hc2, hd2⟩
              · obtain ⟨hx, -⟩ := hwf _ _ _ hb0
                exact absurd hi.1 (by omega)
              · exact absurd hi.1 (by omega)
              · left; exact ⟨⟨hc2, hd2⟩, hold'⟩
          obtain ⟨w1, w2, hw, hp1, hp2⟩ :=
            path_decompose (P := fun y => b3.state_counter ≤ y ∧ y < b4.state_counter)
              htail HA_r (by omega) ⟨hrs1, hrs2⟩
          obtain ⟨hw2, -⟩ := hp2.no_out no_out_e
          subst hw2
          rw [List.append_nil] at hw
          subst hw
          exact .altRight ((SR.sem _).1 hp1)
        · subst h3
          have HA_l : ∀ i' oc' j',
              (b.state_counter + 1 + 1 ≤ i' ∧ i' < b3.state_counter) →
              j' ∈ transLookup bB.transitions i' oc' →
              ((b.state_counter + 1 + 1 ≤ j' ∧ j' < b3.state_counter) ∧
                  j' ∈ transLookup b3.transitions i' oc') ∨
                (i' = le ∧ oc' = none ∧ j' = b.state_counter + 1) := by
            intro i' oc' j' hi hj'
            rcases (hmem _ _ _).1 hj' with ⟨h1, -, -⟩ | hbr | ⟨h1, -, -⟩ | ⟨h1, -, -⟩ | hold'
            · exact absurd h1 (by omega)
            · right; exact hbr
            · exact absurd h1 (by omega)
            · exact absurd h1 (by omega)
            · rcases hclass4 _ _ _ hold' with hb0 | ⟨-, -, hc2, hd2, hm3⟩ | ⟨ha2, -, -, -⟩
              · obtain ⟨hx, -⟩ := hwf _ _ _ hb0
                exact absurd hi.1 (by omega)
              · left; exact ⟨⟨hc2, hd2⟩, hm3⟩
              · exact absurd hi.2 (by omega)
          obtain ⟨w1, w2, hw, hp1, hp2⟩ :=
            path_decompose
              (P := fun y => b.state_counter + 1 + 1 ≤ y ∧ y < b3.state_counter)
              htail HA_l (by omega) ⟨hls1, hls2⟩
          obtain ⟨hw2, -⟩ := hp2.no_out no_out_e
          subst hw2
          rw [List.append_nil] at hw
          subst hw
          exact .altLeft ((SL.sem _).1 hp1)
        · exact (no_out_s _ _ hold).elim
      · rcases (hmem _ _ _).1 hstep with ⟨-, h2', -⟩ | ⟨-, h2', -⟩ | ⟨-, h2', -⟩ |
          ⟨-, h2', -⟩ | hold
        · exact (Option.some_ne_none c h2').elim
        · exact (Option.some_ne_none c h2').elim
        · exact (Option.some_ne_none c h2').elim
        · exact (Option.some_ne_none c h2').elim
        · exact (no_out_s _ _ hold).elim
    · intro hm
      rcases matches_alternate_iff.1 hm with hml | hmr
      · have hpl : NfaPath bB.transitions ls w le :=
          NfaPath.mono hlift (NfaPath.mono SR.preserve ((SL.sem w).2 hml))
        exact .eps ((hmem _ _ _).2 (.inr (.inr (.inr (.inl ⟨rfl, rfl, rfl⟩)))))
          (hpl.eps_tail ((hmem _ _ _).2 (.inr (.inl ⟨rfl, rfl, rfl⟩))))
      · have hpr : NfaPath bB.transitions rs w re :=
          NfaPath.mono hlift ((SR.sem w).2 hmr)
        exact .eps ((hmem _ _ _).2 (.inr (.inr (.inl ⟨rfl, rfl, rfl⟩))))
          (hpr.eps_tail ((hmem _ _ _).2 (.inl ⟨rfl, rfl, rfl⟩)))

/-- `BuildSpec` for the `Star` fragment. -/
theorem buildSpec_star {b b3 : NfaBuilder} {x : Expression} {xs xe : Nat}
    (hwf : b.Wf)
    (SX : BuildSpec ⟨b.transitions, b.state_counter + 1 + 1⟩ xs xe b3 x) :
    BuildSpec b b.state_counter (b.state_counter + 1)
      ((((b3.addTransition b.state_counter (b.state_counter + 1) none).addTransition
            b.state_counter xs none).addTransition xe (b.state_counter + 1)
          none).addTransition xe xs none) (.Star x) := by
  have hcl : b.state_counter + 1 + 1 ≤ b3.state_counter := SX.counter_le
  have hxs1 : b.state_counter + 1 + 1 ≤ xs := SX.s_lb
  have hxs2 := SX.s_ub
  have hxe1 : b.state_counter + 1 + 1 ≤ xe := SX.e_lb
  have hxe2 := SX.e_ub
  set bS := (((b3.addTransition b.state_counter (b.state_counter + 1) none).addTransition
      b.state_counter xs none).addTransition xe (b.state_counter + 1)
      none).addTransition xe xs none with hbS
  have hmem : ∀ i oc j, j ∈ transLookup bS.transitions i oc ↔
      (i = xe ∧ oc = none ∧ j = xs) ∨
        ((i = xe ∧ oc = none ∧ j = b.state_counter + 1) ∨
          ((i = b.state_counter ∧ oc = none ∧ j = xs) ∨
            ((i = b.state_counter ∧ oc = none ∧ j = b.state_counter + 1) ∨
              j ∈ transLookup b3.transitions i oc))) := by
    intro i oc j
    rw [hbS]
    simp only [transLookup_addTransition]
  have hclass3 : ∀ i oc j, j ∈ transLookup b3.transitions i oc →
      j ∈ transLookup b.transitions i oc ∨
        (b.state_counter + 1 + 1 ≤ i ∧ i < b3.state_counter ∧
          b.state_counter + 1 + 1 ≤ j ∧ j < b3.state_counter) := by
    intro i oc j hj
    rcases SX.classify _ _ _ hj with hb0 | ⟨ha, hb, hc, hd⟩
    · left; exact hb0
    · right; exact ⟨ha, hb, hc, hd⟩
  have no_out_s : ∀ oc j, j ∈ transLookup b3.transitions b.state_counter oc → False := by
    intro oc j hold
    rcases hclass3 _ _ _ hold with hb0 | ⟨ha, -⟩
    · obtain ⟨hlt, -⟩ := hwf _ _ _ hb0
      omega
    · omega
  have no_out_e : ∀ oc j, j ∈ transLookup bS.transitions (b.state_counter + 1) oc → False := by
    intro oc j hj
    rcases (hmem _ _ _).1 hj with ⟨h1, -, -⟩ | ⟨h1, -, -⟩ | ⟨h1, -, -⟩ | ⟨h1, -, -⟩ | hold
    · omega
    · omega
    · omega
    · omega
    · rcases hclass3 _ _ _ hold with hb0 | ⟨ha, -⟩
      · obtain ⟨hlt, -⟩ := hwf _ _ _ hb0
        omega
      · omega
  have hlift : ∀ i oc j, j ∈ transLookup b3.transitions i oc →
      j ∈ transLookup bS.transitions i oc :=
    fun i oc j hj => (hmem _ _ _).2 (.inr (.inr (.inr (.inr hj))))
  have h_sxs : xs ∈ transLookup bS.transitions b.state_counter none :=
    (hmem _ _ _).2 (.inr (.inr (.inl ⟨rfl, rfl, rfl⟩)))
  have h_se : (b.state_counter + 1) ∈ transLookup bS.transitions b.state_counter none :=
    (hmem _ _ _).2 (.inr (.inr (.inr (.inl ⟨rfl, rfl, rfl⟩))))
  have h_xexs : xs ∈ transLookup bS.transitions xe none :=
    (hmem _ _ _).2 (.inl ⟨rfl, rfl, rfl⟩)
  have h_xee : (b.state_counter + 1) ∈ transLookup bS.transitions xe none :=
    (hmem _ _ _).2 (.inr (.inl ⟨rfl, rfl, rfl⟩))
  have hA : ∀ w', Matches x w' → NfaPath bS.transitions xs w' xe :=
    fun w' hm' => NfaPath.mono hlift ((SX.sem w').2 hm')
  refine
    { counter_le := show b.state_counter ≤ b3.state_counter by omega
      s_lb := le_refl _
      s_ub := show b.state_counter < b3.state_counter by omega
      e_lb := by omega
      e_ub := show b.state_counter + 1 < b3.state_counter by omega
      s_ne_e := by omega
      wf := ?_, preserve := ?_, classify := ?_, no_out_accept := no_out_e, sem := ?_ }
  · intro i oc j hj
    rcases (hmem _ _ _).1 hj with ⟨h1, -, h3⟩ | ⟨h1, -, h3⟩ | ⟨h1, -, h3⟩ | ⟨h1, -, h3⟩ | hold
    · exact ⟨show i < b3.state_counter by omega, show j < b3.state_counter by omega⟩
    · exact ⟨show i < b3.state_counter by omega, show j < b3.state_counter by omega⟩
    · exact ⟨show i < b3.state_counter by omega, show j < b3.state_counter by omega⟩
    · exact ⟨show i < b3.state_counter by omega, show j < b3.state_counter by omega⟩
    · rcases hclass3 _ _ _ hold with hb0 | ⟨-, hb, -, hd⟩
      · obtain ⟨hx, hy⟩ := hwf _ _ _ hb0
        exact ⟨show i < b3.state_counter by omega, show j < b3.state_counter by omega⟩
      · exact ⟨hb, hd⟩
  · intro i oc j hj
    exact (hmem _ _ _).2 (.inr (.inr (.inr (.inr (SX.preserve _ _ _ hj)))))
  · intro i oc j hj
    rcases (hmem _ _ _).1 hj with ⟨h1, -, h3⟩ | ⟨h1, -, h3⟩ | ⟨h1, -, h3⟩ | ⟨h1, -, h3⟩ | hold
    · right
      exact ⟨by omega, show i < b3.state_counter by omega, by omega,
        show j < b3.state_counter by omega⟩
    · right
      exact ⟨by omega, show i < b3.state_counter by omega, by omega,
        show j < b3.state_counter by omega⟩
    · right
      exact ⟨by omega, show i < b3.state_counter by omega, by omega,
        show j < b3.state_counter by omega⟩
    · right
      exact ⟨by omega, show i < b3.state_counter by omega, by omega,
        show j < b3.state_counter by omega⟩
    · rcases hclass3 _ _ _ hold with hb0 | ⟨ha, hb, hc, hd⟩
      · left; exact hb0
      · right
        exact ⟨by omega, show i < b3.state_counter by omega, by omega,
          show j < b3.state_counter by omega⟩
  · intro w
    constructor
    · intro hp
      rcases hp.cases_start with ⟨-, heq⟩ | ⟨j, hstep, htail⟩ | ⟨c, w', j, -, hstep, -⟩
      · exact absurd heq (by omega)
      · rcases (hmem _ _ _).1 hstep with ⟨h1, -, -⟩ | ⟨h1, -, -⟩ | ⟨-, -, h3⟩ | ⟨-, -, h3⟩ |
          hold
        · exact absurd h1 (by omega)
        · exact absurd h1 (by omega)
        · rw [h3] at htail
          have HA_x : ∀ i' oc' j',
              (b.state_counter + 1 + 1 ≤ i' ∧ i' < b3.state_counter) →
              j' ∈ transLookup bS.transitions i' oc' →
              ((b.state_counter + 1 + 1 ≤ j' ∧ j' < b3.state_counter) ∧
                  j' ∈ transLookup b3.transitions i' oc') ∨
                (i' = xe ∧ oc' = none ∧ (j' = b.state_counter + 1 ∨ j' = xs)) := by
            intro i' oc' j' hi hj'
            rcases (hmem _ _ _).1 hj' with ⟨h1, h2', h3'⟩ | ⟨h1, h2', h3'⟩ | ⟨h1, -, -⟩ |
              ⟨h1, -, -⟩ | hold'
            · right; exact ⟨h1, h2', .inr h3'⟩
            · right; exact ⟨h1, h2', .inl h3'⟩
            · exact absurd h1 (by omega)
            · exact absurd h1 (by omega)
            · rcases hclass3 _ _ _ hold' with hb0 | ⟨-, -, hc2, hd2⟩
              · obtain ⟨hx, -⟩ := hwf _ _ _ hb0
                exact absurd hi.1 (by omega)
              · left; exact ⟨⟨hc2, hd2⟩, hold'⟩
          obtain ⟨w1, w2, hw, hp1, hp2⟩ :=
            star_decompose
              (P := fun y => b.state_counter + 1 + 1 ≤ y ∧ y < b3.state_counter)
              htail HA_x no_out_e ⟨hxs1, hxs2⟩ (by omega)
              (fun w' hp' => (SX.sem w').1 hp') ⟨hxs1, hxs2⟩
          subst hw
          exact .starStep ((SX.sem _).1 hp1) hp2
        · subst h3
          obtain ⟨hw2, -⟩ := htail.no_out no_out_e
          subst hw2
          exact .starEmpty
        · exact (no_out_s _ _ hold).elim
      · rcases (hmem _ _ _).1 hstep with ⟨-, h2', -⟩ | ⟨-, h2', -⟩ | ⟨-, h2', -⟩ |
          ⟨-, h2', -⟩ | hold
        · exact (Option.some_ne_none c h2').elim
        · exact (Option.some_ne_none c h2').elim
        · exact (Option.some_ne_none c h2').elim
        · exact (Option.some_ne_none c h2').elim
        · exact (no_out_s _ _ hold).elim
    · intro hm
      cases hm with
      | starEmpty => exact .eps h_se (.refl _)
      | starStep h1 h2 =>
          exact .eps h_sxs ((hA _ h1).append (star_complete_aux h_xee h_xexs hA h2 rfl))

/-- The Thompson construction satisfies `BuildSpec` for every expression. -/
theorem exprToNfa_spec : ∀ (E : Expression) (b : NfaBuilder), b.Wf →
    BuildSpec b (exprToNfa E b).1.1 (exprToNfa E b).1.2 (exprToNfa E b).2 E := by
  intro E
  induction E with
  | Epsilon =>
      intro b hwf
      exact buildSpec_single hwf none .Epsilon (fun w => matches_epsilon_iff)
  | Literal c =>
      intro b hwf
      exact buildSpec_single hwf (some c) (.Literal c) (fun w => matches_literal_iff)
  | Concat l r ihl ihr =>
      intro b hwf
      rcases hEl : exprToNfa l b with ⟨⟨ls, le⟩, b1⟩
      have SL := ihl b hwf
      rw [hEl] at SL
      rcases hEr : exprToNfa r b1 with ⟨⟨rs, re⟩, b2⟩
      have SR := ihr b1 SL.wf
      rw [hEr] at SR
      simp only [exprToNfa, hEl, hEr]
      exact buildSpec_concat hwf SL SR
  | Alternate l r ihl ihr =>
      intro b hwf
      rcases hEl : exprToNfa l ⟨b.transitions, b.state_counter + 1 + 1⟩ with ⟨⟨ls, le⟩, b3⟩
      have SL := ihl ⟨b.transitions, b.state_counter + 1 + 1⟩ (hwf.mono_counter (by omega))
      rw [hEl] at SL
      rcases hEr : exprToNfa r b3 with ⟨⟨rs, re⟩, b4⟩
      have SR := ihr b3 SL.wf
      rw [hEr] at SR
      simp only [exprToNfa, NfaBuilder.newState, hEl, hEr]
      exact buildSpec_alternate hwf SL SR
  | Star x ihx =>
      intro b hwf
      rcases hEx : exprToNfa x ⟨b.transitions, b.state_counter + 1 + 1⟩ with ⟨⟨xs, xe⟩, b3⟩
      have SX := ihx ⟨b.transitions, b.state_counter + 1 + 1⟩ (hwf.mono_counter (by omega))
      rw [hEx] at SX
      simp only [exprToNfa, NfaBuilder.newState, hEx]
      exact buildSpec_star hwf SX

theorem lookupKV_some_mem {kk vv : Type} [DecidableEq kk] :
    ∀ (l : List (kk × vv)) (k : kk) (v : vv), lookupKV l k = some v → (k, v) ∈ l := by
  intro l
  induction l with
  | nil => intro k v h; exact absurd h (by simp [lookupKV])
  | cons p rest ih =>
      intro k v h
      obtain ⟨k', v'⟩ := p
      rw [lookupKV_cons] at h
      by_cases hk : k = k'
      · rw [if_pos hk] at h
        subst hk
        cases h
        exact List.mem_cons_self _ _
      · rw [if_neg hk] at h
        exact List.mem_cons_of_mem _ (ih _ _ h)

theorem lookupKV_none_not_mem {kk vv : Type} [DecidableEq kk] :
    ∀ (l : List (kk × vv)) (k : kk), lookupKV l k = none → ∀ v, (k, v) ∉ l := by
  intro l
  induction l with
  | nil => intro k _ v h; exact absurd h (List.not_mem_nil _)
  | cons p rest ih =>
      intro k h v hv
      obtain ⟨k', v'⟩ := p
      rw [lookupKV_cons] at h
      by_cases hk : k = k'
      · rw [if_pos hk] at h
        exact Option.noConfusion h
      · rw [if_neg hk] at h
        rcases List.mem_cons.1 hv with heq | hmem
        · exact hk (congrArg Prod.fst heq)
        · exact ih _ h _ hmem

theorem mem_lookupKV_isSome {kk vv : Type} [DecidableEq kk] :
    ∀ (l : List (kk × vv)) (k : kk) (v : vv), (k, v) ∈ l → ∃ v', lookupKV l k = some v' := by
  intro l k v hmem
  cases h : lookupKV l k with
  | some v' => exact ⟨v', rfl⟩
  | none => exact absurd hmem (lookupKV_none_not_mem _ _ h v)

theorem lookupKV_append_left {kk vv : Type} [DecidableEq kk] :
    ∀ (l tl : List (kk × vv)) (k : kk) (v : vv),
      lookupKV l k = some v → lookupKV (l ++ tl) k = some v := by
  intro l tl
  induction l with
  | nil => intro k v h; exact absurd h (by simp [lookupKV])
  | cons p rest ih =>
      intro k v h
      obtain ⟨k', v'⟩ := p
      rw [lookupKV_cons] at h
      rw [List.cons_append, lookupKV_cons]
      by_cases hk : k = k'
      · rw [if_pos hk] at h
        rw [if_pos hk]
        exact h
      · rw [if_neg hk] at h
        rw [if_neg hk]
        exact ih _ _ h

theorem lookupKV_pairInsert_self (k : Nat × Nat) (v : Nat) :
    ∀ m : List ((Nat × Nat) × Nat), lookupKV (pairInsert k v m) k = some v := by
  intro m
  induction m with
  | nil => simp [pairInsert, lookupKV]
  | cons p rest ih =>
      obtain ⟨k', v'⟩ := p
      by_cases hk : k = k'
      · subst hk
        rw [show pairInsert k v ((k, v') :: rest) = (k, v) :: rest from by simp [pairInsert]]
        rw [lookupKV_cons, if_pos rfl]
      · simp only [pairInsert, if_neg hk, lookupKV_cons, if_neg hk]
        exact ih

theorem lookupKV_pairInsert_other (k : Nat × Nat) (v : Nat) (k' : Nat × Nat) (hne : k' ≠ k) :
    ∀ m : List ((Nat × Nat) × Nat), lookupKV (pairInsert k v m) k' = lookupKV m k' := by
  intro m
  induction m with
  | nil => simp [pairInsert, lookupKV, if_neg hne]
  | cons p rest ih =>
      obtain ⟨k'', v''⟩ := p
      by_cases hk : k = k''
      · subst hk
        rw [show pairInsert k v ((k, v'') :: rest) = (k, v) :: rest from by simp [pairInsert]]
        rw [lookupKV_cons, if_neg hne, lookupKV_cons, if_neg hne]
      · simp only [pairInsert, if_neg hk, lookupKV_cons]
        by_cases h2 : k' = k''
        · rw [if_pos h2, if_pos h2]
        · rw [if_neg h2, if_neg h2]
          exact ih

theorem mem_moveOnChar {t : TransMap} {c : Char} :
    ∀ {S : List Nat} {x : Nat},
      x ∈ moveOnChar t S c ↔ ∃ q ∈ S, x ∈ transLookup t q (some c) := by
  have aux : ∀ (S : List Nat) (acc : List Nat) (x : Nat),
      x ∈ S.foldl (fun a q => extendOrd a (transLookup t q (some c))) acc ↔
        x ∈ acc ∨ ∃ q ∈ S, x ∈ transLookup t q (some c) := by
    intro S
    induction S with
    | nil => simp
    | cons q S' ih =>
        intro acc x
        simp only [List.foldl_cons]
        rw [ih, mem_extendOrd]
        constructor
        · rintro ((h | h) | ⟨q', hq', h⟩)
          · exact .inl h
          · exact .inr ⟨q, List.mem_cons_self _ _, h⟩
          · exact .inr ⟨q', List.mem_cons_of_mem _ hq', h⟩
        · rintro (h | ⟨q', hq', h⟩)
          · exact .inl (.inl h)
          · rcases List.mem_cons.1 hq' with rfl | hq'
            · exact .inl (.inr h)
            · exact .inr ⟨q', hq', h⟩
  intro S x
  exact aux S [] x |>.trans (by simp)

theorem nfaPath_snoc {t : TransMap} {s x : Nat} {w : List Char} {c : Char} :
    NfaPath t s (w ++ [c]) x ↔
      ∃ u v, NfaPath t s w u ∧ v ∈ transLookup t u (some c) ∧ NfaPath t v [] x := by
  constructor
  · have aux : ∀ {w0}, NfaPath t s w0 x → ∀ w' , w0 = w' ++ [c] →
        ∃ u v, NfaPath t s w' u ∧ v ∈ transLookup t u (some c) ∧ NfaPath t v [] x := by
      intro w0 h
      induction h with
      | refl i =>
          intro w' hw
          exact absurd hw.symm (List.append_ne_nil_of_right_ne_nil _ (by simp))
      | eps hstep htail ih =>
          intro w' hw
          obtain ⟨u, v, hp, hc, he⟩ := ih w' hw
          exact ⟨u, v, .eps hstep hp, hc, he⟩
      | char c' hstep htail ih =>
          intro w' hw
          cases w' with
          | nil =>
              simp only [List.nil_append, List.cons.injEq] at hw
              obtain ⟨rfl, rfl⟩ := hw
              exact ⟨_, _, .refl _, hstep, htail⟩
          | cons d w'' =>
              simp only [List.cons_append, List.cons.injEq] at hw
              obtain ⟨rfl, hw⟩ := hw
              obtain ⟨u, v, hp, hc, he⟩ := ih w'' hw
              exact ⟨u, v, .char c' hstep hp, hc, he⟩
    exact fun h => aux h w rfl
  · rintro ⟨u, v, hp, hc, he⟩
    exact hp.append (.char c hc he)

theorem eclFold_spec :
    ∀ (ds cl nl : List Nat),
      (∀ x, x ∈ (eclFold cl nl ds).1 ↔ x ∈ cl ∨ x ∈ ds) ∧
        (∀ x, x ∈ (eclFold cl nl ds).2 → x ∈ nl ∨ x ∈ ds) ∧
        (∀ x ∈ nl, x ∈ (eclFold cl nl ds).2) ∧
        (∀ x, x ∈ (eclFold cl nl ds).1 → x ∈ cl ∨ x ∈ (eclFold cl nl ds).2) := by
  intro ds
  induction ds with
  | nil =>
      intro cl nl
      exact ⟨by simp [eclFold], fun x h => .inl h, fun x h => h, fun x h => .inl h⟩
  | cons d ds' ih =>
      intro cl nl
      by_cases hd : d ∈ cl
      · rw [show eclFold cl nl (d :: ds') = eclFold cl nl ds' from by simp [eclFold, hd]]
        obtain ⟨h1, h2, h3, h4⟩ := ih cl nl
        refine ⟨fun x => ?_, fun x hx => ?_, h3, h4⟩
        · rw [h1]
          constructor
          · rintro (h | h)
            · exact .inl h
            · exact .inr (List.mem_cons_of_mem _ h)
          · rintro (h | h)
            · exact .inl h
            · rcases List.mem_cons.1 h with rfl | h
              · exact .inl hd
              · exact .inr h
        · rcases h2 x hx with h | h
          · exact .inl h
          · exact .inr (List.mem_cons_of_mem _ h)
      · rw [show eclFold cl nl (d :: ds') = eclFold (insOrd d cl) (nl ++ [d]) ds' from by
          simp [eclFold, hd]]
        obtain ⟨h1, h2, h3, h4⟩ := ih (insOrd d cl) (nl ++ [d])
        refine ⟨fun x => ?_, fun x hx => ?_, fun x hx => h3 x (by simp [hx]), fun x hx => ?_⟩
        · rw [h1, mem_insOrd]
          constructor
          · rintro ((rfl | h) | h)
            · exact .inr (List.mem_cons_self _ _)
            · exact .inl h
            · exact .inr (List.mem_cons_of_mem _ h)
          · rintro (h | h)
            · exact .inl (.inr h)
            · rcases List.mem_cons.1 h with rfl | h
              · exact .inl (.inl rfl)
              · exact .inr h
        · rcases h2 x hx with h | h
          · rcases List.mem_append.1 h with h | h
            · exact .inl h
            · simp only [List.mem_singleton] at h
              subst h
              exact .inr (List.mem_cons_self _ _)
          · exact .inr (List.mem_cons_of_mem _ h)
        · rcases h4 x hx with h | h
          · rcases (mem_insOrd _ _ _).1 h with rfl | h
            · exact .inr (h3 _ (by simp))
            · exact .inl h
          · exact .inr h

theorem closed_reach {t : TransMap} {C : List Nat}
    (hC : ∀ y ∈ C, ∀ j ∈ transLookup t y none, j ∈ C) :
    ∀ {s x}, NfaPath t s [] x → s ∈ C → x ∈ C := by
  have aux : ∀ {s w x}, NfaPath t s w x → w = [] → s ∈ C → x ∈ C := by
    intro s w x h
    induction h with
    | refl i => exact fun _ h => h
    | eps hstep _ ih => exact fun hw hs => ih hw (hC _ hs _ hstep)
    | char c hstep _ ih => exact fun hw => absurd hw (by simp)
  exact fun {s} {x} h hs => aux h rfl hs

theorem eclAux_spec (t : TransMap) (S0 : List Nat) :
    ∀ (fuel : Nat) (closure worklist out : List Nat),
      epsilonClosureAux t fuel closure worklist = some out →
      (∀ x ∈ closure, ∃ s ∈ S0, NfaPath t s [] x) →
      (∀ s ∈ S0, s ∈ closure) →
      (∀ x ∈ worklist, x ∈ closure) →
      (∀ x ∈ closure, x ∈ worklist ∨ ∀ j ∈ transLookup t x none, j ∈ closure) →
      ∀ x, x ∈ out ↔ ∃ s ∈ S0, NfaPath t s [] x := by
  intro fuel
  induction fuel with
  | zero =>
      intro _ _ _ h
      exact absurd h (by simp [epsilonClosureAux])
  | succ f ih =>
      intro closure worklist out h hsound hS0 hwl hcp
      cases worklist with
      | nil =>
          simp only [epsilonClosureAux] at h
          cases h
          intro x
          constructor
          · exact fun hx => hsound x hx
          · rintro ⟨s, hs, hp⟩
            have hclosed : ∀ y ∈ closure, ∀ j ∈ transLookup t y none, j ∈ closure := by
              intro y hy
              rcases hcp y hy with hmem | hc
              · exact absurd hmem (List.not_mem_nil _)
              · exact hc
            exact closed_reach hclosed hp (hS0 s hs)
      | cons state rest =>
          simp only [epsilonClosureAux] at h
          obtain ⟨F1, F2, -, F4⟩ :=
            eclFold_spec (transLookup t state none) closure []
          refine ih _ _ _ h ?_ ?_ ?_ ?_
          · intro x hx
            rcases (F1 x).1 hx with hc | hdest
            · exact hsound x hc
            · obtain ⟨s, hs, hp⟩ := hsound state (hwl state (List.mem_cons_self _ _))
              exact ⟨s, hs, hp.eps_tail hdest⟩
          · exact fun s hs => (F1 s).2 (.inl (hS0 s hs))
          · intro x hx
            rcases List.mem_append.1 hx with hnew | hrest
            · rcases F2 x hnew with hnil | hdest
              · exact absurd hnil (List.not_mem_nil _)
              · exact (F1 x).2 (.inr hdest)
            · exact (F1 x).2 (.inl (hwl x (List.mem_cons_of_mem _ hrest)))
          · intro x hx
            rcases F4 x hx with hc | hnew
            · by_cases hxs : x = state
              · subst hxs
                right
                exact fun j hj => (F1 j).2 (.inr hj)
              · rcases hcp x hc with hmem | hclosed
                · rcases List.mem_cons.1 hmem with heq | hrest
                  · exact absurd heq hxs
                  · exact .inl (List.mem_append_right _ hrest)
                · right
                  exact fun j hj => (F1 j).2 (.inl (hclosed j hj))
            · exact .inl (List.mem_append_left _ hnew)

/-- The ε-closure worklist, when it terminates, computes exactly the states
reachable by ε-paths from the input set. -/
theorem epsilonClosure_spec {t : TransMap} {fuel : Nat} {S out : List Nat}
    (h : epsilonClosure t fuel S = some out) :
    ∀ x, x ∈ out ↔ ∃ s ∈ S, NfaPath t s [] x := by
  refine eclAux_spec t S fuel S S out h ?_ (fun s hs => hs) (fun x hx => hx)
    (fun x hx => .inl hx)
  exact fun x hx => ⟨x, hx, .refl x⟩

theorem stateAt_mem {st : SubsetState} {i : Nat} (h : i < st.dfa_states.length) :
    stateAt st i ∈ st.dfa_states := by
  rw [stateAt, List.getD_eq_getElem?_getD, List.getElem?_eq_getElem h]
  exact List.getElem_mem _

theorem mem_idx_at {st : SubsetState}
    (hidx : ∀ k, k < st.dfa_states.length → (stateAt st k).2 = k)
    {p : List Nat × Nat} (hp : p ∈ st.dfa_states) :
    p.2 < st.dfa_states.length ∧ stateAt st p.2 = p := by
  obtain ⟨⟨n, hn⟩, hget⟩ := List.mem_iff_get.1 hp
  have hat : stateAt st n = p := by
    rw [stateAt, List.getD_eq_getElem?_getD, List.getElem?_eq_getElem hn]
    exact hget
  have h2 := hidx n hn
  rw [hat] at h2
  subst h2
  exact ⟨hn, hat⟩

theorem getD_append_len {α : Type} (l : List α) (x : α) (d : α) :
    (l ++ [x]).getD l.length d = x := by
  rw [List.getD_eq_getElem?_getD, List.getElem?_append_right (le_refl _)]
  simp

theorem charDone_mono {t : TransMap} {st st2 : SubsetState} {S : List Nat} {iS a : Nat}
    {c : Char} (hd : charDone t st S iS a c)
    (hkeep : lookupKV st2.dfa_transitions (iS, a) = lookupKV st.dfa_transitions (iS, a))
    (hsub : ∀ p : List Nat × Nat, p ∈ st.dfa_states → p ∈ st2.dfa_states) :
    charDone t st2 S iS a c := by
  obtain ⟨T, hchar, hcase⟩ := hd
  refine ⟨T, hchar, ?_⟩
  rcases hcase with ⟨hT, hnone⟩ | ⟨hT, k, hsome, hmem⟩
  · exact .inl ⟨hT, by rw [hkeep]; exact hnone⟩
  · exact .inr ⟨hT, k, by rw [hkeep]; exact hsome, hsub _ hmem⟩

theorem processSym_spec {t : TransMap} {fuel : Nat} {S : List Nat} {ci : Nat}
    {st st2 : SubsetState} {ai : Nat × Char}
    (h : processSym t fuel S ci st ai = some st2)
    (hfresh : lookupKV st.dfa_transitions (ci, ai.1) = none) :
    ((st2.dfa_states = st.dfa_states ∧ st2.worklist = st.worklist) ∨
      (∃ T', lookupKV st.dfa_states T' = none ∧
        st2.dfa_states = st.dfa_states ++ [(T', st.dfa_states.length)] ∧
        st2.worklist = st.worklist ++ [T'])) ∧
    (∀ k', k' ≠ (ci, ai.1) →
      lookupKV st2.dfa_transitions k' = lookupKV st.dfa_transitions k') ∧
    (∀ k, lookupKV st2.dfa_transitions (ci, ai.1) = some k →
      ∃ T', (T', k) ∈ st2.dfa_states) ∧
    (st2.dfa_transitions = st.dfa_transitions ∨
      ∃ k0, st2.dfa_transitions = pairInsert (ci, ai.1) k0 st.dfa_transitions) ∧
    charDone t st2 S ci ai.1 ai.2 := by
  rw [processSym] at h
  cases hE : epsilonClosure t fuel (moveOnChar t S ai.2) with
  | none => rw [hE] at h; exact absurd h (by simp)
  | some T =>
      rw [hE] at h
      simp only [Option.bind_eq_bind, Option.some_bind] at h
      have hchar := epsilonClosure_spec hE
      by_cases hT : T = []
      · rw [if_pos hT] at h
        cases h
        subst hT
        refine ⟨.inl ⟨rfl, rfl⟩, fun _ _ => rfl, ?_, .inl rfl,
          ⟨[], hchar, .inl ⟨rfl, hfresh⟩⟩⟩
        intro k hk
        rw [hfresh] at hk
        exact Option.noConfusion hk
      · rw [if_neg hT] at h
        cases hL : lookupKV st.dfa_states T with
        | some idx =>
            rw [hL] at h
            cases h
            refine ⟨.inl ⟨rfl, rfl⟩, ?_, ?_, .inr ⟨idx, rfl⟩, ?_⟩
            · intro k' hk'
              exact lookupKV_pairInsert_other _ _ _ hk' _
            · intro k hk
              rw [lookupKV_pairInsert_self] at hk
              cases hk
              exact ⟨T, lookupKV_some_mem _ _ _ hL⟩
            · exact ⟨T, hchar, .inr ⟨hT, idx, lookupKV_pairInsert_self _ _ _,
                lookupKV_some_mem _ _ _ hL⟩⟩
        | none =>
            rw [hL] at h
            cases h
            refine ⟨.inr ⟨T, hL, rfl, rfl⟩, ?_, ?_, .inr ⟨st.dfa_states.length, rfl⟩, ?_⟩
            · intro k' hk'
              exact lookupKV_pairInsert_other _ _ _ hk' _
            · intro k hk
              rw [lookupKV_pairInsert_self] at hk
              cases hk
              exact ⟨T, List.mem_append_right _ (List.mem_singleton.2 rfl)⟩
            · exact ⟨T, hchar, .inr ⟨hT, st.dfa_states.length, lookupKV_pairInsert_self _ _ _,
                List.mem_append_right _ (List.mem_singleton.2 rfl)⟩⟩

theorem mem_keys_pairInsert (k : Nat × Nat) (v : Nat) :
    ∀ (m : List ((Nat × Nat) × Nat)) (x : Nat × Nat),
      x ∈ (pairInsert k v m).map Prod.fst ↔ x = k ∨ x ∈ m.map Prod.fst := by
  intro m
  induction m with
  | nil => intro x; simp [pairInsert]
  | cons p rest ih =>
      intro x
      obtain ⟨k', v'⟩ := p
      by_cases hk : k = k'
      · subst hk
        rw [show pairInsert k v ((k, v') :: rest) = (k, v) :: rest from by simp [pairInsert]]
        simp only [List.map_cons, List.mem_cons]
        constructor
        · rintro (rfl | h)
          · exact .inl rfl
          · exact .inr (.inr h)
        · rintro (rfl | (rfl | h))
          · exact .inl rfl
          · exact .inl rfl
          · exact .inr h
      · rw [show pairInsert k v ((k', v') :: rest) = (k', v') :: pairInsert k v rest from by
          simp [pairInsert, hk]]
        simp only [List.map_cons, List.mem_cons]
        rw [ih x]
        tauto

theorem pairInsert_keys_nodup (k : Nat × Nat) (v : Nat) :
    ∀ m : List ((Nat × Nat) × Nat),
      (m.map Prod.fst).Nodup → ((pairInsert k v m).map Prod.fst).Nodup := by
  intro m
  induction m with
  | nil => intro _; simp [pairInsert]
  | cons p rest ih =>
      intro h
      obtain ⟨k', v'⟩ := p
      simp only [List.map_cons, List.nodup_cons] at h
      by_cases hk : k = k'
      · subst hk
        rw [show pairInsert k v ((k, v') :: rest) = (k, v) :: rest from by simp [pairInsert]]
        simp only [List.map_cons, List.nodup_cons]
        exact h
      · rw [show pairInsert k v ((k', v') :: rest) = (k', v') :: pairInsert k v rest from by
          simp [pairInsert, hk]]
        simp only [List.map_cons, List.nodup_cons]
        refine ⟨?_, ih h.2⟩
        rw [mem_keys_pairInsert]
        rintro (rfl | hmem)
        · exact hk rfl
        · exact h.1 hmem

theorem subInv_step {alphabet : List Char} {t : TransMap} {fuel : Nat} {S : List Nat}
    {ci : Nat} {st st2 : SubsetState} {ai : Nat × Char}
    (h : processSym t fuel S ci st ai = some st2)
    (hfresh : lookupKV st.dfa_transitions (ci, ai.1) = none)
    (hSmem : (S, ci) ∈ st.dfa_states)
    (hSwl : S ∉ st.worklist)
    (hai : ai.1 < alphabet.length)
    (inv : SubInv alphabet st) :
    SubInv alphabet st2 ∧ (S, ci) ∈ st2.dfa_states ∧ S ∉ st2.worklist ∧
      (∃ tl, st2.dfa_states = st.dfa_states ++ tl) ∧
      (∀ Q ∈ st2.worklist, Q ∈ st.worklist ∨ ∀ j, (Q, j) ∉ st.dfa_states) := by
  obtain ⟨hstates, htrans_other, htrans_new, htshape, -⟩ := processSym_spec h hfresh
  have hnodup2 : (st2.dfa_transitions.map Prod.fst).Nodup := by
    rcases htshape with heq | ⟨k0, heq⟩
    · rw [heq]
      exact inv.trans_keys_nodup
    · rw [heq]
      exact pairInsert_keys_nodup _ _ _ inv.trans_keys_nodup
  have hciS := mem_idx_at inv.idx_at hSmem
  have hSatci : stateAt st ci = (S, ci) := hciS.2
  have hcilt : ci < st.dfa_states.length := by
    have := hciS.1
    simpa using this
  rcases hstates with ⟨hseq, hweq⟩ | ⟨T', hTnone, hseq, hweq⟩
  · -- no new state
    have hat : ∀ k, stateAt st2 k = stateAt st k := by
      intro k
      simp only [stateAt, hseq]
    have hidx2 : ∀ k, k < st2.dfa_states.length → (stateAt st2 k).2 = k := by
      intro k hk
      rw [hat k]
      exact inv.idx_at k (by rwa [hseq] at hk)
    refine ⟨⟨hidx2, by rw [hseq]; exact inv.keys_nodup, ?_, by rw [hweq]; exact inv.wl_nodup,
        ?_, hnodup2⟩, by rw [hseq]; exact hSmem, by rw [hweq]; exact hSwl,
        ⟨[], by simp [hseq]⟩, ?_⟩
    · intro Q hQ
      rw [hweq] at hQ
      obtain ⟨i, hi⟩ := inv.wl_mem Q hQ
      exact ⟨i, by rw [hseq]; exact hi⟩
    · intro i a k hk
      by_cases hkey : (i, a) = (ci, ai.1)
      · rw [hkey] at hk
        obtain ⟨T'', hT''⟩ := htrans_new k hk
        rw [hseq] at hT''
        obtain ⟨hklt, -⟩ := mem_idx_at inv.idx_at hT''
        have hi : i = ci := congrArg Prod.fst hkey
        have ha : a = ai.1 := congrArg Prod.snd hkey
        refine ⟨by rw [hseq, hi]; exact hcilt, by rw [ha]; exact hai,
          by rw [hseq]; exact hklt, ?_⟩
        rw [hi, hat ci, hSatci, hweq]
        exact hSwl
      · rw [htrans_other _ hkey] at hk
        obtain ⟨h1, h2, h3, h4⟩ := inv.trans_dom i a k hk
        refine ⟨by rwa [hseq], h2, by rwa [hseq], ?_⟩
        rw [hat i, hweq]
        exact h4
    · intro Q hQ
      rw [hweq] at hQ
      exact .inl hQ
  · -- new state appended
    have hlen2 : st2.dfa_states.length = st.dfa_states.length + 1 := by
      rw [hseq]; simp
    have hat_lt : ∀ k, k < st.dfa_states.length → stateAt st2 k = stateAt st k := by
      intro k hk
      simp only [stateAt, hseq]
      rw [List.getD_append _ _ _ _ hk]
    have hat_len : stateAt st2 st.dfa_states.length = (T', st.dfa_states.length) := by
      simp only [stateAt, hseq]
      rw [getD_append_len]
    have hidx2 : ∀ k, k < st2.dfa_states.length → (stateAt st2 k).2 = k := by
      intro k hk
      rw [hlen2] at hk
      rcases Nat.lt_succ_iff_lt_or_eq.1 hk with hk' | rfl
      · rw [hat_lt k hk']
        exact inv.idx_at k hk'
      · rw [hat_len]
    have hT'notin : ∀ j, (T', j) ∉ st.dfa_states := lookupKV_none_not_mem _ _ hTnone
    have hT'key : T' ∉ st.dfa_states.map Prod.fst := by
      intro hmem
      obtain ⟨p, hp, hfst⟩ := List.mem_map.1 hmem
      refine hT'notin p.2 ?_
      rw [show (T', p.2) = p from by rw [← hfst]]
      exact hp
    have hT'wl : T' ∉ st.worklist := by
      intro hmem
      obtain ⟨i, hi⟩ := inv.wl_mem T' hmem
      exact hT'notin i hi
    have hSneT' : S ≠ T' := by
      intro heq
      exact hT'notin ci (heq ▸ hSmem)
    have hSwl2 : S ∉ st2.worklist := by
      rw [hweq]
      intro hmem
      rcases List.mem_append.1 hmem with hmem | hmem
      · exact hSwl hmem
      · exact hSneT' (List.mem_singleton.1 hmem)
    refine ⟨⟨hidx2, ?_, ?_, ?_, ?_, hnodup2⟩, by rw [hseq]; exact List.mem_append_left _ hSmem,
        hSwl2, ⟨[(T', st.dfa_states.length)], hseq⟩, ?_⟩
    · rw [hseq, List.map_append]
      refine List.Nodup.append inv.keys_nodup (List.nodup_singleton _) ?_
      intro x hx hx'
      simp only [List.map_cons, List.map_nil, List.mem_singleton] at hx'
      subst hx'
      exact hT'key hx
    · intro Q hQ
      rw [hweq] at hQ
      rcases List.mem_append.1 hQ with hQ | hQ
      · obtain ⟨i, hi⟩ := inv.wl_mem Q hQ
        exact ⟨i, by rw [hseq]; exact List.mem_append_left _ hi⟩
      · obtain rfl := List.mem_singleton.1 hQ
        exact ⟨st.dfa_states.length, by rw [hseq]; exact List.mem_append_right _ (by simp)⟩
    · rw [hweq]
      refine List.Nodup.append inv.wl_nodup (List.nodup_singleton _) ?_
      intro x hx hx'
      obtain rfl := List.mem_singleton.1 hx'
      exact hT'wl hx
    · intro i a k hk
      by_cases hkey : (i, a) = (ci, ai.1)
      · rw [hkey] at hk
        obtain ⟨T'', hT''⟩ := htrans_new k hk
        obtain ⟨hklt, -⟩ := mem_idx_at hidx2 hT''
        have hi : i = ci := congrArg Prod.fst hkey
        have ha : a = ai.1 := congrArg Prod.snd hkey
        refine ⟨by rw [hi]; rw [hlen2]; omega, by rw [ha]; exact hai, hklt, ?_⟩
        rw [hi, show stateAt st2 ci = (S, ci) from by rw [hat_lt ci hcilt]; exact hSatci]
        exact hSwl2
      · rw [htrans_other _ hkey] at hk
        obtain ⟨h1, h2, h3, h4⟩ := inv.trans_dom i a k hk
        refine ⟨by rw [hlen2]; omega, h2, by rw [hlen2]; omega, ?_⟩
        rw [hat_lt i h1, hweq]
        intro hmem
        rcases List.mem_append.1 hmem with hmem | hmem
        · exact h4 hmem
        · obtain heq := List.mem_singleton.1 hmem
          refine hT'key ?_
          rw [← heq]
          exact List.mem_map.2 ⟨stateAt st i, stateAt_mem h1, rfl⟩
    · intro Q hQ
      rw [hweq] at hQ
      rcases List.mem_append.1 hQ with hQ | hQ
      · exact .inl hQ
      · obtain rfl := List.mem_singleton.1 hQ
        exact .inr hT'notin

theorem mem_ne_key_idx {alphabet : List Char} {st : SubsetState} (inv : SubInv alphabet st)
    {S : List Nat} {ci : Nat} (hS : (S, ci) ∈ st.dfa_states) {p : List Nat × Nat}
    (hp : p ∈ st.dfa_states) (hne : p.1 ≠ S) : p.2 ≠ ci := by
  intro heq
  obtain ⟨-, hp2⟩ := mem_idx_at inv.idx_at hp
  obtain ⟨-, hS2⟩ := mem_idx_at inv.idx_at hS
  rw [heq] at hp2
  have hpe : p = (S, ci) := by
    rw [← hp2]
    exact hS2
  exact hne (congrArg Prod.fst hpe)

theorem processFold_spec {t : TransMap} {alphabet : List Char} {fuel : Nat} {S : List Nat}
    {ci : Nat} :
    ∀ (l : List (Nat × Char)) (st st2 : SubsetState),
      l.foldlM (processSym t fuel S ci) st = some st2 →
      (∀ ai ∈ l, ai.1 < alphabet.length) →
      (l.map Prod.fst).Nodup →
      (∀ ai ∈ l, lookupKV st.dfa_transitions (ci, ai.1) = none) →
      (S, ci) ∈ st.dfa_states →
      S ∉ st.worklist →
      SubInv alphabet st →
      procOthers t alphabet st S →
      SubInv alphabet st2 ∧ procOthers t alphabet st2 S ∧
        (S, ci) ∈ st2.dfa_states ∧ S ∉ st2.worklist ∧
        (∃ tl, st2.dfa_states = st.dfa_states ++ tl) ∧
        (∀ Q ∈ st2.worklist, Q ∈ st.worklist ∨ ∀ j, (Q, j) ∉ st.dfa_states) ∧
        (∀ k', (∀ ai ∈ l, k' ≠ (ci, ai.1)) →
          lookupKV st2.dfa_transitions k' = lookupKV st.dfa_transitions k') ∧
        (∀ ai ∈ l, charDone t st2 S ci ai.1 ai.2) := by
  intro l
  induction l with
  | nil =>
      intro st st2 h _ _ _ hS hSwl inv po
      simp only [List.foldlM_nil] at h
      cases h
      exact ⟨inv, po, hS, hSwl, ⟨[], by simp⟩, fun Q hQ => .inl hQ, fun k' _ => rfl,
        fun ai hai => absurd hai (List.not_mem_nil _)⟩
  | cons ai l' ih =>
      intro st st2 h hbound hnodup hfresh hS hSwl inv po
      simp only [List.foldlM_cons] at h
      cases h1 : processSym t fuel S ci st ai with
      | none => rw [h1] at h; exact absurd h (by simp)
      | some st1 =>
          rw [h1] at h
          simp only [Option.bind_eq_bind, Option.some_bind] at h
          have hfresh_head := hfresh ai (List.mem_cons_self _ _)
          have hbound_head := hbound ai (List.mem_cons_self _ _)
          obtain ⟨inv1, hS1, hSwl1, ⟨tl1, hseq1⟩, hQ1⟩ :=
            subInv_step h1 hfresh_head hS hSwl hbound_head inv
          obtain ⟨hstates1, htrans_other1, -, -, hdone_head⟩ := processSym_spec h1 hfresh_head
          have hheadfst : ai.1 ∉ l'.map Prod.fst := by
            have := hnodup
            simp only [List.map_cons, List.nodup_cons] at this
            exact this.1
          -- previously processed states stay processed
          have po1 : procOthers t alphabet st1 S := by
            intro p2 hp2 hp2wl hp2S a ha
            have hp2old : p2 ∈ st.dfa_states := by
              rcases hstates1 with ⟨hseq, -⟩ | ⟨T', -, hseq, hweq⟩
              · rwa [hseq] at hp2
              · rw [hseq] at hp2
                rcases List.mem_append.1 hp2 with hp2' | hp2'
                · exact hp2'
                · obtain rfl := List.mem_singleton.1 hp2'
                  exact absurd (by rw [hweq]; exact List.mem_append_right _ (by simp)) hp2wl
            have hp2wlold : p2.1 ∉ st.worklist := by
              intro hmem
              rcases hstates1 with ⟨-, hweq⟩ | ⟨T', -, -, hweq⟩
              · exact hp2wl (by rwa [hweq])
              · exact hp2wl (by rw [hweq]; exact List.mem_append_left _ hmem)
            have hd := po p2 hp2old hp2wlold hp2S a ha
            refine charDone_mono hd ?_ ?_
            · refine htrans_other1 _ ?_
              intro heq
              exact mem_ne_key_idx inv hS hp2old hp2S (congrArg Prod.fst heq)
            · intro p hp
              rw [hseq1]
              exact List.mem_append_left _ hp
          have hfresh' : ∀ ai' ∈ l', lookupKV st1.dfa_transitions (ci, ai'.1) = none := by
            intro ai' hai'
            rw [htrans_other1]
            · exact hfresh ai' (List.mem_cons_of_mem _ hai')
            · intro heq
              have : ai'.1 = ai.1 := congrArg Prod.snd heq
              exact hheadfst (this ▸ List.mem_map.2 ⟨ai', hai', rfl⟩)
          obtain ⟨inv2, po2, hS2, hSwl2, ⟨tl2, hseq2⟩, hQ2, hkeep2, hdone2⟩ :=
            ih st1 st2 h (fun x hx => hbound x (List.mem_cons_of_mem _ hx))
              (by simpa using (List.nodup_cons.1 (by simpa using hnodup)).2) hfresh' hS1 hSwl1
              inv1 po1
          refine ⟨inv2, po2, hS2, hSwl2, ⟨tl1 ++ tl2, by rw [hseq2, hseq1, List.append_assoc]⟩,
            ?_, ?_, ?_⟩
          · intro Q hQ
            rcases hQ2 Q hQ with hQ' | hQ'
            · rcases hQ1 Q hQ' with h' | h'
              · exact .inl h'
              · exact .inr h'
            · right
              intro j hj
              exact hQ' j (by rw [hseq1]; exact List.mem_append_left _ hj)
          · intro k' hk'
            rw [hkeep2 k' (fun x hx => hk' x (List.mem_cons_of_mem _ hx)),
              htrans_other1 _ (hk' ai (List.mem_cons_self _ _))]
          · intro ai' hai'
            rcases List.mem_cons.1 hai' with rfl | hai'
            · refine charDone_mono hdone_head ?_ ?_
              · refine hkeep2 _ ?_
                intro x hx heq
                have : ai'.1 = x.1 := congrArg Prod.snd heq
                exact hheadfst (this ▸ List.mem_map.2 ⟨x, hx, rfl⟩)
              · intro p hp
                rw [hseq2]
                exact List.mem_append_left _ hp
            · exact hdone2 ai' hai'

theorem subsetLoop_spec {t : TransMap} {alphabet : List Char} :
    ∀ (fuel : Nat) (st st2 : SubsetState),
      subsetLoop t alphabet fuel st = some st2 →
      SubInv alphabet st →
      procAll t alphabet st →
      SubInv alphabet st2 ∧ st2.worklist = [] ∧ procAll t alphabet st2 ∧
        ∃ tl, st2.dfa_states = st.dfa_states ++ tl := by
  intro fuel
  induction fuel with
  | zero =>
      intro st st2 h
      exact absurd h (by simp [subsetLoop])
  | succ f ih =>
      intro st st2 h inv pa
      cases hwl : st.worklist with
      | nil =>
          simp only [subsetLoop, hwl] at h
          cases h
          exact ⟨inv, hwl, pa, ⟨[], by simp⟩⟩
      | cons S rest =>
          simp only [subsetLoop, hwl] at h
          cases hp : processSubset t alphabet f S { st with worklist := rest } with
          | none => rw [hp] at h; exact absurd h (by simp)
          | some st1 =>
              rw [hp] at h
              simp only [Option.bind_eq_bind, Option.some_bind] at h
              -- the popped subset and its index
              obtain ⟨ci0, hci0⟩ := inv.wl_mem S (hwl ▸ List.mem_cons_self _ _)
              obtain ⟨ci, hlci⟩ := mem_lookupKV_isSome _ _ _ hci0
              have hciMem : (S, ci) ∈ st.dfa_states := lookupKV_some_mem _ _ _ hlci
              have hSnotrest : S ∉ rest := by
                have := inv.wl_nodup
                rw [hwl] at this
                exact (List.nodup_cons.1 this).1
              -- the state with the worklist popped
              have inv' : SubInv alphabet { st with worklist := rest } := by
                refine ⟨inv.idx_at, inv.keys_nodup, ?_, ?_, ?_, inv.trans_keys_nodup⟩
                · exact fun Q hQ => inv.wl_mem Q (hwl ▸ List.mem_cons_of_mem _ hQ)
                · have := inv.wl_nodup
                  rw [hwl] at this
                  exact (List.nodup_cons.1 this).2
                · intro i a k hk
                  obtain ⟨h1, h2, h3, h4⟩ := inv.trans_dom i a k hk
                  refine ⟨h1, h2, h3, ?_⟩
                  rw [hwl] at h4
                  intro hmem
                  exact h4 (List.mem_cons_of_mem _ hmem)
              have po' : procOthers t alphabet { st with worklist := rest } S := by
                intro p hp hpwl hpS a ha
                refine pa p hp ?_ a ha
                rw [hwl]
                intro hmem
                rcases List.mem_cons.1 hmem with heq | hmem'
                · exact hpS heq
                · exact hpwl hmem'
              have hfresh : ∀ ai ∈ alphabet.enum,
                  lookupKV ({ st with worklist := rest } : SubsetState).dfa_transitions
                    (ci, ai.1) = none := by
                intro ai _
                cases hlook : lookupKV st.dfa_transitions (ci, ai.1) with
                | none => rfl
                | some k =>
                    obtain ⟨-, -, -, h4⟩ := inv.trans_dom ci ai.1 k hlook
                    obtain ⟨-, hats⟩ := mem_idx_at inv.idx_at hciMem
                    rw [show (S, ci).2 = ci from rfl] at hats
                    rw [hats] at h4
                    rw [hwl] at h4
                    exact absurd (List.mem_cons_self _ _) h4
              have hpfold : alphabet.enum.foldlM (processSym t f S ci)
                  { st with worklist := rest } = some st1 := by
                rw [processSubset] at hp
                rw [show (lookupKV ({ st with worklist := rest } : SubsetState).dfa_states
                    S).getD 0 = ci from by rw [show ({ st with worklist := rest } :
                    SubsetState).dfa_states = st.dfa_states from rfl, hlci]; rfl] at hp
                exact hp
              obtain ⟨inv1, po1, hS1, hSwl1, ⟨tl1, hseq1⟩, hQ1, hkeep1, hdone1⟩ :=
                processFold_spec alphabet.enum { st with worklist := rest } st1 hpfold
                  (fun ai hai => by
                    have := List.mem_enum_iff_getElem?.1 hai
                    exact (List.getElem?_eq_some.1 this).1)
                  (by rw [List.enum_map_fst]; exact List.nodup_range _) hfresh hciMem
                  hSnotrest inv' po'
              have pa1 : procAll t alphabet st1 := by
                intro p hp hpwl a ha
                by_cases hpS : p.1 = S
                · have hpe : p = (S, ci) := by
                    refine List.inj_on_of_nodup_map inv1.keys_nodup hp hS1 ?_
                    exact hpS
                  have hmem : (a, alphabet.get ⟨a, ha⟩) ∈ alphabet.enum := by
                    rw [List.mem_enum_iff_getElem?]
                    simp [List.getElem?_eq_getElem ha, List.get_eq_getElem]
                  have := hdone1 (a, alphabet.get ⟨a, ha⟩) hmem
                  rw [hpe]
                  exact this
                · exact po1 p hp hpwl hpS a ha
              obtain ⟨inv2, hwl2, pa2, ⟨tl2, hseq2⟩⟩ := ih st1 st2 h inv1 pa1
              refine ⟨inv2, hwl2, pa2, ⟨tl1 ++ tl2, ?_⟩⟩
              rw [hseq2, hseq1]
              simp [List.append_assoc]

theorem lookupKV_of_mem_nodup {kk vv : Type} [DecidableEq kk] :
    ∀ (m : List (kk × vv)) (kv : kk × vv), kv ∈ m → (m.map Prod.fst).Nodup →
      lookupKV m kv.1 = some kv.2 := by
  intro m
  induction m with
  | nil => intro kv h; cases h
  | cons p rest ih =>
      intro kv hmem hnodup
      simp only [List.map_cons, List.nodup_cons] at hnodup
      rcases List.mem_cons.1 hmem with rfl | hmem'
      · simp [lookupKV]
      · have hne : kv.1 ≠ p.1 := by
          intro heq
          exact hnodup.1 (heq ▸ List.mem_map_of_mem Prod.fst hmem')
        rw [show lookupKV (p :: rest) kv.1 = lookupKV rest kv.1 from by
          simp [lookupKV, hne]]
        exact ih kv hmem' hnodup.2

theorem mem_pairInsert {k : Nat × Nat} {v : Nat} :
    ∀ {m : List ((Nat × Nat) × Nat)} {kv : (Nat × Nat) × Nat},
      kv ∈ pairInsert k v m → kv = (k, v) ∨ kv ∈ m := by
  intro m
  induction m with
  | nil =>
      intro kv h
      simp [pairInsert] at h
      exact .inl h
  | cons p rest ih =>
      intro kv h
      obtain ⟨k', v'⟩ := p
      by_cases hk : k = k'
      · subst hk
        rw [show pairInsert k v ((k, v') :: rest) = (k, v) :: rest from by
          simp [pairInsert]] at h
        rcases List.mem_cons.1 h with h | h
        · exact .inl h
        · exact .inr (List.mem_cons_of_mem _ h)
      · rw [show pairInsert k v ((k', v') :: rest) = (k', v') :: pairInsert k v rest from by
          simp [pairInsert, hk]] at h
        rcases List.mem_cons.1 h with h | h
        · exact .inr (List.mem_cons.2 (.inl h))
        · rcases ih h with h | h
          · exact .inl h
          · exact .inr (List.mem_cons_of_mem _ h)

theorem needsDeadState_iff {n L : Nat} {trans : List ((Nat × Nat) × Nat)} :
    needsDeadState n L trans = true ↔
      ∃ i, i < n ∧ ∃ j, j < L ∧ lookupKV trans (i, j) = none := by
  simp [needsDeadState, List.any_eq_true, List.mem_range, Option.isNone_iff_eq_none]

theorem getD_set_self {α : Type} {dflt : α} :
    ∀ (l : List α) (i : Nat) (v : α), i < l.length → (l.set i v).getD i dflt = v := by
  intro l
  induction l with
  | nil => intro i v h; simp at h
  | cons x xs ih =>
      intro i v h
      cases i with
      | zero => rfl
      | succ n => exact ih n v (Nat.lt_of_succ_lt_succ h)

theorem getD_set_ne {α : Type} {dflt : α} :
    ∀ (l : List α) (i j : Nat) (v : α), i ≠ j →
      (l.set i v).getD j dflt = l.getD j dflt := by
  intro l
  induction l with
  | nil => intro i j v _; simp
  | cons x xs ih =>
      intro i j v hne
      cases i with
      | zero =>
          cases j with
          | zero => exact absurd rfl hne
          | succ m => rfl
      | succ n =>
          cases j with
          | zero => rfl
          | succ m => exact ih n m v (fun h => hne (by rw [h]))

theorem rowcol_lt {total L i j : Nat} (hi : i < total) (hj : j < L) :
    i * L + j < total * L := by
  calc i * L + j < i * L + L := by omega
    _ = (i + 1) * L := by rw [Nat.succ_mul]
    _ ≤ total * L := Nat.mul_le_mul (Nat.succ_le_of_lt hi) (Nat.le_refl L)

theorem rowcol_inj {L i j i' j' : Nat} (hj : j < L) (hj' : j' < L)
    (h : i * L + j = i' * L + j') : i = i' ∧ j = j' := by
  have hii : i = i' := by
    rcases Nat.lt_trichotomy i i' with h1 | h1 | h1
    · have h2 := Nat.mul_le_mul (Nat.succ_le_of_lt h1) (Nat.le_refl L)
      rw [Nat.succ_mul] at h2
      omega
    · exact h1
    · have h2 := Nat.mul_le_mul (Nat.succ_le_of_lt h1) (Nat.le_refl L)
      rw [Nat.succ_mul] at h2
      omega
  subst hii
  exact ⟨rfl, by omega⟩

theorem tableFold_length :
    ∀ (trans : List ((Nat × Nat) × Nat)) (tbl : List Nat) (L : Nat),
      (trans.foldl (fun t kv => t.set (kv.1.1 * L + kv.1.2) kv.2) tbl).length = tbl.length := by
  intro trans
  induction trans with
  | nil => intro tbl L; rfl
  | cons kv rest ih =>
      intro tbl L
      rw [List.foldl_cons, ih, List.length_set]

theorem mem_tableFold {L : Nat} :
    ∀ (trans : List ((Nat × Nat) × Nat)) (tbl : List Nat) (x : Nat),
      x ∈ trans.foldl (fun t kv => t.set (kv.1.1 * L + kv.1.2) kv.2) tbl →
      x ∈ tbl ∨ ∃ kv ∈ trans, x = kv.2 := by
  intro trans
  induction trans with
  | nil => intro tbl x h; exact .inl h
  | cons kv rest ih =>
      intro tbl x h
      rw [List.foldl_cons] at h
      rcases ih _ _ h with h | ⟨kv', hkv', rfl⟩
      · rcases List.mem_or_eq_of_mem_set h with h | rfl
        · exact .inl h
        · exact .inr ⟨kv, List.mem_cons_self _ _, rfl⟩
      · exact .inr ⟨kv', List.mem_cons_of_mem _ hkv', rfl⟩

theorem tableFold_getD :
    ∀ (trans : List ((Nat × Nat) × Nat)) (tbl : List Nat) (L i j : Nat),
      (trans.map Prod.fst).Nodup →
      (∀ kv ∈ trans, kv.1.1 * L + kv.1.2 < tbl.length ∧ kv.1.2 < L) →
      j < L →
      (trans.foldl (fun t kv => t.set (kv.1.1 * L + kv.1.2) kv.2) tbl).getD (i * L + j) 0 =
        (lookupKV trans (i, j)).getD (tbl.getD (i * L + j) 0) := by
  intro trans
  induction trans with
  | nil => intro tbl L i j _ _ _; simp [lookupKV]
  | cons kv rest ih =>
      intro tbl L i j hnodup hbound hj
      obtain ⟨⟨ki, kj⟩, kd⟩ := kv
      simp only [List.map_cons, List.nodup_cons] at hnodup
      have hbound' : ∀ kv' ∈ rest,
          kv'.1.1 * L + kv'.1.2 < (tbl.set (ki * L + kj) kd).length ∧ kv'.1.2 < L := by
        intro kv' h
        rw [List.length_set]
        exact hbound kv' (List.mem_cons_of_mem _ h)
      rw [List.foldl_cons, ih _ L i j hnodup.2 hbound' hj]
      by_cases hk : (i, j) = (ki, kj)
      · have h1 : i = ki := congrArg Prod.fst hk
        have h2 : j = kj := congrArg Prod.snd hk
        subst h1
        subst h2
        have hrest : lookupKV rest (i, j) = none := by
          cases hlr : lookupKV rest (i, j) with
          | none => rfl
          | some v =>
              exact absurd (List.mem_map_of_mem Prod.fst (lookupKV_some_mem _ _ _ hlr))
                hnodup.1
        rw [hrest, show lookupKV (((i, j), kd) :: rest) (i, j) = some kd from by
          simp [lookupKV]]
        exact getD_set_self tbl _ kd (hbound _ (List.mem_cons_self _ _)).1
      · have hkj : kj < L := (hbound _ (List.mem_cons_self _ _)).2
        have hpos : i * L + j ≠ ki * L + kj := by
          intro heq
          obtain ⟨h1, h2⟩ := rowcol_inj hj hkj heq
          exact hk (by rw [h1, h2])
        rw [getD_set_ne _ _ _ _ (Ne.symm hpos), show lookupKV (((ki, kj), kd) :: rest) (i, j) =
          lookupKV rest (i, j) from by simp [lookupKV, hk]]

theorem deadFold_lookup_notin (n : Nat) :
    ∀ (js : List Nat) (base : List ((Nat × Nat) × Nat)) (k : Nat × Nat),
      (∀ j ∈ js, k ≠ (n, j)) →
      lookupKV (js.foldl (fun m j => pairInsert (n, j) n m) base) k = lookupKV base k := by
  intro js
  induction js with
  | nil => intro base k _; rfl
  | cons j rest ih =>
      intro base k hk
      rw [List.foldl_cons, ih _ _ (fun j' hj' => hk j' (List.mem_cons_of_mem _ hj'))]
      exact lookupKV_pairInsert_other _ _ _ (hk j (List.mem_cons_self _ _)) _

theorem deadFold_lookup_row (n : Nat) :
    ∀ (js : List Nat) (base : List ((Nat × Nat) × Nat)) (a : Nat), a ∈ js →
      lookupKV (js.foldl (fun m j => pairInsert (n, j) n m) base) (n, a) = some n := by
  intro js
  induction js with
  | nil => intro base a h; cases h
  | cons j rest ih =>
      intro base a ha
      rw [List.foldl_cons]
      by_cases har : a ∈ rest
      · exact ih _ _ har
      · have haj : a = j := by
          rcases List.mem_cons.1 ha with h | h
          · exact h
          · exact absurd h har
        subst haj
        rw [deadFold_lookup_notin n rest _ (n, a) (fun j' hj' heq => by
          have : a = j' := congrArg Prod.snd heq
          exact har (this ▸ hj'))]
        exact lookupKV_pairInsert_self _ _ _

theorem deadFold_keys_nodup (n : Nat) :
    ∀ (js : List Nat) (base : List ((Nat × Nat) × Nat)),
      (base.map Prod.fst).Nodup →
      (((js.foldl (fun m j => pairInsert (n, j) n m) base).map Prod.fst)).Nodup := by
  intro js
  induction js with
  | nil => intro base h; exact h
  | cons j rest ih =>
      intro base h
      rw [List.foldl_cons]
      exact ih _ (pairInsert_keys_nodup _ _ _ h)

theorem mem_deadFold (n : Nat) :
    ∀ (js : List Nat) (base : List ((Nat × Nat) × Nat)) (kv : (Nat × Nat) × Nat),
      kv ∈ js.foldl (fun m j => pairInsert (n, j) n m) base →
      (∃ j ∈ js, kv = ((n, j), n)) ∨ kv ∈ base := by
  intro js
  induction js with
  | nil => intro base kv h; exact .inr h
  | cons j rest ih =>
      intro base kv h
      rw [List.foldl_cons] at h
      rcases ih _ _ h with ⟨j', hj', rfl⟩ | h
      · exact .inl ⟨j', List.mem_cons_of_mem _ hj', rfl⟩
      · rcases mem_pairInsert h with rfl | h
        · exact .inl ⟨j, List.mem_cons_self _ _, rfl⟩
        · exact .inr h

theorem alphabetIdx_some {d : Dfa} {c : Char} {a : Nat} (h : alphabetIdx d c = some a) :
    ∃ ha : a < d.alphabet.length, d.alphabet.get ⟨a, ha⟩ = c := by
  rw [alphabetIdx, List.findIdx?_eq_some_iff_getElem] at h
  obtain ⟨ha, hp, -⟩ := h
  exact ⟨ha, of_decide_eq_true hp⟩

theorem alphabetIdx_none {d : Dfa} {c : Char} : alphabetIdx d c = none ↔ c ∉ d.alphabet := by
  rw [alphabetIdx, List.findIdx?_eq_none_iff]
  constructor
  · intro h hc
    have := h c hc
    simp at this
  · intro h x hx
    by_cases hxc : x = c
    · exact absurd (hxc ▸ hx) h
    · simp [hxc]

theorem alphabetIdx_mem_some {d : Dfa} {c : Char} (h : c ∈ d.alphabet) :
    ∃ a, alphabetIdx d c = some a := by
  cases ha : alphabetIdx d c with
  | some a => exact ⟨a, rfl⟩
  | none => exact absurd h (alphabetIdx_none.1 ha)

theorem specStates_nil (d : Dfa) : specStates d [] = some d.start_state_idx := rfl

theorem specStates_append (d : Dfa) (w : List Char) (c : Char) :
    specStates d (w ++ [c]) =
      (specStates d w).bind fun q =>
        (alphabetIdx d c).map fun a =>
          d.transition_table.getD (q * d.alphabet.length + a) 0 := by
  have h1 : List.foldlM (fun q c =>
      (alphabetIdx d c).map fun a =>
        d.transition_table.getD (q * d.alphabet.length + a) 0) d.start_state_idx w =
      specStates d w := rfl
  rw [specStates, List.foldlM_append, h1]
  cases specStates d w with
  | none => simp
  | some q =>
      simp only [Option.bind_eq_bind, Option.some_bind]
      cases ha : alphabetIdx d c <;> simp [List.foldlM, ha]

theorem specStates_some_sub {d : Dfa} :
    ∀ (w : List Char) (q0 q : Nat),
      w.foldlM (fun q c =>
        (alphabetIdx d c).map fun a =>
          d.transition_table.getD (q * d.alphabet.length + a) 0) q0 = some q →
      ∀ c ∈ w, c ∈ d.alphabet := by
  intro w
  induction w with
  | nil => intro q0 q _ c hc; cases hc
  | cons c' w' ih =>
      intro q0 q h c hc
      rw [List.foldlM_cons] at h
      cases ha : alphabetIdx d c' with
      | none => rw [ha] at h; exact absurd h (by simp)
      | some a =>
          rw [ha] at h
          simp only [Option.map_some', Option.bind_eq_bind, Option.some_bind] at h
          rcases List.mem_cons.1 hc with rfl | hc'
          · obtain ⟨hlt, hget⟩ := alphabetIdx_some ha
            exact hget ▸ List.get_mem _ _ hlt
          · exact ih _ _ h c hc'

theorem specStates_mem_alphabet {d : Dfa} {w : List Char} {q : Nat}
    (h : specStates d w = some q) : ∀ c ∈ w, c ∈ d.alphabet :=
  specStates_some_sub w d.start_state_idx q h

theorem subsetConstruct_spec {nfa : Nfa} {alphabet : List Char} {fuel : Nat}
    {stF : SubsetState} (h : subsetConstruct nfa alphabet fuel = some stF) :
    SubInv alphabet stF ∧ stF.worklist = [] ∧
      procAll nfa.transitions alphabet stF ∧
      ∃ S0 tl, stF.dfa_states = (S0, 0) :: tl ∧
        (∀ x, x ∈ S0 ↔ NfaPath nfa.transitions nfa.start_state [] x) := by
  rw [subsetConstruct] at h
  cases hS0 : epsilonClosure nfa.transitions fuel [nfa.start_state] with
  | none => rw [hS0] at h; exact absurd h (by simp)
  | some S0 =>
      rw [hS0] at h
      simp only [Option.bind_eq_bind, Option.some_bind] at h
      have inv0 : SubInv alphabet ⟨[(S0, 0)], [S0], []⟩ := by
        refine ⟨?_, by simp, ?_, by simp, ?_, by simp⟩
        · intro k hk
          simp only [List.length_cons, List.length_nil] at hk
          have : k = 0 := by omega
          subst this
          rfl
        · intro S hS
          simp only [List.mem_singleton] at hS
          subst hS
          exact ⟨0, List.mem_cons_self _ _⟩
        · intro i a k hk
          exact absurd hk (by simp [lookupKV])
      have pa0 : procAll nfa.transitions alphabet ⟨[(S0, 0)], [S0], []⟩ := by
        intro p hp hpwl a ha
        simp only [List.mem_singleton] at hp
        subst hp
        exact absurd (List.mem_singleton.2 rfl) hpwl
      obtain ⟨inv, hwl, pa, ⟨tl, hseq⟩⟩ := subsetLoop_spec fuel _ stF h inv0 pa0
      refine ⟨inv, hwl, pa, S0, tl, by simpa using hseq, ?_⟩
      intro x
      rw [epsilonClosure_spec hS0 x]
      constructor
      · rintro ⟨s, hs, hp⟩
        rw [List.mem_singleton.1 hs] at hp
        exact hp
      · intro hp
        exact ⟨_, List.mem_singleton.2 rfl, hp⟩

theorem assembleDfa_alphabet (nfa : Nfa) (alphabet : List Char) (stF : SubsetState) :
    (assembleDfa nfa alphabet stF).alphabet = alphabet := rfl

theorem assembleDfa_start (nfa : Nfa) (alphabet : List Char) (stF : SubsetState) :
    (assembleDfa nfa alphabet stF).start_state_idx = 0 := rfl

theorem assembleDfa_accept (nfa : Nfa) (alphabet : List Char) (stF : SubsetState) :
    (assembleDfa nfa alphabet stF).accept_states =
      (stF.dfa_states.map fun p => p.1.any fun q => nfa.nfa_accept_states.contains q) ++
        (if needsDeadState stF.dfa_states.length alphabet.length stF.dfa_transitions
          then [false] else []) := rfl

theorem assembleDfa_keys (nfa : Nfa) (alphabet : List Char) (stF : SubsetState) :
    (assembleDfa nfa alphabet stF).state_keys =
      (stF.dfa_states.map fun p => subsetKey nfa.nfa_state_keys p.1) ++
        (if needsDeadState stF.dfa_states.length alphabet.length stF.dfa_transitions
          then ["FAILURE"] else []) := rfl

theorem assembleDfa_table (nfa : Nfa) (alphabet : List Char) (stF : SubsetState) :
    (assembleDfa nfa alphabet stF).transition_table =
      (if needsDeadState stF.dfa_states.length alphabet.length stF.dfa_transitions then
        (List.range alphabet.length).foldl
          (fun m j => pairInsert (stF.dfa_states.length, j) stF.dfa_states.length m)
          stF.dfa_transitions
      else stF.dfa_transitions).foldl
        (fun tbl kv => tbl.set (kv.1.1 * alphabet.length + kv.1.2) kv.2)
        (List.replicate
          ((stF.dfa_states.length +
            (if needsDeadState stF.dfa_states.length alphabet.length stF.dfa_transitions
              then 1 else 0)) * alphabet.length)
          ((if needsDeadState stF.dfa_states.length alphabet.length stF.dfa_transitions
            then some stF.dfa_states.length else none).getD 0)) := rfl

theorem trans_mem_bounds {alphabet : List Char} {stF : SubsetState}
    (inv : SubInv alphabet stF) :
    ∀ kv ∈ stF.dfa_transitions, kv.1.1 < stF.dfa_states.length ∧
      kv.1.2 < alphabet.length ∧ kv.2 < stF.dfa_states.length := by
  intro kv hkv
  have hlk := lookupKV_of_mem_nodup _ kv hkv inv.trans_keys_nodup
  obtain ⟨h1, h2, h3, -⟩ := inv.trans_dom kv.1.1 kv.1.2 kv.2 hlk
  exact ⟨h1, h2, h3⟩

theorem assemble_table_length (nfa : Nfa) {alphabet : List Char} {stF : SubsetState} :
    (assembleDfa nfa alphabet stF).transition_table.length =
      (stF.dfa_states.length +
        (if needsDeadState stF.dfa_states.length alphabet.length stF.dfa_transitions
          then 1 else 0)) * alphabet.length := by
  rw [assembleDfa_table, tableFold_length, List.length_replicate]

theorem assemble_table_getD (nfa : Nfa) {alphabet : List Char} {stF : SubsetState}
    (inv : SubInv alphabet stF) {i a : Nat} (ha : a < alphabet.length)
    (hi : i ≤ stF.dfa_states.length) :
    (assembleDfa nfa alphabet stF).transition_table.getD (i * alphabet.length + a) 0 =
      (lookupKV
        (if needsDeadState stF.dfa_states.length alphabet.length stF.dfa_transitions then
          (List.range alphabet.length).foldl
            (fun m j => pairInsert (stF.dfa_states.length, j) stF.dfa_states.length m)
            stF.dfa_transitions
        else stF.dfa_transitions) (i, a)).getD
        (if needsDeadState stF.dfa_states.length alphabet.length stF.dfa_transitions
          then stF.dfa_states.length else 0) := by
  rw [assembleDfa_table]
  cases hneeds : needsDeadState stF.dfa_states.length alphabet.length stF.dfa_transitions with
  | false =>
      simp only [hneeds, Bool.false_eq_true, if_false, Option.getD_none]
      rw [tableFold_getD _ _ alphabet.length i a inv.trans_keys_nodup ?bnds ha]
      case bnds =>
        intro kv hkv
        obtain ⟨h1, h2, -⟩ := trans_mem_bounds inv kv hkv
        rw [List.length_replicate]
        exact ⟨rowcol_lt (by omega) h2, h2⟩
      have hzero : (List.replicate ((stF.dfa_states.length + 0) * alphabet.length)
          (0 : Nat)).getD (i * alphabet.length + a) 0 = 0 := by
        rw [List.getD_eq_getElem?_getD, List.getElem?_replicate]
        split <;> rfl
      rw [hzero]
  | true =>
      simp only [hneeds, if_true, Option.getD_some]
      rw [tableFold_getD _ _ alphabet.length i a
        (deadFold_keys_nodup _ _ _ inv.trans_keys_nodup) ?bnds2 ha]
      case bnds2 =>
        intro kv hkv
        rw [List.length_replicate]
        rcases mem_deadFold _ _ _ _ hkv with ⟨j, hj, rfl⟩ | hkv'
        · rw [List.mem_range] at hj
          exact ⟨rowcol_lt (show stF.dfa_states.length <
            stF.dfa_states.length + 1 by omega) hj, hj⟩
        · obtain ⟨h1, h2, -⟩ := trans_mem_bounds inv kv hkv'
          exact ⟨rowcol_lt (by omega) h2, h2⟩
      have hdead : (List.replicate ((stF.dfa_states.length + 1) * alphabet.length)
          stF.dfa_states.length).getD (i * alphabet.length + a) 0 =
          stF.dfa_states.length := by
        rw [List.getD_eq_getElem?_getD, List.getElem?_replicate,
          if_pos (rowcol_lt (by omega) ha)]
        rfl
      rw [hdead]

theorem assemble_entry_some (nfa : Nfa) {alphabet : List Char} {stF : SubsetState}
    (inv : SubInv alphabet stF) {i a k : Nat}
    (hl : lookupKV stF.dfa_transitions (i, a) = some k)
    (hi : i < stF.dfa_states.length) (ha : a < alphabet.length) :
    (assembleDfa nfa alphabet stF).transition_table.getD
      (i * alphabet.length + a) 0 = k := by
  rw [assemble_table_getD nfa inv ha (Nat.le_of_lt hi)]
  cases hneeds : needsDeadState stF.dfa_states.length alphabet.length stF.dfa_transitions with
  | false => simp only [hneeds, Bool.false_eq_true, if_false, hl, Option.getD_some]
  | true =>
      simp only [hneeds, if_true]
      rw [deadFold_lookup_notin _ _ _ _ (fun j _ heq => by
        have : i = stF.dfa_states.length := congrArg Prod.fst heq
        omega), hl, Option.getD_some]

theorem assemble_entry_none (nfa : Nfa) {alphabet : List Char} {stF : SubsetState}
    (inv : SubInv alphabet stF) {i a : Nat}
    (hl : lookupKV stF.dfa_transitions (i, a) = none)
    (hi : i < stF.dfa_states.length) (ha : a < alphabet.length) :
    (assembleDfa nfa alphabet stF).transition_table.getD
      (i * alphabet.length + a) 0 = stF.dfa_states.length := by
  have hneeds : needsDeadState stF.dfa_states.length alphabet.length
      stF.dfa_transitions = true :=
    needsDeadState_iff.2 ⟨i, hi, a, ha, hl⟩
  rw [assemble_table_getD nfa inv ha (Nat.le_of_lt hi)]
  simp only [hneeds, if_true]
  rw [deadFold_lookup_notin _ _ _ _ (fun j _ heq => by
    have : i = stF.dfa_states.length := congrArg Prod.fst heq
    omega), hl, Option.getD_none]

theorem assemble_entry_deadrow (nfa : Nfa) {alphabet : List Char} {stF : SubsetState}
    (inv : SubInv alphabet stF)
    (hneeds : needsDeadState stF.dfa_states.length alphabet.length
      stF.dfa_transitions = true)
    {a : Nat} (ha : a < alphabet.length) :
    (assembleDfa nfa alphabet stF).transition_table.getD
      (stF.dfa_states.length * alphabet.length + a) 0 = stF.dfa_states.length := by
  rw [assemble_table_getD nfa inv ha (Nat.le_refl _)]
  simp only [hneeds, if_true]
  rw [deadFold_lookup_row _ _ _ _ (List.mem_range.2 ha), Option.getD_some]

theorem assemble_entries_lt (nfa : Nfa) {alphabet : List Char} {stF : SubsetState}
    (inv : SubInv alphabet stF) (hne : stF.dfa_states ≠ []) :
    ∀ x ∈ (assembleDfa nfa alphabet stF).transition_table,
      x < stF.dfa_states.length +
        (if needsDeadState stF.dfa_states.length alphabet.length stF.dfa_transitions
          then 1 else 0) := by
  intro x hx
  have hn1 : 1 ≤ stF.dfa_states.length := List.length_pos.2 hne
  rw [assembleDfa_table] at hx
  rcases mem_tableFold _ _ _ hx with hx0 | ⟨kv, hkv, rfl⟩
  · have := List.eq_of_mem_replicate hx0
    subst this
    cases hneeds : needsDeadState stF.dfa_states.length alphabet.length
        stF.dfa_transitions with
    | false =>
        simp only [hneeds, Bool.false_eq_true, if_false, Option.getD_none]
        omega
    | true =>
        simp only [hneeds, if_true, Option.getD_some]
        omega
  · cases hneeds : needsDeadState stF.dfa_states.length alphabet.length
        stF.dfa_transitions with
    | false =>
        rw [hneeds] at hkv
        simp only [Bool.false_eq_true, if_false] at hkv
        obtain ⟨-, -, h3⟩ := trans_mem_bounds inv kv hkv
        simp only [hneeds, Bool.false_eq_true, if_false]
        omega
    | true =>
        rw [hneeds] at hkv
        simp only [if_true] at hkv
        simp only [hneeds, if_true]
        rcases mem_deadFold _ _ _ _ hkv with ⟨j, -, rfl⟩ | hkv'
        · omega
        · obtain ⟨-, -, h3⟩ := trans_mem_bounds inv kv hkv'
          omega

theorem assemble_accept_getD_lt (nfa : Nfa) {alphabet : List Char} {stF : SubsetState}
    {i : Nat} (hi : i < stF.dfa_states.length) :
    (assembleDfa nfa alphabet stF).accept_states.getD i false =
      (stateAt stF i).1.any fun q => nfa.nfa_accept_states.contains q := by
  rw [assembleDfa_accept, List.getD_append _ _ _ _ (by rw [List.length_map]; exact hi)]
  have hfd : (false : Bool) =
      (fun p : List Nat × Nat => p.1.any fun q => nfa.nfa_accept_states.contains q)
        ([], 0) := rfl
  rw [hfd, List.getD_map]
  rfl

theorem assemble_accept_getD_ge (nfa : Nfa) {alphabet : List Char} {stF : SubsetState}
    {i : Nat} (hi : stF.dfa_states.length ≤ i) :
    (assembleDfa nfa alphabet stF).accept_states.getD i false = false := by
  rw [assembleDfa_accept,
    List.getD_append_right _ _ _ _ (by rw [List.length_map]; exact hi)]
  split
  · cases h : i - (stF.dfa_states.map fun p =>
      p.1.any fun q => nfa.nfa_accept_states.contains q).length <;> rfl
  · rfl

theorem assemble_keys_length (nfa : Nfa) {alphabet : List Char} {stF : SubsetState} :
    (assembleDfa nfa alphabet stF).state_keys.length =
      stF.dfa_states.length +
        (if needsDeadState stF.dfa_states.length alphabet.length stF.dfa_transitions
          then 1 else 0) := by
  rw [assembleDfa_keys, List.length_append, List.length_map]
  split <;> rfl

theorem assemble_accept_length (nfa : Nfa) {alphabet : List Char} {stF : SubsetState} :
    (assembleDfa nfa alphabet stF).accept_states.length =
      stF.dfa_states.length +
        (if needsDeadState stF.dfa_states.length alphabet.length stF.dfa_transitions
          then 1 else 0) := by
  rw [assembleDfa_accept, List.length_append, List.length_map]
  split <;> rfl

theorem assemble_keys_getD_dead (nfa : Nfa) {alphabet : List Char} {stF : SubsetState}
    (hneeds : needsDeadState stF.dfa_states.length alphabet.length
      stF.dfa_transitions = true) :
    (assembleDfa nfa alphabet stF).state_keys.getD stF.dfa_states.length "" =
      "FAILURE" := by
  rw [assembleDfa_keys, hneeds,
    List.getD_append_right _ _ _ _ (by rw [List.length_map])]
  simp

theorem specRun_some {d : Dfa} {w : List Char} {q : Nat} (h : specStates d w = some q) :
    specRun d w = d.accept_states.getD q false := by
  simp only [specRun, h]

theorem specRun_none {d : Dfa} {w : List Char} (h : specStates d w = none) :
    specRun d w = false := by
  simp only [specRun, h]

theorem toDfa_reach {nfa : Nfa} {alphabet : List Char} {fuel : Nat} {stF : SubsetState}
    (hsc : subsetConstruct nfa alphabet fuel = some stF) :
    ∀ w : List Char, (∀ c ∈ w, c ∈ alphabet) →
      ∃ q, specStates (assembleDfa nfa alphabet stF) w = some q ∧
        ((∃ T, (T, q) ∈ stF.dfa_states ∧
            ∀ x, x ∈ T ↔ NfaPath nfa.transitions nfa.start_state w x) ∨
          (q = stF.dfa_states.length ∧
            needsDeadState stF.dfa_states.length alphabet.length
              stF.dfa_transitions = true ∧
            ∀ x, ¬NfaPath nfa.transitions nfa.start_state w x)) := by
  obtain ⟨inv, hwl, pa, S0, tl, hseq, hS0⟩ := subsetConstruct_spec hsc
  intro w
  induction w using List.reverseRecOn with
  | nil =>
      intro _
      refine ⟨0, rfl, .inl ⟨S0, ?_, hS0⟩⟩
      rw [hseq]
      exact List.mem_cons_self _ _
  | append_singleton w c ih =>
      intro hall
      have hallw : ∀ c' ∈ w, c' ∈ alphabet := fun c' hc' =>
        hall c' (List.mem_append_left _ hc')
      have hc : c ∈ alphabet := hall c (List.mem_append_right _ (List.mem_singleton.2 rfl))
      obtain ⟨q, hq, hcase⟩ := ih hallw
      obtain ⟨a, ha⟩ := alphabetIdx_mem_some (d := assembleDfa nfa alphabet stF) hc
      obtain ⟨halt, hget⟩ := alphabetIdx_some ha
      rw [specStates_append, hq]
      simp only [Option.bind_eq_bind, Option.some_bind, ha, Option.map_some']
      rcases hcase with ⟨T, hTq, hchar⟩ | ⟨rfl, hneeds, hnopath⟩
      · obtain ⟨hqlt, hqat⟩ := mem_idx_at inv.idx_at hTq
        have hdone := pa (T, q) hTq (by rw [hwl]; exact List.not_mem_nil _) a halt
        rw [show alphabet.get ⟨a, halt⟩ = c from hget] at hdone
        obtain ⟨T', hT'char, hcases⟩ := hdone
        have hreach : ∀ x, x ∈ T' ↔
            NfaPath nfa.transitions nfa.start_state (w ++ [c]) x := by
          intro x
          rw [hT'char x, nfaPath_snoc]
          constructor
          · rintro ⟨s, hs, hp⟩
            rw [mem_moveOnChar] at hs
            obtain ⟨y, hy, hs'⟩ := hs
            exact ⟨y, s, (hchar y).1 hy, hs', hp⟩
          · rintro ⟨u, v, hu, hv, hp⟩
            exact ⟨v, mem_moveOnChar.2 ⟨u, (hchar u).2 hu, hv⟩, hp⟩
        rcases hcases with ⟨hT'nil, hlook⟩ | ⟨hT'ne, k, hlook, hT'k⟩
        · have hentry : (assembleDfa nfa alphabet stF).transition_table.getD
              (q * alphabet.length + a) 0 = stF.dfa_states.length :=
            assemble_entry_none nfa inv hlook hqlt halt
          refine ⟨stF.dfa_states.length, congrArg some hentry,
            .inr ⟨rfl, needsDeadState_iff.2 ⟨q, hqlt, a, halt, hlook⟩, ?_⟩⟩
          intro x hx
          have hxT' : x ∈ T' := (hreach x).2 hx
          rw [hT'nil] at hxT'
          cases hxT'
        · have hentry : (assembleDfa nfa alphabet stF).transition_table.getD
              (q * alphabet.length + a) 0 = k :=
            assemble_entry_some nfa inv hlook hqlt halt
          exact ⟨k, congrArg some hentry, .inl ⟨T', hT'k, hreach⟩⟩
      · have hentry : (assembleDfa nfa alphabet stF).transition_table.getD
            (stF.dfa_states.length * alphabet.length + a) 0 = stF.dfa_states.length :=
          assemble_entry_deadrow nfa inv hneeds halt
        refine ⟨stF.dfa_states.length, congrArg some hentry, .inr ⟨rfl, hneeds, ?_⟩⟩
        intro x hx
        rw [nfaPath_snoc] at hx
        obtain ⟨u, v, hu, -, -⟩ := hx
        exact hnopath u hu

theorem toDfa_run_iff {nfa : Nfa} {alphabet : List Char} {fuel : Nat} {d : Dfa}
    (h : Nfa.toDfa nfa alphabet fuel = some d) (w : List Char) :
    dfaRun d w = true ↔
      ((∀ c ∈ w, c ∈ alphabet) ∧
        ∃ x, x ∈ nfa.nfa_accept_states ∧
          NfaPath nfa.transitions nfa.start_state w x) := by
  rw [Nfa.toDfa, Option.map_eq_some'] at h
  obtain ⟨stF, hsc, rfl⟩ := h
  obtain ⟨inv, hwl, pa, S0, tl, hseq, hS0⟩ := subsetConstruct_spec hsc
  rw [dfaRun_eq_specRun]
  by_cases hall : ∀ c ∈ w, c ∈ alphabet
  · obtain ⟨q, hq, hcase⟩ := toDfa_reach hsc w hall
    rw [specRun_some hq]
    rcases hcase with ⟨T, hTq, hchar⟩ | ⟨rfl, hneeds, hnopath⟩
    · obtain ⟨hqlt, hqat⟩ := mem_idx_at inv.idx_at hTq
      rw [assemble_accept_getD_lt nfa hqlt, hqat]
      constructor
      · intro hany
        obtain ⟨x, hxT, hxacc⟩ := List.any_eq_true.1 hany
        exact ⟨hall, x, List.elem_iff.1 hxacc, (hchar x).1 hxT⟩
      · rintro ⟨-, x, hxacc, hp⟩
        exact List.any_eq_true.2 ⟨x, (hchar x).2 hp, List.elem_iff.2 hxacc⟩
    · rw [assemble_accept_getD_ge nfa (Nat.le_refl _)]
      constructor
      · intro hfalse
        exact Bool.noConfusion hfalse
      · rintro ⟨-, x, -, hp⟩
        exact absurd hp (hnopath x)
  · cases hss : specStates (assembleDfa nfa alphabet stF) w with
    | some q => exact absurd (fun c hc => specStates_mem_alphabet hss c hc) hall
    | none =>
        rw [specRun_none hss]
        constructor
        · intro hfalse
          exact Bool.noConfusion hfalse
        · rintro ⟨hall', -⟩
          exact absurd hall' hall

theorem transInsert_key_iff (i0 : Nat) (oc : Option Char) (j : Nat) :
    ∀ (m : TransMap) (k : Nat × Option Char),
      (∃ vs, (k, vs) ∈ transInsert i0 oc j m) ↔ (k = (i0, oc) ∨ ∃ vs, (k, vs) ∈ m) := by
  intro m
  induction m with
  | nil =>
      intro k
      constructor
      · rintro ⟨vs, h⟩
        simp [transInsert] at h
        exact .inl h.1
      · rintro (rfl | ⟨vs, h⟩)
        · exact ⟨[j], by simp [transInsert]⟩
        · cases h
  | cons p rest ih =>
      intro k
      obtain ⟨k', vs'⟩ := p
      by_cases hk : (i0, oc) = k'
      · subst hk
        rw [show transInsert i0 oc j (((i0, oc), vs') :: rest) =
            ((i0, oc), insOrd j vs') :: rest from by simp [transInsert]]
        constructor
        · rintro ⟨vs, h⟩
          rcases List.mem_cons.1 h with heq | h
          · exact .inl (congrArg Prod.fst heq)
          · exact .inr ⟨vs, List.mem_cons_of_mem _ h⟩
        · rintro (rfl | ⟨vs, h⟩)
          · exact ⟨insOrd j vs', List.mem_cons_self _ _⟩
          · rcases List.mem_cons.1 h with heq | h
            · have hkk : k = (i0, oc) := congrArg Prod.fst heq
              subst hkk
              exact ⟨insOrd j vs', List.mem_cons_self _ _⟩
            · exact ⟨vs, List.mem_cons_of_mem _ h⟩
      · rw [show transInsert i0 oc j ((k', vs') :: rest) =
            (k', vs') :: transInsert i0 oc j rest from by simp [transInsert, hk]]
        constructor
        · rintro ⟨vs, h⟩
          rcases List.mem_cons.1 h with heq | h
          · refine .inr ⟨vs', ?_⟩
            rw [show k = k' from congrArg Prod.fst heq]
            exact List.mem_cons_self _ _
          · rcases (ih k).1 ⟨vs, h⟩ with heq | ⟨vs2, h2⟩
            · exact .inl heq
            · exact .inr ⟨vs2, List.mem_cons_of_mem _ h2⟩
        · rintro (rfl | ⟨vs, h⟩)
          · obtain ⟨vs2, h2⟩ := (ih (i0, oc)).2 (.inl rfl)
            exact ⟨vs2, List.mem_cons_of_mem _ h2⟩
          · rcases List.mem_cons.1 h with heq | h
            · refine ⟨vs', ?_⟩
              rw [show k = k' from congrArg Prod.fst heq]
              exact List.mem_cons_self _ _
            · obtain ⟨vs2, h2⟩ := (ih k).2 (.inr ⟨vs, h⟩)
              exact ⟨vs2, List.mem_cons_of_mem _ h2⟩

theorem transInsert_label_iff (i0 : Nat) (oc : Option Char) (j : Nat) (m : TransMap)
    (c : Char) :
    (∃ i vs, ((i, some c), vs) ∈ transInsert i0 oc j m) ↔
      (oc = some c ∨ ∃ i vs, ((i, some c), vs) ∈ m) := by
  constructor
  · rintro ⟨i, vs, h⟩
    rcases (transInsert_key_iff i0 oc j m (i, some c)).1 ⟨vs, h⟩ with heq | ⟨vs', h'⟩
    · exact .inl (congrArg Prod.snd heq).symm
    · exact .inr ⟨i, vs', h'⟩
  · rintro (rfl | ⟨i, vs, h⟩)
    · obtain ⟨vs, hm⟩ := (transInsert_key_iff i0 (some c) j m (i0, some c)).2 (.inl rfl)
      exact ⟨i0, vs, hm⟩
    · obtain ⟨vs', hm⟩ := (transInsert_key_iff i0 oc j m (i, some c)).2 (.inr ⟨vs, h⟩)
      exact ⟨i, vs', hm⟩

theorem transInsert_eps_label (i0 j : Nat) (m : TransMap) (c : Char) :
    (∃ i vs, ((i, some c), vs) ∈ transInsert i0 none j m) ↔
      ∃ i vs, ((i, some c), vs) ∈ m := by
  rw [transInsert_label_iff]
  simp

theorem transInsert_char_label (i0 j : Nat) (c0 : Char) (m : TransMap) (c : Char) :
    (∃ i vs, ((i, some c), vs) ∈ transInsert i0 (some c0) j m) ↔
      (c = c0 ∨ ∃ i vs, ((i, some c), vs) ∈ m) := by
  rw [transInsert_label_iff]
  constructor
  · rintro (h | h)
    · exact .inl (Option.some.inj h).symm
    · exact .inr h
  · rintro (rfl | h)
    · exact .inl rfl
    · exact .inr h

theorem mem_transLabels_aux :
    ∀ (m : TransMap) (acc : List Char) (c : Char),
      c ∈ m.foldl (fun acc kv => match kv.1.2 with
        | some c' => insOrd c' acc
        | none => acc) acc ↔
        c ∈ acc ∨ ∃ i vs, ((i, some c), vs) ∈ m := by
  intro m
  induction m with
  | nil => intro acc c; simp
  | cons kv rest ih =>
      intro acc c
      obtain ⟨⟨i0, oc0⟩, vs0⟩ := kv
      rw [List.foldl_cons]
      cases oc0 with
      | none =>
          rw [ih]
          constructor
          · rintro (h | ⟨i, vs, h⟩)
            · exact .inl h
            · exact .inr ⟨i, vs, List.mem_cons_of_mem _ h⟩
          · rintro (h | ⟨i, vs, h⟩)
            · exact .inl h
            · rcases List.mem_cons.1 h with heq | h
              · exact absurd (congrArg (fun p => p.1.2) heq) (by simp)
              · exact .inr ⟨i, vs, h⟩
      | some c0 =>
          rw [ih, mem_insOrd]
          constructor
          · rintro ((rfl | h) | ⟨i, vs, h⟩)
            · exact .inr ⟨i0, vs0, List.mem_cons_self _ _⟩
            · exact .inl h
            · exact .inr ⟨i, vs, List.mem_cons_of_mem _ h⟩
          · rintro (h | ⟨i, vs, h⟩)
            · exact .inl (.inr h)
            · rcases List.mem_cons.1 h with heq | h
              · have : some c = some c0 := congrArg (fun p => p.1.2) heq
                exact .inl (.inl (Option.some.inj this))
              · exact .inr ⟨i, vs, h⟩

theorem mem_transLabels (m : TransMap) (c : Char) :
    c ∈ transLabels m ↔ ∃ i vs, ((i, some c), vs) ∈ m := by
  rw [transLabels, mem_transLabels_aux]
  simp

theorem exprToNfa_labels :
    ∀ (E : Expression) (b : NfaBuilder) (c : Char),
      (∃ i vs, ((i, some c), vs) ∈ (exprToNfa E b).2.transitions) ↔
        ((∃ i vs, ((i, some c), vs) ∈ b.transitions) ∨ c ∈ exprLiterals E) := by
  intro E
  induction E with
  | Epsilon =>
      intro b c
      simp only [exprToNfa, NfaBuilder.newState, NfaBuilder.addTransition]
      rw [transInsert_eps_label]
      simp [exprLiterals]
  | Literal c0 =>
      intro b c
      simp only [exprToNfa, NfaBuilder.newState, NfaBuilder.addTransition]
      rw [transInsert_char_label]
      simp only [exprLiterals, List.mem_singleton]
      exact or_comm
  | Concat l r ihl ihr =>
      intro b c
      rcases hEl : exprToNfa l b with ⟨⟨ls, le⟩, b1⟩
      rcases hEr : exprToNfa r b1 with ⟨⟨rs, re⟩, b2⟩
      have h1 := ihl b c
      rw [hEl] at h1
      have h2 := ihr b1 c
      rw [hEr] at h2
      simp only [exprToNfa, hEl, hEr, NfaBuilder.addTransition]
      rw [transInsert_eps_label, h2, h1]
      simp only [exprLiterals, List.mem_append]
      exact or_assoc
  | Alternate l r ihl ihr =>
      intro b c
      rcases hEl : exprToNfa l ⟨b.transitions, b.state_counter + 1 + 1⟩ with ⟨⟨ls, le⟩, b3⟩
      rcases hEr : exprToNfa r b3 with ⟨⟨rs, re⟩, b4⟩
      have h1 := ihl ⟨b.transitions, b.state_counter + 1 + 1⟩ c
      rw [hEl] at h1
      have h2 := ihr b3 c
      rw [hEr] at h2
      simp only [exprToNfa, NfaBuilder.newState, hEl, hEr, NfaBuilder.addTransition]
      rw [transInsert_eps_label, transInsert_eps_label, transInsert_eps_label,
        transInsert_eps_label, h2, h1]
      simp only [exprLiterals, List.mem_append]
      exact or_assoc
  | Star x ihx =>
      intro b c
      rcases hEx : exprToNfa x ⟨b.transitions, b.state_counter + 1 + 1⟩ with ⟨⟨xs, xe⟩, b3⟩
      have h1 := ihx ⟨b.transitions, b.state_counter + 1 + 1⟩ c
      rw [hEx] at h1
      simp only [exprToNfa, NfaBuilder.newState, hEx, NfaBuilder.addTransition]
      rw [transInsert_eps_label, transInsert_eps_label, transInsert_eps_label,
        transInsert_eps_label, h1]
      simp only [exprLiterals]

theorem matches_chars_sub : ∀ {E : Expression} {w : List Char}, Matches E w →
    ∀ c ∈ w, c ∈ exprLiterals E := by
  intro E w h
  induction h with
  | epsilon => intro c hc; cases hc
  | literal c0 => intro c hc; exact hc
  | concat h1 h2 ih1 ih2 =>
      intro c hc
      rcases List.mem_append.1 hc with h | h
      · exact List.mem_append_left _ (ih1 c h)
      · exact List.mem_append_right _ (ih2 c h)
  | altLeft h ih => intro c hc; exact List.mem_append_left _ (ih c hc)
  | altRight h ih => intro c hc; exact List.mem_append_right _ (ih c hc)
  | starEmpty => intro c hc; cases hc
  | starStep h1 h2 ih1 ih2 =>
      intro c hc
      rcases List.mem_append.1 hc with h | h
      · exact ih1 c h
      · exact ih2 c h

theorem compileExpr_run {fuel : Nat} {E : Expression} {fsm : Fsm}
    (h : compileExpr fuel E = some fsm) (w : List Char) :
    dfaRun fsm.dfaOf w = true ↔ Matches E w := by
  simp only [compileExpr] at h
  obtain ⟨d, hd, rfl⟩ := Option.map_eq_some'.1 h
  rw [show Fsm.dfaOf (Fsm.nfaFsm _ d) = d from rfl]
  rw [toDfa_run_iff hd w]
  have hwf : NfaBuilder.Wf ⟨[], 0⟩ := by
    intro i oc j hj
    simp [transLookup, lookupKV] at hj
  have hspec := exprToNfa_spec E ⟨[], 0⟩ hwf
  constructor
  · rintro ⟨-, x, hx, hp⟩
    have hxe : x = (exprToNfa E ⟨[], 0⟩).1.2 := by simpa using hx
    subst hxe
    exact (hspec.sem w).1 hp
  · intro hm
    refine ⟨fun c hc => ?_, (exprToNfa E ⟨[], 0⟩).1.2, by simp, (hspec.sem w).2 hm⟩
    rw [mem_transLabels]
    exact (exprToNfa_labels E ⟨[], 0⟩ c).2 (.inr (matches_chars_sub hm c hc))

theorem compileExpr_alphabet {fuel : Nat} {E : Expression} {fsm : Fsm}
    (h : compileExpr fuel E = some fsm) :
    ∀ c : Char, c ∈ fsm.dfaOf.alphabet ↔ c ∈ exprLiterals E := by
  simp only [compileExpr] at h
  obtain ⟨d, hd, rfl⟩ := Option.map_eq_some'.1 h
  intro c
  rw [Nfa.toDfa, Option.map_eq_some'] at hd
  obtain ⟨stF, hsc, rfl⟩ := hd
  simp only [Fsm.dfaOf]
  rw [assembleDfa_alphabet]
  rw [mem_transLabels, exprToNfa_labels E ⟨[], 0⟩ c]
  simp

theorem compileExpr_run_false {fuel : Nat} {E : Expression} {fsm : Fsm}
    (h : compileExpr fuel E = some fsm) {w : List Char} {c : Char} (hc : c ∈ w)
    (hnot : c ∉ exprLiterals E) : dfaRun fsm.dfaOf w = false := by
  cases hrun : dfaRun fsm.dfaOf w with
  | false => rfl
  | true =>
      have hm := (compileExpr_run h w).1 hrun
      exact absurd (matches_chars_sub hm c hc) hnot

theorem getStateIdx_ok {stateKeys : List String} {key : String} {i : Nat}
    (h : getStateIdx stateKeys key = .ok i) :
    ∃ hi : i < stateKeys.length, stateKeys.get ⟨i, hi⟩ = key := by
  rw [getStateIdx] at h
  cases hf : stateKeys.findIdx? (fun k => k = key) with
  | none => rw [hf] at h; exact Except.noConfusion h
  | some j =>
      rw [hf] at h
      cases h
      rw [List.findIdx?_eq_some_iff_getElem] at hf
      obtain ⟨hi, hp, -⟩ := hf
      exact ⟨hi, of_decide_eq_true hp⟩

theorem getAlphabetIdx_ok {alpha : List Char} {c : Char} {a : Nat}
    (h : getAlphabetIdx alpha c = .ok a) :
    ∃ ha : a < alpha.length, alpha.get ⟨a, ha⟩ = c := by
  rw [getAlphabetIdx] at h
  cases hf : alpha.findIdx? (fun x => x = c) with
  | none => rw [hf] at h; exact Except.noConfusion h
  | some j =>
      rw [hf] at h
      cases h
      rw [List.findIdx?_eq_some_iff_getElem] at hf
      obtain ⟨hi, hp, -⟩ := hf
      exact ⟨hi, of_decide_eq_true hp⟩

theorem exceptFold_ok {α β : Type} (f : β → α → Except Failure β) :
    ∀ l : List α, (∀ b : β, ∀ x ∈ l, ∃ b', f b x = .ok b') →
      ∀ b : β, ∃ b2, l.foldlM f b = .ok b2 := by
  intro l
  induction l with
  | nil => intro _ b; exact ⟨b, rfl⟩
  | cons x xs ih =>
      intro hall b
      obtain ⟨b1, hb1⟩ := hall b x (List.mem_cons_self _ _)
      obtain ⟨b2, hb2⟩ := ih (fun b0 y hy => hall b0 y (List.mem_cons_of_mem _ hy)) b1
      refine ⟨b2, ?_⟩
      rw [List.foldlM_cons, hb1]
      exact hb2

theorem exceptFold_chain {α β : Type} (P : β → β → Prop)
    (hrefl : ∀ b, P b b) (htrans : ∀ x y z, P x y → P y z → P x z)
    (f : β → α → Except Failure β) :
    ∀ (l : List α) (b b2 : β),
      (∀ b0 : β, ∀ x ∈ l, ∀ b', f b0 x = .ok b' → P b0 b') →
      l.foldlM f b = .ok b2 →
      P b b2 ∧ ∀ x ∈ l, ∃ bi bo, f bi x = .ok bo ∧ P b bi ∧ P bo b2 := by
  intro l
  induction l with
  | nil =>
      intro b b2 _ hfold
      cases hfold
      exact ⟨hrefl b, fun x hx => absurd hx (List.not_mem_nil _)⟩
  | cons x xs ih =>
      intro b b2 hstep hfold
      rw [List.foldlM_cons] at hfold
      cases hfx : f b x with
      | error e => rw [hfx] at hfold; exact Except.noConfusion hfold
      | ok b1 =>
          rw [hfx] at hfold
          have hfold' : xs.foldlM f b1 = .ok b2 := hfold
          have hPb1 : P b b1 := hstep b x (List.mem_cons_self _ _) b1 hfx
          obtain ⟨hP, hrest⟩ := ih b1 b2
            (fun b0 y hy => hstep b0 y (List.mem_cons_of_mem _ hy)) hfold'
          refine ⟨htrans _ _ _ hPb1 hP, ?_⟩
          intro y hy
          rcases List.mem_cons.1 hy with rfl | hy'
          · exact ⟨b, b1, hfx, hrefl b, hP⟩
          · obtain ⟨bi, bo, hstp, hPi, hPo⟩ := hrest y hy'
            exact ⟨bi, bo, hstp, htrans _ _ _ hPb1 hPi, hPo⟩

theorem exceptFold_forall_ok {α β : Type} (f : β → α → Except Failure β) :
    ∀ (l : List α) (b b2 : β), l.foldlM f b = .ok b2 →
      ∀ x ∈ l, ∃ bi bo, f bi x = .ok bo := by
  intro l b b2 hfold x hx
  obtain ⟨-, hrest⟩ := exceptFold_chain (fun _ _ => True) (fun _ => trivial)
    (fun _ _ _ _ _ => trivial) f l b b2 (fun _ _ _ _ _ => trivial) hfold
  obtain ⟨bi, bo, hstp, -, -⟩ := hrest x hx
  exact ⟨bi, bo, hstp⟩

theorem cellMono_refl (tbl : List (Option Nat)) : cellMono tbl tbl :=
  ⟨rfl, fun _ _ h => h⟩

theorem cellMono_trans (a b c : List (Option Nat)) :
    cellMono a b → cellMono b c → cellMono a c :=
  fun h1 h2 => ⟨h2.1.trans h1.1, fun pos dd h => h2.2 pos dd (h1.2 pos dd h)⟩

theorem provP_refl (Q : Nat → Nat → Prop) (tbl : List (Option Nat)) : provP Q tbl tbl :=
  ⟨rfl, fun _ _ h => .inl h⟩

theorem provP_trans (Q : Nat → Nat → Prop) (a b c : List (Option Nat)) :
    provP Q a b → provP Q b c → provP Q a c := by
  rintro ⟨hl1, h1⟩ ⟨hl2, h2⟩
  refine ⟨hl2.trans hl1, ?_⟩
  intro pos dd h
  rcases h2 pos dd h with h | h
  · exact h1 pos dd h
  · exact .inr h

theorem provP_mono {Q Q' : Nat → Nat → Prop} (hQ : ∀ p d, Q p d → Q' p d)
    {a b : List (Option Nat)} (h : provP Q a b) : provP Q' a b := by
  refine ⟨h.1, ?_⟩
  intro pos dd hc
  rcases h.2 pos dd hc with h | h
  · exact .inl h
  · exact .inr (hQ _ _ h)

theorem mapM_id_some :
    ∀ (l : List (Option Nat)) (l2 : List Nat), l.mapM id = some l2 →
      l2.length = l.length ∧
        ∀ pos, pos < l.length → l.getD pos none = some (l2.getD pos 0) := by
  intro l
  induction l with
  | nil =>
      intro l2 h
      cases h
      exact ⟨rfl, fun pos hpos => absurd hpos (by simp)⟩
  | cons x xs ih =>
      intro l2 h
      rw [List.mapM_cons] at h
      cases hx : x with
      | none => rw [hx] at h; exact Option.noConfusion h
      | some v =>
          rw [hx] at h
          simp only [Option.bind_eq_bind, Option.some_bind, id_eq] at h
          cases hxs : xs.mapM id with
          | none =>
              rw [hxs] at h
              simp at h
          | some vs =>
              rw [hxs] at h
              simp only [Option.map_some', Option.some_bind] at h
              have h2 : v :: vs = l2 := by
                cases h
                rfl
              subst h2
              obtain ⟨hlen, hpt⟩ := ih vs hxs
              refine ⟨by simp [hlen], ?_⟩
              intro pos hpos
              cases pos with
              | zero => rfl
              | succ n =>
                  exact hpt n (by simpa using hpos)

theorem bdtCharStep_mono (alpha : List Char) (i d : Nat) :
    ∀ (t : List (Option Nat)) (c : Char) (t' : List (Option Nat)),
      bdtCharStep alpha i d t c = .ok t' → cellMono t t' := by
  intro t c t' h
  simp only [bdtCharStep] at h
  cases hai : getAlphabetIdx alpha c with
  | error e => rw [hai] at h; exact Except.noConfusion h
  | ok a =>
      rw [hai] at h
      have h2 : (match t.getD (i * alpha.length + a) none with
        | some existing =>
            if existing ≠ d then Except.error (Failure.failure "Ambiguous transition")
            else pure t
        | none => pure (t.set (i * alpha.length + a) (some d))) = Except.ok t' := h
      cases hcell : t.getD (i * alpha.length + a) none with
      | some existing =>
          rw [hcell] at h2
          have h3 : (if existing ≠ d then
              Except.error (Failure.failure "Ambiguous transition")
              else pure t) = Except.ok t' := h2
          by_cases hne : existing ≠ d
          · rw [if_pos hne] at h3
            exact Except.noConfusion h3
          · rw [if_neg hne] at h3
            cases h3
            exact cellMono_refl t
      | none =>
          rw [hcell] at h2
          have h3 : pure (t.set (i * alpha.length + a) (some d)) = Except.ok t' := h2
          cases h3
          refine ⟨List.length_set _ _ _, ?_⟩
          intro pos dd hdd
          by_cases hpos : pos = i * alpha.length + a
          · rw [hpos, hcell] at hdd
            exact Option.noConfusion hdd
          · rw [getD_set_ne _ _ _ _ (fun hh => hpos hh.symm)]
            exact hdd

theorem bdtCharStep_records (alpha : List Char) (i d : Nat) :
    ∀ (t : List (Option Nat)) (c : Char) (t' : List (Option Nat)) (a : Nat),
      getAlphabetIdx alpha c = .ok a → bdtCharStep alpha i d t c = .ok t' →
      i * alpha.length + a < t.length →
      t'.getD (i * alpha.length + a) none = some d := by
  intro t c t' a hai h hlt
  simp only [bdtCharStep] at h
  rw [hai] at h
  have h2 : (match t.getD (i * alpha.length + a) none with
    | some existing =>
        if existing ≠ d then Except.error (Failure.failure "Ambiguous transition")
        else pure t
    | none => pure (t.set (i * alpha.length + a) (some d))) = Except.ok t' := h
  cases hcell : t.getD (i * alpha.length + a) none with
  | some existing =>
      rw [hcell] at h2
      have h3 : (if existing ≠ d then
          Except.error (Failure.failure "Ambiguous transition")
          else pure t) = Except.ok t' := h2
      by_cases hne : existing ≠ d
      · rw [if_pos hne] at h3
        exact Except.noConfusion h3
      · rw [if_neg hne] at h3
        cases h3
        rw [hcell]
        have heq : existing = d := by omega
        rw [heq]
  | none =>
      rw [hcell] at h2
      have h3 : pure (t.set (i * alpha.length + a) (some d)) = Except.ok t' := h2
      cases h3
      exact getD_set_self _ _ _ hlt

theorem bdtCharStep_prov (alpha : List Char) (i d : Nat) (cs : List Char) :
    ∀ (t : List (Option Nat)) (c : Char), c ∈ cs →
      ∀ t', bdtCharStep alpha i d t c = .ok t' →
      provP (fun pos dd => dd = d ∧ ∃ c' ∈ cs, ∃ a,
        getAlphabetIdx alpha c' = .ok a ∧ pos = i * alpha.length + a) t t' := by
  intro t c hc t' h
  simp only [bdtCharStep] at h
  cases hai : getAlphabetIdx alpha c with
  | error e => rw [hai] at h; exact Except.noConfusion h
  | ok a =>
      rw [hai] at h
      have h2 : (match t.getD (i * alpha.length + a) none with
        | some existing =>
            if existing ≠ d then Except.error (Failure.failure "Ambiguous transition")
            else pure t
        | none => pure (t.set (i * alpha.length + a) (some d))) = Except.ok t' := h
      cases hcell : t.getD (i * alpha.length + a) none with
      | some existing =>
          rw [hcell] at h2
          have h3 : (if existing ≠ d then
              Except.error (Failure.failure "Ambiguous transition")
              else pure t) = Except.ok t' := h2
          by_cases hne : existing ≠ d
          · rw [if_pos hne] at h3
            exact Except.noConfusion h3
          · rw [if_neg hne] at h3
            cases h3
            exact provP_refl _ t
      | none =>
          rw [hcell] at h2
          have h3 : pure (t.set (i * alpha.length + a) (some d)) = Except.ok t' := h2
          cases h3
          refine ⟨List.length_set _ _ _, ?_⟩
          intro pos dd hdd
          by_cases hpos : pos = i * alpha.length + a
          · subst hpos
            rw [getD_set_self _ _ _ ?hlt] at hdd
            case hlt =>
              by_contra hge
              rw [List.getD_eq_default _ _ (by rw [List.length_set]; omega)] at hdd
              exact Option.noConfusion hdd
            cases hdd
            exact .inr ⟨rfl, c, hc, a, hai, rfl⟩
          · rw [getD_set_ne _ _ _ _ (fun hh => hpos hh.symm)] at hdd
            exact .inl hdd

theorem bdtMapStep_mono (stateKeys : List String) (alpha : List Char) (srcKey : String)
    (i : Nat) :
    ∀ (t : List (Option Nat)) (mp : YamlTransitionMapping) (t' : List (Option Nat)),
      bdtMapStep stateKeys alpha srcKey i t mp = .ok t' → cellMono t t' := by
  intro t mp t' h
  simp only [bdtMapStep] at h
  cases hdi : getStateIdx stateKeys mp.toKey with
  | error e => rw [hdi] at h; exact Except.noConfusion h
  | ok d =>
      rw [hdi] at h
      cases htr : toTransitionTrigger mp.onv alpha with
      | error e => rw [htr] at h; exact Except.noConfusion h
      | ok tr =>
          rw [htr] at h
          cases tr with
          | Epsilon => exact Except.noConfusion h
          | Chars cs =>
              have h2 : cs.foldlM (bdtCharStep alpha i d) t = .ok t' := h
              exact (exceptFold_chain cellMono cellMono_refl cellMono_trans _ cs t t'
                (fun b0 c _ b' hb => bdtCharStep_mono alpha i d b0 c b' hb) h2).1

theorem bdtMapStep_no_epsilon (stateKeys : List String) (alpha : List Char)
    (srcKey : String) (i : Nat) :
    ∀ (t : List (Option Nat)) (mp : YamlTransitionMapping) (t' : List (Option Nat)),
      bdtMapStep stateKeys alpha srcKey i t mp = .ok t' →
      toTransitionTrigger mp.onv alpha ≠ .ok .Epsilon := by
  intro t mp t' h htr
  simp only [bdtMapStep] at h
  cases hdi : getStateIdx stateKeys mp.toKey with
  | error e => rw [hdi] at h; exact Except.noConfusion h
  | ok d =>
      rw [hdi, htr] at h
      exact Except.noConfusion h

theorem bdtMapStep_prov (stateKeys : List String) (alpha : List Char) (srcKey : String)
    (i : Nat) (mp : YamlTransitionMapping) :
    ∀ (t t' : List (Option Nat)),
      bdtMapStep stateKeys alpha srcKey i t mp = .ok t' →
      provP (fun pos dd => getStateIdx stateKeys mp.toKey = .ok dd ∧
        ∃ cs, toTransitionTrigger mp.onv alpha = .ok (.Chars cs) ∧
          ∃ c ∈ cs, ∃ a, getAlphabetIdx alpha c = .ok a ∧
            pos = i * alpha.length + a) t t' := by
  intro t t' h
  simp only [bdtMapStep] at h
  cases hdi : getStateIdx stateKeys mp.toKey with
  | error e => rw [hdi] at h; exact Except.noConfusion h
  | ok d =>
      rw [hdi] at h
      cases htr : toTransitionTrigger mp.onv alpha with
      | error e => rw [htr] at h; exact Except.noConfusion h
      | ok tr =>
          rw [htr] at h
          cases tr with
          | Epsilon => exact Except.noConfusion h
          | Chars cs =>
              have h2 : cs.foldlM (bdtCharStep alpha i d) t = .ok t' := h
              have hchain := exceptFold_chain
                (provP (fun pos dd => dd = d ∧ ∃ c' ∈ cs, ∃ a,
                  getAlphabetIdx alpha c' = .ok a ∧ pos = i * alpha.length + a))
                (provP_refl _) (provP_trans _) _ cs t t'
                (fun b0 c hc b' hb => bdtCharStep_prov alpha i d cs b0 c hc b' hb) h2
              refine provP_mono ?_ hchain.1
              rintro pos dd ⟨rfl, c', hc', a, ha, rfl⟩
              exact ⟨rfl, cs, rfl, c', hc', a, ha, rfl⟩

theorem bdtRowStep_mono (stateKeys : List String) (alpha : List Char) :
    ∀ (t : List (Option Nat)) (p : String × List YamlTransitionMapping)
      (t' : List (Option Nat)),
      bdtRowStep stateKeys alpha t p = .ok t' → cellMono t t' := by
  intro t p t' h
  simp only [bdtRowStep] at h
  cases hsi : getStateIdx stateKeys p.1 with
  | error e => rw [hsi] at h; exact Except.noConfusion h
  | ok i =>
      rw [hsi] at h
      have h2 : p.2.foldlM (bdtMapStep stateKeys alpha p.1 i) t = .ok t' := h
      exact (exceptFold_chain cellMono cellMono_refl cellMono_trans _ p.2 t t'
        (fun b0 mp _ b' hb => bdtMapStep_mono stateKeys alpha p.1 i b0 mp b' hb) h2).1

theorem bdtRowStep_prov (stateKeys : List String) (alpha : List Char)
    (p : String × List YamlTransitionMapping) :
    ∀ (t t' : List (Option Nat)),
      bdtRowStep stateKeys alpha t p = .ok t' →
      provP (fun pos dd => ∃ i, getStateIdx stateKeys p.1 = .ok i ∧
        ∃ mp ∈ p.2, getStateIdx stateKeys mp.toKey = .ok dd ∧
          ∃ cs, toTransitionTrigger mp.onv alpha = .ok (.Chars cs) ∧
            ∃ c ∈ cs, ∃ a, getAlphabetIdx alpha c = .ok a ∧
              pos = i * alpha.length + a) t t' := by
  intro t t' h
  simp only [bdtRowStep] at h
  cases hsi : getStateIdx stateKeys p.1 with
  | error e => rw [hsi] at h; exact Except.noConfusion h
  | ok i =>
      rw [hsi] at h
      have h2 : p.2.foldlM (bdtMapStep stateKeys alpha p.1 i) t = .ok t' := h
      have hchain := exceptFold_chain
        (provP (fun pos dd => ∃ mp ∈ p.2, getStateIdx stateKeys mp.toKey = .ok dd ∧
          ∃ cs, toTransitionTrigger mp.onv alpha = .ok (.Chars cs) ∧
            ∃ c ∈ cs, ∃ a, getAlphabetIdx alpha c = .ok a ∧
              pos = i * alpha.length + a))
        (provP_refl _) (provP_trans _) _ p.2 t t'
        (fun b0 mp hmp b' hb => provP_mono
          (fun pos dd hq => ⟨mp, hmp, hq.1, hq.2⟩)
          (bdtMapStep_prov stateKeys alpha p.1 i mp b0 b' hb)) h2
      refine provP_mono ?_ hchain.1
      rintro pos dd ⟨mp, hmp, hdd, rest⟩
      exact ⟨i, rfl, mp, hmp, hdd, rest⟩

theorem replicate_getD_none (k pos : Nat) :
    (List.replicate k (none : Option Nat)).getD pos none = none := by
  rw [List.getD_eq_getElem?_getD, List.getElem?_replicate]
  split <;> rfl

theorem buildDfa_ok_spec {stateKeys : List String} {alpha : List Char}
    {trans : List (String × List YamlTransitionMapping)} {tbl : List Nat}
    (h : buildDfaTransitions stateKeys trans alpha = .ok tbl) :
    (∀ p ∈ trans, ∀ mp ∈ p.2, toTransitionTrigger mp.onv alpha ≠ .ok .Epsilon) ∧
    (∀ i a d d', coversCell stateKeys alpha trans i a d →
      coversCell stateKeys alpha trans i a d' → d = d') ∧
    (∀ i, i < stateKeys.length → ∀ a, a < alpha.length →
      ∃ d, coversCell stateKeys alpha trans i a d) ∧
    tbl.length = stateKeys.length * alpha.length ∧
    (∀ x ∈ tbl, x < stateKeys.length) := by
  simp only [buildDfaTransitions] at h
  cases hof : trans.foldlM (bdtRowStep stateKeys alpha)
      (List.replicate (stateKeys.length * alpha.length) (none : Option Nat)) with
  | error e => rw [hof] at h; exact Except.noConfusion h
  | ok optT =>
      rw [hof] at h
      have h2 : (match optT.mapM id with
        | some finalTable => Except.ok finalTable
        | none => Except.error (Failure.failure "Incomplete transitions")) =
          Except.ok tbl := h
      cases hmm : optT.mapM id with
      | none => rw [hmm] at h2; exact Except.noConfusion h2
      | some ft =>
          rw [hmm] at h2
          have hft : ft = tbl := by
            cases h2
            rfl
          rw [hft] at hmm
          obtain ⟨hmono, hrest⟩ := exceptFold_chain cellMono cellMono_refl cellMono_trans
            _ trans _ _ (fun b0 p _ b' hb => bdtRowStep_mono stateKeys alpha b0 p b' hb)
            hof
          obtain ⟨hprov, -⟩ := exceptFold_chain (provP (coversPos stateKeys alpha trans))
            (provP_refl _) (provP_trans _) _ trans _ _
            (fun b0 p hp b' hb => provP_mono (fun pos dd hq => by
              obtain ⟨i, hi, mp, hmp, hdd, cs, htr, c, hc, a, ha, hpos⟩ := hq
              exact ⟨i, a, hpos, p, hp, mp, hmp, hi, hdd, cs, htr, c, hc, ha⟩)
              (bdtRowStep_prov stateKeys alpha p b0 b' hb)) hof
          have holen : optT.length = stateKeys.length * alpha.length := by
            rw [hmono.1, List.length_replicate]
          obtain ⟨hftlen, hftpt⟩ := mapM_id_some optT tbl hmm
          have hrec : ∀ i a dd, coversCell stateKeys alpha trans i a dd →
              optT.getD (i * alpha.length + a) none = some dd := by
            rintro i a dd ⟨p, hp, mp, hmp, hi, hdd, cs, htr, c, hc, ha⟩
            obtain ⟨ti, to2, hstep, hm1, hm2⟩ := hrest p hp
            simp only [bdtRowStep] at hstep
            rw [hi] at hstep
            have hstep2 : p.2.foldlM (bdtMapStep stateKeys alpha p.1 i) ti = .ok to2 :=
              hstep
            obtain ⟨-, hrest2⟩ := exceptFold_chain cellMono cellMono_refl cellMono_trans
              _ p.2 ti to2
              (fun b0 mp' _ b' hb => bdtMapStep_mono stateKeys alpha p.1 i b0 mp' b' hb)
              hstep2
            obtain ⟨mi, mo, hmstep, hmm1, hmm2⟩ := hrest2 mp hmp
            simp only [bdtMapStep] at hmstep
            rw [hdd, htr] at hmstep
            have hmstep2 : cs.foldlM (bdtCharStep alpha i dd) mi = .ok mo := hmstep
            obtain ⟨-, hcrest⟩ := exceptFold_chain cellMono cellMono_refl cellMono_trans
              _ cs mi mo
              (fun b0 c0 _ b' hb => bdtCharStep_mono alpha i dd b0 c0 b' hb) hmstep2
            obtain ⟨ci, co, hcstep, hcm1, hcm2⟩ := hcrest c hc
            have hcilen : ci.length = stateKeys.length * alpha.length := by
              rw [hcm1.1, hmm1.1, hm1.1, List.length_replicate]
            obtain ⟨hilt, -⟩ := getStateIdx_ok hi
            obtain ⟨halt, -⟩ := getAlphabetIdx_ok ha
            have hposlt : i * alpha.length + a < ci.length := by
              rw [hcilen]
              exact rowcol_lt hilt halt
            have hcell := bdtCharStep_records alpha i dd ci c co a ha hcstep hposlt
            exact hm2.2 _ _ (hmm2.2 _ _ (hcm2.2 _ _ hcell))
          refine ⟨?_, ?_, ?_, by rw [hftlen, holen], ?_⟩
          · intro p hp mp hmp htr
            obtain ⟨ti, to2, hstep⟩ := exceptFold_forall_ok _ trans _ _ hof p hp
            simp only [bdtRowStep] at hstep
            cases hsi : getStateIdx stateKeys p.1 with
            | error e => rw [hsi] at hstep; exact Except.noConfusion hstep
            | ok i =>
                rw [hsi] at hstep
                have hstep2 : p.2.foldlM (bdtMapStep stateKeys alpha p.1 i) ti =
                    .ok to2 := hstep
                obtain ⟨mi, mo, hmstep⟩ := exceptFold_forall_ok _ p.2 _ _ hstep2 mp hmp
                exact bdtMapStep_no_epsilon stateKeys alpha p.1 i mi mp mo hmstep htr
          · intro i a d d' hcov hcov'
            have e1 := hrec i a d hcov
            have e2 := hrec i a d' hcov'
            rw [e1] at e2
            exact Option.some.inj e2
          · intro i hi a ha
            have hposlt : i * alpha.length + a < optT.length := by
              rw [holen]
              exact rowcol_lt hi ha
            have hcell := hftpt (i * alpha.length + a) hposlt
            rcases hprov.2 _ _ hcell with hbase | hcp
            · rw [replicate_getD_none] at hbase
              exact absurd hbase (by simp)
            · obtain ⟨i', a', hpos', hcc⟩ := hcp
              obtain ⟨p, hp, mp, hmp, hi', hdd, cs, htr, c, hc, ha'⟩ := hcc
              obtain ⟨halt', -⟩ := getAlphabetIdx_ok ha'
              obtain ⟨heqi, heqa⟩ := rowcol_inj ha halt' hpos'
              subst heqi
              subst heqa
              exact ⟨_, p, hp, mp, hmp, hi', hdd, cs, htr, c, hc, ha'⟩
          · intro x hx
            obtain ⟨⟨pos, hposlt⟩, hget⟩ := List.mem_iff_get.1 hx
            have hcell := hftpt pos (by rw [← hftlen]; exact hposlt)
            have hgetD : tbl.getD pos 0 = x := by
              rw [List.getD_eq_getElem?_getD, List.getElem?_eq_getElem hposlt]
              exact hget
            rw [hgetD] at hcell
            rcases hprov.2 _ _ hcell with hbase | hcp
            · rw [replicate_getD_none] at hbase
              exact absurd hbase (by simp)
            · obtain ⟨i', a', -, hcc⟩ := hcp
              obtain ⟨p, hp, mp, hmp, hi', hdd, cs, htr, c, hc, ha'⟩ := hcc
              obtain ⟨hlt, -⟩ := getStateIdx_ok hdd
              exact hlt

theorem nfaFromYaml_ok {stateKeys : List String} {startIdx : Nat} {accepts : List Bool}
    {trans : List (String × List YamlTransitionMapping)} {alpha : List Char}
    (hres : ∀ p ∈ trans, (∃ i, getStateIdx stateKeys p.1 = .ok i) ∧
      ∀ mp ∈ p.2, (∃ d, getStateIdx stateKeys mp.toKey = .ok d) ∧
        ∃ tr, toTransitionTrigger mp.onv alpha = .ok tr) :
    ∃ nfa, nfaFromYaml stateKeys startIdx accepts trans alpha = .ok nfa := by
  have hfold : ∃ t2, trans.foldlM (nfyRowStep stateKeys alpha) ([] : TransMap) =
      .ok t2 := by
    refine exceptFold_ok _ trans ?_ []
    intro b p hp
    obtain ⟨⟨i, hi⟩, hmaps⟩ := hres p hp
    simp only [nfyRowStep]
    rw [hi]
    refine exceptFold_ok _ p.2 ?_ b
    intro b1 mp hmp
    obtain ⟨⟨d, hd⟩, tr, htr⟩ := hmaps mp hmp
    simp only [nfyMapStep]
    rw [hd, htr]
    cases tr with
    | Epsilon => exact ⟨_, rfl⟩
    | Chars cs => exact ⟨_, rfl⟩
  obtain ⟨t2, ht2⟩ := hfold
  refine ⟨⟨t2, startIdx,
    (List.range accepts.length).filter fun i => accepts.getD i false, stateKeys⟩, ?_⟩
  simp only [nfaFromYaml]
  rw [ht2]
  rfl

theorem crangeFold_no_failure :
    ∀ (k cur : Nat) (acc : List Char) (msg : String),
      crangeFold k cur acc ≠ .error (.failure msg) := by
  intro k
  induction k with
  | zero =>
      intro cur acc msg h
      exact Except.noConfusion h
  | succ n ih =>
      intro cur acc msg h
      simp only [crangeFold] at h
      by_cases hv : Nat.isValidChar cur
      · rw [if_pos hv] at h
        exact ih _ _ _ h
      · rw [if_neg hv] at h
        exact Failure.noConfusion (Except.error.inj h)

theorem crangeSet_failure_iff (cr : String) :
    (∃ msg, crangeSet cr = .error (.failure msg)) ↔
      ((splitDots cr.data).length ≠ 2 ∨
        ((splitDots cr.data).getD 0 []).head? = none ∨
        ((splitDots cr.data).getD 1 []).head? = none ∨
        ∃ s e, ((splitDots cr.data).getD 0 []).head? = some s ∧
          ((splitDots cr.data).getD 1 []).head? = some e ∧ e < s) := by
  by_cases h2 : (splitDots cr.data).length ≠ 2
  · have hval : crangeSet cr = .error (.failure ("Invalid character range: " ++ cr)) := by
      simp only [crangeSet]
      rw [if_pos h2]
    rw [hval]
    exact iff_of_true ⟨_, rfl⟩ (.inl h2)
  · cases hh0 : ((splitDots cr.data).getD 0 []).head? with
    | none =>
        have hval : crangeSet cr = .error (.failure ("Empty start in range: " ++ cr)) := by
          simp only [crangeSet]
          rw [if_neg h2, hh0]
        rw [hval]
        exact iff_of_true ⟨_, rfl⟩ (.inr (.inl rfl))
    | some s =>
        cases hh1 : ((splitDots cr.data).getD 1 []).head? with
        | none =>
            have hval : crangeSet cr =
                .error (.failure ("Empty end in range: " ++ cr)) := by
              simp only [crangeSet]
              rw [if_neg h2, hh0, hh1]
            rw [hval]
            exact iff_of_true ⟨_, rfl⟩ (.inr (.inr (.inl rfl)))
        | some e =>
            have hval : crangeSet cr = if e < s then
                Except.error (Failure.failure
                  ("Start character greater than end in range: " ++ cr))
              else crangeFold (e.toNat + 1 - s.toNat) s.toNat [] := by
              simp only [crangeSet]
              rw [if_neg h2, hh0, hh1]
            rw [hval]
            by_cases hlt : e < s
            · rw [if_pos hlt]
              exact iff_of_true ⟨_, rfl⟩ (.inr (.inr (.inr ⟨s, e, rfl, rfl, hlt⟩)))
            · rw [if_neg hlt]
              constructor
              · rintro ⟨msg, hmsg⟩
                exact absurd hmsg (crangeFold_no_failure _ _ _ msg)
              · rintro (h | h | h | ⟨s', e', hs', he', hlt'⟩)
                · exact absurd h h2
                · exact Option.noConfusion h
                · exact Option.noConfusion h
                · cases hs'
                  cases he'
                  exact absurd hlt' hlt

theorem matches_concat_eq {e1 e2 : Expression} {u v : List Char}
    (h1 : ∀ w, Matches e1 w ↔ w = u) (h2 : ∀ w, Matches e2 w ↔ w = v) :
    ∀ w, Matches (.Concat e1 e2) w ↔ w = u ++ v := by
  intro w
  rw [matches_concat_iff]
  constructor
  · rintro ⟨w1, w2, rfl, ha, hb⟩
    rw [h1] at ha
    rw [h2] at hb
    rw [ha, hb]
  · rintro rfl
    exact ⟨u, v, rfl, (h1 u).2 rfl, (h2 v).2 rfl⟩

theorem matches_ab3_iff :
    ∀ w, Matches (.Concat (.Concat (.Concat (.Literal 'a') (.Literal 'b'))
        (.Concat (.Literal 'a') (.Literal 'b'))) (.Concat (.Literal 'a') (.Literal 'b')))
      w ↔ w = ['a', 'b', 'a', 'b', 'a', 'b'] := by
  have l : ∀ c : Char, ∀ w, Matches (.Literal c) w ↔ w = [c] :=
    fun c w => matches_literal_iff
  have hab := matches_concat_eq (l 'a') (l 'b')
  exact matches_concat_eq (matches_concat_eq hab hab) hab

theorem matches_ababab_iff :
    ∀ w, Matches (.Concat (.Concat (.Concat (.Concat (.Concat (.Literal 'a')
        (.Literal 'b')) (.Literal 'a')) (.Literal 'b')) (.Literal 'a')) (.Literal 'b'))
      w ↔ w = ['a', 'b', 'a', 'b', 'a', 'b'] := by
  have l : ∀ c : Char, ∀ w, Matches (.Literal c) w ↔ w = [c] :=
    fun c w => matches_literal_iff
  exact matches_concat_eq (matches_concat_eq (matches_concat_eq
    (matches_concat_eq (matches_concat_eq (l 'a') (l 'b')) (l 'a')) (l 'b')) (l 'a'))
    (l 'b')

/-- C1: the regex pipeline is correct: every expression `E` that compiles
(`parse` → Thompson NFA → subset-construction DFA) yields a DFA whose run
returns `true` exactly on the words of `L(E)`; concretely, the pipeline applied
to `(a|b)*abb` accepts `abb`, `aabb`, `babb`, `ababb` and rejects the empty
string, `ab` and `abba`. -/
theorem C1 :
    (∀ (fuel : Nat) (E : Expression) (fsm : Fsm) (w : List Char),
      compileExpr fuel E = some fsm → (dfaRun fsm.dfaOf w = true ↔ Matches E w)) ∧
    runRegex 100 "(a|b)*abb" "abb" = some true ∧
    runRegex 100 "(a|b)*abb" "aabb" = some true ∧
    runRegex 100 "(a|b)*abb" "babb" = some true ∧
    runRegex 100 "(a|b)*abb" "ababb" = some true ∧
    runRegex 100 "(a|b)*abb" "" = some false ∧
    runRegex 100 "(a|b)*abb" "ab" = some false ∧
    runRegex 100 "(a|b)*abb" "abba" = some false :=
  ⟨fun _ _ _ w h => compileExpr_run h w, by decide, by decide, by decide, by decide,
    by decide, by decide, by decide⟩

theorem C1_witness :
    compileExpr 100 Expression.Epsilon =
      some ((compileExpr 100 Expression.Epsilon).get (by decide)) ∧
    (dfaRun ((compileExpr 100 Expression.Epsilon).get (by decide)).dfaOf [] = true ↔
      Matches Expression.Epsilon []) :=
  ⟨(Option.some_get _).symm,
    C1.1 100 Expression.Epsilon _ [] (Option.some_get _).symm⟩

/-- C2: `Dfa::run` (which caches the alphabet index of the previously seen
character) agrees with the reference algorithm of spec §4.6 on every DFA and
every input, and empty input is accepted iff the start state is accepting. -/
theorem C2 :
    (∀ (d : Dfa) (w : List Char), dfaRun d w = specRun d w) ∧
    (∀ d : Dfa, dfaRun d [] = d.accept_states.getD d.start_state_idx false) :=
  ⟨dfaRun_eq_specRun, fun _ => rfl⟩

/-- C3: every successfully constructed DFA — determinized (`Nfa::to_dfa`) or
from a DFA-mode spec (`build_dfa_transitions`) — has a transition table with
exactly `|states| · |alphabet|` entries, each a valid state index; a
determinized DFA starts at index 0. -/
theorem C3 :
    (∀ (nfa : Nfa) (alphabet : List Char) (fuel : Nat) (d : Dfa),
      Nfa.toDfa nfa alphabet fuel = some d →
      d.transition_table.length = d.state_keys.length * d.alphabet.length ∧
      (∀ x ∈ d.transition_table, x < d.state_keys.length) ∧
      d.start_state_idx = 0) ∧
    (∀ (stateKeys : List String) (trans : List (String × List YamlTransitionMapping))
        (alpha : List Char) (tbl : List Nat),
      buildDfaTransitions stateKeys trans alpha = .ok tbl →
      tbl.length = stateKeys.length * alpha.length ∧ ∀ x ∈ tbl, x < stateKeys.length) := by
  constructor
  · intro nfa alphabet fuel d h
    rw [Nfa.toDfa, Option.map_eq_some'] at h
    obtain ⟨stF, hsc, rfl⟩ := h
    obtain ⟨inv, hwl, pa, S0, tl, hseq, hS0⟩ := subsetConstruct_spec hsc
    have hne : stF.dfa_states ≠ [] := by
      rw [hseq]
      simp
    refine ⟨?_, ?_, rfl⟩
    · rw [assemble_table_length, assemble_keys_length, assembleDfa_alphabet]
    · intro x hx
      rw [assemble_keys_length]
      exact assemble_entries_lt nfa inv hne x hx
  · intro sk tr al tb h
    exact ⟨(buildDfa_ok_spec h).2.2.2.1, (buildDfa_ok_spec h).2.2.2.2⟩

theorem C3_witness :
    Nfa.toDfa nfaA ['a'] 10 = some ((Nfa.toDfa nfaA ['a'] 10).get (by decide)) ∧
    ((Nfa.toDfa nfaA ['a'] 10).get (by decide)).transition_table.length =
      ((Nfa.toDfa nfaA ['a'] 10).get (by decide)).state_keys.length *
        ((Nfa.toDfa nfaA ['a'] 10).get (by decide)).alphabet.length :=
  ⟨(Option.some_get _).symm, (C3.1 nfaA ['a'] 10 _ (Option.some_get _).symm).1⟩

/-- C4: in the determinizer, a synthetic dead state is needed iff some
`(state, symbol)` pair has no transition after the worklist drains; when
allocated it is the last state index, its row self-loops, it is keyed
`FAILURE`, it is not accepting, and it fills every otherwise-missing table
entry; when nothing is missing no extra state is allocated. -/
theorem C4 :
    ∀ (nfa : Nfa) (alphabet : List Char) (fuel : Nat) (stF : SubsetState),
      subsetConstruct nfa alphabet fuel = some stF →
      ((needsDeadState stF.dfa_states.length alphabet.length stF.dfa_transitions = true ↔
        ∃ i, i < stF.dfa_states.length ∧ ∃ j, j < alphabet.length ∧
          lookupKV stF.dfa_transitions (i, j) = none) ∧
      (assembleDfa nfa alphabet stF).state_keys.length =
        stF.dfa_states.length +
          (if needsDeadState stF.dfa_states.length alphabet.length stF.dfa_transitions
            then 1 else 0) ∧
      (needsDeadState stF.dfa_states.length alphabet.length stF.dfa_transitions = true →
        (assembleDfa nfa alphabet stF).state_keys.getD stF.dfa_states.length "" =
          "FAILURE" ∧
        (assembleDfa nfa alphabet stF).accept_states.getD stF.dfa_states.length false =
          false ∧
        (∀ j, j < alphabet.length →
          (assembleDfa nfa alphabet stF).transition_table.getD
            (stF.dfa_states.length * alphabet.length + j) 0 = stF.dfa_states.length) ∧
        (∀ i j, i < stF.dfa_states.length → j < alphabet.length →
          lookupKV stF.dfa_transitions (i, j) = none →
          (assembleDfa nfa alphabet stF).transition_table.getD
            (i * alphabet.length + j) 0 = stF.dfa_states.length))) := by
  intro nfa alphabet fuel stF hsc
  obtain ⟨inv, hwl, pa, S0, tl, hseq, hS0⟩ := subsetConstruct_spec hsc
  refine ⟨needsDeadState_iff, assemble_keys_length nfa, ?_⟩
  intro hneeds
  refine ⟨assemble_keys_getD_dead nfa hneeds,
    assemble_accept_getD_ge nfa (Nat.le_refl _), ?_, ?_⟩
  · intro j hj
    exact assemble_entry_deadrow nfa inv hneeds hj
  · intro i j hi hj hmiss
    exact assemble_entry_none nfa inv hmiss hi hj

theorem C4_witness :
    subsetConstruct nfaA ['a'] 10 =
      some ((subsetConstruct nfaA ['a'] 10).get (by decide)) ∧
    needsDeadState ((subsetConstruct nfaA ['a'] 10).get (by decide)).dfa_states.length 1
      ((subsetConstruct nfaA ['a'] 10).get (by decide)).dfa_transitions = true ∧
    (assembleDfa nfaA ['a'] ((subsetConstruct nfaA ['a'] 10).get
        (by decide))).state_keys.getD
      ((subsetConstruct nfaA ['a'] 10).get (by decide)).dfa_states.length "" =
      "FAILURE" :=
  ⟨(Option.some_get _).symm, by decide,
    ((C4 nfaA ['a'] 10 _ (Option.some_get _).symm).2.2 (by decide)).1⟩

/-- C5: loader validation depends on the `dfa` flag: a successful DFA-mode
construction implies there was no ε-trigger, no ambiguous `(state, symbol)`
cell, and no uncovered cell; in NFA mode none of these checks is performed —
any spec whose state names and triggers resolve is accepted, deterministic and
total or not. -/
theorem C5 :
    (∀ (stateKeys : List String) (trans : List (String × List YamlTransitionMapping))
        (alpha : List Char) (tbl : List Nat),
      buildDfaTransitions stateKeys trans alpha = .ok tbl →
      (∀ p ∈ trans, ∀ mp ∈ p.2, toTransitionTrigger mp.onv alpha ≠ .ok .Epsilon) ∧
      (∀ i a d d', coversCell stateKeys alpha trans i a d →
        coversCell stateKeys alpha trans i a d' → d = d') ∧
      (∀ i, i < stateKeys.length → ∀ a, a < alpha.length →
        ∃ d, coversCell stateKeys alpha trans i a d)) ∧
    (∀ (stateKeys : List String) (startIdx : Nat) (accepts : List Bool)
        (trans : List (String × List YamlTransitionMapping)) (alpha : List Char),
      (∀ p ∈ trans, (∃ i, getStateIdx stateKeys p.1 = .ok i) ∧
        ∀ mp ∈ p.2, (∃ d, getStateIdx stateKeys mp.toKey = .ok d) ∧
          ∃ tr, toTransitionTrigger mp.onv alpha = .ok tr) →
      ∃ nfa, nfaFromYaml stateKeys startIdx accepts trans alpha = .ok nfa) :=
  ⟨fun _ _ _ _ h =>
    ⟨(buildDfa_ok_spec h).1, (buildDfa_ok_spec h).2.1, (buildDfa_ok_spec h).2.2.1⟩,
   fun _ _ _ _ _ h => nfaFromYaml_ok h⟩

theorem C5_witness :
    buildDfaTransitions ["q0"]
        [("q0", [(⟨"q0", .Keyword .alphabet⟩ : YamlTransitionMapping)])] ['a'] =
      .ok [0] ∧
    (∀ p ∈ [("q0", [(⟨"q0", .Keyword .alphabet⟩ : YamlTransitionMapping)])],
      ∀ mp ∈ p.2, toTransitionTrigger mp.onv ['a'] ≠ .ok .Epsilon) ∧
    (∃ nfa, nfaFromYaml ["q0"] 0 [true]
        [("q0", [(⟨"q0", .Keyword .alphabet⟩ : YamlTransitionMapping)])] ['a'] =
      .ok nfa) :=
  ⟨by decide,
   (C5.1 ["q0"] _ ['a'] [0] (by decide)).1,
   C5.2 ["q0"] 0 [true] _ ['a'] (by
     intro p hp
     fin_cases hp
     refine ⟨⟨0, rfl⟩, ?_⟩
     intro mp hmp
     fin_cases hmp
     exact ⟨⟨0, rfl⟩, ⟨.Chars ['a'], rfl⟩⟩)⟩

/-- C6: a trigger `{except: ["x","y"]}` deserializes as the `Except` variant
with a list value (not as a malformed range map) and resolves to the
complement within the declared alphabet: with alphabet `a..z` it fires on
exactly the 24 letters other than `x` and `y`. -/
theorem C6 :
    deserializeTransitionOn (.mapv [("except", .list [.str "x", .str "y"])]) =
      .ok (.Except (.Multiple [.Literal "x", .Literal "y"])) ∧
    deserializeSymbolSpecifier (.list [.str "x", .str "y"]) =
      .error (.failure "expected a string literal or a range map") ∧
    ∃ cs, toTransitionTrigger (.Except (.Multiple [.Literal "x", .Literal "y"]))
        "abcdefghijklmnopqrstuvwxyz".data = .ok (.Chars cs) ∧
      cs.length = 24 ∧
      ∀ c : Char, c ∈ cs ↔
        (c ∈ "abcdefghijklmnopqrstuvwxyz".data ∧ c ≠ 'x' ∧ c ≠ 'y') := by
  refine ⟨by decide, by decide,
    "abcdefghijklmnopqrstuvwxyz".data.filter
      (fun c => !((['x', 'y'] : List Char).contains c)), by decide, by decide, ?_⟩
  intro c
  rw [List.mem_filter]
  simp

/-- C7: the postfix desugarings are behavior-preserving: `a+` parses to the
same expression as `aa*` (a concatenation with a cloned subtree under the
star), `a?` parses to `Alternate(a, ε)`, `(ab)^3` parses to the 3-fold
concatenation, and the compiled automata of `(ab)^3` and `ababab` decide the
same language. -/
theorem C7 :
    parseRegex 100 "a+" = parseRegex 100 "aa*" ∧
    parseRegex 100 "a+" = pOk (.Concat (.Literal 'a') (.Star (.Literal 'a'))) ∧
    parseRegex 100 "a?" = pOk (.Alternate (.Literal 'a') .Epsilon) ∧
    parseRegex 100 "(ab)^3" = pOk (.Concat (.Concat (.Concat (.Literal 'a')
      (.Literal 'b')) (.Concat (.Literal 'a') (.Literal 'b')))
      (.Concat (.Literal 'a') (.Literal 'b'))) ∧
    (∀ input : String, runRegex 100 "a+" input = runRegex 100 "aa*" input) ∧
    (∀ input : String, runRegex 100 "(ab)^3" input = runRegex 100 "ababab" input) := by
  refine ⟨by decide, by decide, by decide, by decide, ?_, ?_⟩
  · intro input
    simp only [runRegex, fromRegex]
    rw [show parseRegex 100 "a+" = parseRegex 100 "aa*" from by decide]
  · intro input
    have hp1 : parseRegex 100 "(ab)^3" = pOk (.Concat (.Concat (.Concat (.Literal 'a')
        (.Literal 'b')) (.Concat (.Literal 'a') (.Literal 'b')))
        (.Concat (.Literal 'a') (.Literal 'b'))) := by decide
    have hp2 : parseRegex 100 "ababab" = pOk (.Concat (.Concat (.Concat (.Concat
        (.Concat (.Literal 'a') (.Literal 'b')) (.Literal 'a')) (.Literal 'b'))
        (.Literal 'a')) (.Literal 'b')) := by decide
    have hf1 : fromRegex 100 "(ab)^3" =
        (compileExpr 100 (.Concat (.Concat (.Concat (.Literal 'a') (.Literal 'b'))
          (.Concat (.Literal 'a') (.Literal 'b')))
          (.Concat (.Literal 'a') (.Literal 'b')))).map Except.ok := by
      simp only [fromRegex]
      rw [hp1]
      rfl
    have hf2 : fromRegex 100 "ababab" =
        (compileExpr 100 (.Concat (.Concat (.Concat (.Concat (.Concat (.Literal 'a')
          (.Literal 'b')) (.Literal 'a')) (.Literal 'b')) (.Literal 'a'))
          (.Literal 'b'))).map Except.ok := by
      simp only [fromRegex]
      rw [hp2]
      rfl
    have hs1 : (compileExpr 100 (.Concat (.Concat (.Concat (.Literal 'a')
        (.Literal 'b')) (.Concat (.Literal 'a') (.Literal 'b')))
        (.Concat (.Literal 'a') (.Literal 'b')))).isSome = true := by decide
    have hs2 : (compileExpr 100 (.Concat (.Concat (.Concat (.Concat (.Concat
        (.Literal 'a') (.Literal 'b')) (.Literal 'a')) (.Literal 'b')) (.Literal 'a'))
        (.Literal 'b'))).isSome = true := by decide
    obtain ⟨fsm1, hc1⟩ := Option.isSome_iff_exists.1 hs1
    obtain ⟨fsm2, hc2⟩ := Option.isSome_iff_exists.1 hs2
    have hr1 : runRegex 100 "(ab)^3" input = some (dfaRun fsm1.dfaOf input.data) := by
      simp only [runRegex]
      rw [hf1, hc1]
      rfl
    have hr2 : runRegex 100 "ababab" input = some (dfaRun fsm2.dfaOf input.data) := by
      simp only [runRegex]
      rw [hf2, hc2]
      rfl
    rw [hr1, hr2]
    have h1 := compileExpr_run hc1 input.data
    have h2 := compileExpr_run hc2 input.data
    rw [matches_ab3_iff] at h1
    rw [matches_ababab_iff] at h2
    have hiff := h1.trans h2.symm
    cases hb1 : dfaRun fsm1.dfaOf input.data <;>
      cases hb2 : dfaRun fsm2.dfaOf input.data
    · rfl
    · rw [hb1, hb2] at hiff
      simp at hiff
    · rw [hb1, hb2] at hiff
      simp at hiff
    · rfl

/-- C9: the alphabet of a DFA compiled from a regex is exactly the set of
literal characters of the pattern (collected from the non-ε labels of the
Thompson NFA), and its run returns `false` on any input containing a
character that is not a literal of the regex. -/
theorem C9 :
    ∀ (fuel : Nat) (re : String) (fsm : Fsm),
      fromRegex fuel re = some (.ok fsm) →
      ∃ E, parseRegex fuel re = pOk E ∧
        (∀ c : Char, c ∈ fsm.dfaOf.alphabet ↔ c ∈ exprLiterals E) ∧
        (∀ (w : List Char) (c : Char), c ∈ w → c ∉ exprLiterals E →
          dfaRun fsm.dfaOf w = false) := by
  intro fuel re fsm h
  simp only [fromRegex] at h
  cases hp : parseRegex fuel re with
  | none => rw [hp] at h; exact Option.noConfusion h
  | some r =>
      rw [hp] at h
      cases r with
      | error e => exact Except.noConfusion (Option.some.inj h)
      | ok E =>
          obtain ⟨fsm', hc, heq⟩ := Option.map_eq_some'.1 h
          have hfsm : fsm' = fsm := Except.ok.inj heq
          subst hfsm
          exact ⟨E, rfl, compileExpr_alphabet hc,
            fun w c hcw hcnot => compileExpr_run_false hc hcw hcnot⟩

theorem C9_witness :
    fromRegex 50 "a" = some (.ok ((okFsm (fromRegex 50 "a")).get (by decide))) ∧
    ∃ E, parseRegex 50 "a" = pOk E ∧
      (∀ c : Char, c ∈ ((okFsm (fromRegex 50 "a")).get (by decide)).dfaOf.alphabet ↔
        c ∈ exprLiterals E) ∧
      (∀ (w : List Char) (c : Char), c ∈ w → c ∉ exprLiterals E →
        dfaRun ((okFsm (fromRegex 50 "a")).get (by decide)).dfaOf w = false) :=
  ⟨rfl, C9 50 "a" _ rfl⟩

/-- C10: a `crange` whose endpoint segments have more than one character is
not an error: the range expands using only the first character of each
segment (`ab..cd` yields exactly `a`, `b`, `c`); a `crange` error value is
returned exactly for a missing `..` separator, an empty endpoint segment, or
a first-start-character greater than the first-end-character. -/
theorem C10 :
    crangeSet "ab..cd" = .ok ['a', 'b', 'c'] ∧
    toCharSet (.Map ⟨some "ab..cd", none⟩) = .ok ['a', 'b', 'c'] ∧
    (∀ cr : String, (∃ msg, crangeSet cr = .error (.failure msg)) ↔
      ((splitDots cr.data).length ≠ 2 ∨
        ((splitDots cr.data).getD 0 []).head? = none ∨
        ((splitDots cr.data).getD 1 []).head? = none ∨
        ∃ s e, ((splitDots cr.data).getD 0 []).head? = some s ∧
          ((splitDots cr.data).getD 1 []).head? = some e ∧ e < s)) :=
  ⟨by decide, by decide, crangeSet_failure_iff⟩

/-- C8: refuted — loading does not always return a value or a typed error:
expanding the character range `U+D7FF..U+E000` reaches the surrogate code
points, where `char::from_u32` yields `None` and the loader aborts the
process (`unwrap_or_else(|| panic!(..))`, modelled as `Failure.panicked`)
instead of returning an error value; the abort is reachable from
`read_alphabet` and from `from_yaml`. -/
theorem C8 :
    toCharSet (.Map ⟨some "\uD7FF..\uE000", none⟩) = .error .panicked ∧
    readAlphabet [.Map ⟨some "\uD7FF..\uE000", none⟩] = .error .panicked ∧
    fromYaml 10 ⟨true, [("q0", ⟨true⟩)], [.Map ⟨some "\uD7FF..\uE000", none⟩], "q0", []⟩ =
      some (.error .panicked) :=
  ⟨by decide, by decide, by decide⟩
